import Mathlib

/-!
# riban framebuffer library: pixel addressing, colour conversion, drawing

A shallow embedding of `src/ribanfblib.cpp`.

* Machine integers are natural numbers; `uint32_t` arithmetic is reduced
  modulo `2 ^ 32` where the source computes in that type.
* The mapped framebuffer memory is a function from byte offsets (relative to
  `m_pFbmmap`) to byte values.  Offsets beyond the mapping are part of the
  function too, so a store that leaves the mapped region is visible.
* Multi-byte stores (`*(uint16_t*)p = v`, `*(uint32_t*)p = v`) put the least
  significant byte at the lowest address, as on the little-endian ARM and x86
  targets of the library.
-/

namespace ribanfblib

/-! ## Data model -/

/-- The modulus of `uint32_t` arithmetic. -/
def U32 : Nat := 2 ^ 32

/-- Conversion of a signed `int` argument to a `uint32_t` parameter. -/
def toU32 (i : Int) : Nat := (i % (2 ^ 32 : Int)).toNat

/-- The members of the class that the drawing and colour routines read:
    `xres`, `yres`, `bits_per_pixel` of `m_fbVarScreeninfo`, `line_length`
    and `smem_len` of `m_fbFixScreeninfo`, the channel masks and shifts, and
    the memory behind `m_pFbmmap`.  The field `mapped` records that
    `m_pFbmmap` is not the null pointer. -/
structure Surface where
  xres : Nat
  yres : Nat
  bits_per_pixel : Nat
  line_length : Nat
  smem_len : Nat
  mapped : Bool
  m_nRedMask : Nat
  m_nGreenMask : Nat
  m_nBlueMask : Nat
  m_nRedShift : Nat
  m_nGreenShift : Nat
  m_nBlueShift : Nat
  mem : Nat → Nat

namespace Surface

/-- The result of `GetWidth`. -/
def GetWidth (s : Surface) : Nat := s.xres

/-- The result of `GetHeight`. -/
def GetHeight (s : Surface) : Nat := s.yres

/-- The result of `GetDepth`. -/
def GetDepth (s : Surface) : Nat := s.bits_per_pixel

/-- The same surface with other memory contents. -/
def withMem (s : Surface) (m : Nat → Nat) : Surface := { s with mem := m }

/-- The geometry of a surface as the spec's data model describes it: the
    mapping exists, a row holds `xres` pixels of `bits_per_pixel / 8` bytes,
    the mapping holds all `line_length * yres` bytes of the rows, and its
    length `smem_len` fits the `uint32_t` field that reports it. -/
structure WellFormed (s : Surface) : Prop where
  isMapped : s.mapped = true
  strideFits : s.xres * (s.bits_per_pixel / 8) ≤ s.line_length
  rowsFit : s.line_length * s.yres ≤ s.smem_len
  smemFits : s.smem_len < 2 ^ 32

end Surface

/-! ## Colour conversion -/

/-- The static `GetColour32(red, green, blue)`. -/
def GetColour32 (red green blue : Nat) : Nat :=
  (red <<< 16) ||| (green <<< 8) ||| blue

/-- The static `GetColour(colour32, depth)`. -/
def GetColour (colour32 depth : Nat) : Nat :=
  match depth with
  | 8 => ((colour32 &&& 0xE00000) >>> 16) ||| ((colour32 &&& 0x00E000) >>> 11)
           ||| ((colour32 &&& 0x0000C0) >>> 6)
  | 16 => ((colour32 &&& 0xF80000) >>> 8) ||| ((colour32 &&& 0x00FC00) >>> 5)
           ||| ((colour32 &&& 0x0000F8) >>> 3)
  | 24 => colour32
  | 32 => colour32
  | _ => colour32

/-- The member `GetColour(colour)`, which uses the masks and shifts of the
    surface.  A shift count of 32 or more is outside the defined behaviour of
    C++; here it yields what the mathematical shift yields, zero for every
    32-bit operand. -/
def Surface.GetColour (s : Surface) (colour : Nat) : Nat :=
  ((colour &&& s.m_nRedMask) >>> s.m_nRedShift)
    ||| ((colour &&& s.m_nGreenMask) >>> s.m_nGreenShift)
    ||| ((colour &&& s.m_nBlueMask) >>> s.m_nBlueShift)

/-! ## Pixel stores -/

/-- The byte stores of one `n`-byte little-endian store of `v` at `addr`,
    lowest address first. -/
def storeLE (addr n v : Nat) : List (Nat × Nat) :=
  (List.range n).map fun k => (addr + k, (v >>> (8 * k)) % 256)

/-- Performs byte stores in order. -/
def writeAll (m : Nat → Nat) (ws : List (Nat × Nat)) : Nat → Nat :=
  ws.foldl (fun acc w => Function.update acc w.1 w.2) m

/-- The offset `y * line_length + x * n` as `DrawPixel` computes it, in
    `uint32_t`. -/
def Surface.pixelOffset (s : Surface) (x y n : Nat) : Nat :=
  (y * s.line_length + x * n) % U32

/-- The byte stores `DrawPixel(x, y, colour)` performs, in program order. -/
def Surface.DrawPixelWrites (s : Surface) (x y colour : Nat) : List (Nat × Nat) :=
  if x ≥ s.GetWidth ∨ y ≥ s.GetHeight then []
  else
    match s.GetDepth with
    | 32 => storeLE (s.pixelOffset x y 4) 4 (colour % 2 ^ 32)
    | 24 => [(s.pixelOffset x y 3, colour % 256),
             (s.pixelOffset x y 3 + 1, (colour >>> 8) % 256),
             (s.pixelOffset x y 3 + 2, (colour >>> 16) % 256)]
    | 16 => storeLE (s.pixelOffset x y 2) 2 (s.GetColour colour % 2 ^ 16)
    | 8 => [(s.pixelOffset x y 1, s.GetColour colour % 256)]
    | _ => []

/-- The method `DrawPixel(x, y, colour)` with `uint32_t` arguments. -/
def Surface.DrawPixel (s : Surface) (x y colour : Nat) : Surface :=
  s.withMem (writeAll s.mem (s.DrawPixelWrites x y colour))

/-- A call `DrawPixel(x, y, colour)` with `int` arguments, as `drawLine` and
    the shape routines make it. -/
def Surface.DrawPixelInt (s : Surface) (x y : Int) (colour : Nat) : Surface :=
  s.DrawPixel (toU32 x) (toU32 y) colour

/-- The method `Clear(colour)`. -/
def Surface.Clear (s : Surface) (colour : Nat) : Surface :=
  if !s.mapped then s
  else if colour = 0 then
    s.withMem fun i => if i < s.smem_len then 0 else s.mem i
  else
    (List.range s.line_length).foldl
      (fun acc x => (List.range s.yres).foldl (fun acc2 y => acc2.DrawPixel x y colour) acc) s

/-- The word whose low `bits_per_pixel / 8` bytes `DrawPixel` stores for a
    colour: the operand of the store in each case of its `switch`. -/
def Surface.pixelWord (s : Surface) (colour : Nat) : Nat :=
  match s.GetDepth with
  | 32 => colour % 2 ^ 32
  | 24 => colour
  | 16 => s.GetColour colour % 2 ^ 16
  | 8 => s.GetColour colour % 2 ^ 8
  | _ => 0

/-- The byte stores of the loops of `Clear` for a colour other than zero, in
    program order. -/
def Surface.ClearWrites (s : Surface) (colour : Nat) : List (Nat × Nat) :=
  (List.range s.line_length).flatMap fun x =>
    (List.range s.yres).flatMap fun y => s.DrawPixelWrites x y colour

/-! ## Derivation of the channel masks and shifts -/

/-- Subtraction in `uint32_t`. -/
def sub32 (a b : Nat) : Nat := (a % U32 + U32 - b % U32) % U32

/-- Left shift of a 32-bit operand.  A shift count of 32 or more is outside
    the defined behaviour of C++; here it yields zero. -/
def shl32 (a n : Nat) : Nat := if n < 32 then (a <<< n) % U32 else 0

/-- One channel of `fb_var_screeninfo`: the position of its lowest bit in the
    pixel word and its number of bits. -/
structure fb_bitfield where
  offset : Nat
  length : Nat

/-- The assignments of the constructor to the masks and shifts (the body of
    its test for packed pixels in true or direct colour), from the `red`,
    `green` and `blue` fields of `m_fbVarScreeninfo`.  The arithmetic is
    that of `uint32_t`; the shifts are stored in `uint8_t` members. -/
def Surface.initColourFormat (s : Surface) (red green blue : fb_bitfield) : Surface :=
  { s with
    m_nRedMask := shl32 (sub32 (shl32 1 red.length) 1) (sub32 24 red.length)
    m_nRedShift := sub32 (sub32 24 red.length) red.offset % 256
    m_nGreenMask := shl32 (sub32 (shl32 1 green.length) 1) (sub32 16 green.length)
    m_nGreenShift := sub32 (sub32 16 green.length) green.offset % 256
    m_nBlueMask := shl32 (sub32 (shl32 1 blue.length) 1) (sub32 8 blue.length)
    m_nBlueShift := sub32 (sub32 8 blue.length) blue.offset % 256 }

/-! ## Lines

The drawing routines compute pixel positions without reading the framebuffer,
so each is given as the list of its `DrawPixel` calls in program order and the
method itself performs that list.  `int` values are integers; the `float`
values of `drawLine` and `DrawTriangle` are rationals, which is what the
`float` arithmetic gives as long as it is exact.  For `drawLine` the loop is
given a second time with every `float` value rounded to 24 significant bits
(`drawLineLoopF32`, `drawLinePointsF32`); the two agree for ends at most
`2 ^ 23` apart along both axes. -/

/-- The value of `NO_FILL`. -/
def NO_FILL : Nat := 0xFFFFFFFF

/-- The value of `QUADRANT_TOP_RIGHT`. -/
def QUADRANT_TOP_RIGHT : Nat := 0x01

/-- The value of `QUADRANT_BOTTOM_RIGHT`. -/
def QUADRANT_BOTTOM_RIGHT : Nat := 0x02

/-- The value of `QUADRANT_BOTTOM_LEFT`. -/
def QUADRANT_BOTTOM_LEFT : Nat := 0x04

/-- The value of `QUADRANT_TOP_LEFT`. -/
def QUADRANT_TOP_LEFT : Nat := 0x08

/-- The value of `QUADRANT_ALL`. -/
def QUADRANT_ALL : Nat := 0x0F

/-- The value of `QUADRANT_NONE`. -/
def QUADRANT_NONE : Nat := 0x00

/-- The value of `WHITE` in `colours.h`. -/
def WHITE : Nat := 0xFFFFFF

/-- The value of `BLUE` in `colours.h`. -/
def BLUE : Nat := 0x0000FF

/-- Conversion of a `uint32_t` value to `int`. -/
def toI32 (i : Int) : Int := (i + 2 ^ 31) % 2 ^ 32 - 2 ^ 31

/-- One call `DrawPixel(x, y, colour)` with `int` coordinates. -/
abbrev Plot := (Int × Int) × Nat

/-- The points of a list as calls of `DrawPixel` with one colour. -/
def withColour (pts : List (Int × Int)) (colour : Nat) : List Plot :=
  pts.map fun p => (p, colour)

/-- Performs calls of `DrawPixel` in order. -/
def Surface.plotAll (s : Surface) (ps : List Plot) : Surface :=
  ps.foldl (fun acc p => acc.DrawPixelInt p.1.1 p.1.2 p.2) s

/-- The `for` loop of `drawLine`, with `dx`, `dy` and `error` as exact
    fractions: `n` is the number of values of `x` still to visit, from `x` to
    `x2`. -/
def drawLineLoop (steep : Bool) (dx dy : ℚ) (ystep : Int) :
    Nat → Int → Int → ℚ → List (Int × Int)
  | 0, _, _, _ => []
  | n + 1, x, y, error =>
    (if steep then (y, x) else (x, y)) ::
      (if error - dy < 0 then
        drawLineLoop steep dx dy ystep n (x + 1) (y + ystep) (error - dy + dx)
      else
        drawLineLoop steep dx dy ystep n (x + 1) y (error - dy))

/-- The calls of `DrawPixel` made by `drawLine(x1, y1, x2, y2, colour)`, with
    `dx`, `dy` and `error` as exact fractions. -/
def drawLinePoints (x1 y1 x2 y2 : Int) : List (Int × Int) :=
  let steep : Bool := decide (|y2 - y1| > |x2 - x1|)
  let xa := if steep then y1 else x1
  let ya := if steep then x1 else y1
  let xb := if steep then y2 else x2
  let yb := if steep then x2 else y2
  let xs := if xa > xb then xb else xa
  let ys := if xa > xb then yb else ya
  let xe := if xa > xb then xa else xb
  let ye := if xa > xb then ya else yb
  let dx : ℚ := ((xe - xs : Int) : ℚ)
  let dy : ℚ := ((|ye - ys| : Int) : ℚ)
  let ystep : Int := if ys < ye then 1 else -1
  drawLineLoop steep dx dy ystep (xe + 1 - xs).toNat xs ys (dx / 2)

/-- The calls of `DrawPixel` made by `DrawLine(x1, y1, x2, y2, colour,
    weight)`. -/
def DrawLinePoints (x1 y1 x2 y2 : Int) (weight : Nat) : List (Int × Int) :=
  let nOffsetY : Int := if x1 = x2 then 0 else 1
  let nOffsetX : Int := if x1 = x2 then 1 else 0
  (List.range weight).flatMap fun (n : Nat) =>
    drawLinePoints (x1 + (n : Int) * nOffsetX) (y1 + (n : Int) * nOffsetY)
      (x2 + (n : Int) * nOffsetX) (y2 + (n : Int) * nOffsetY)

/-- The private method `drawLine`. -/
def Surface.drawLine (s : Surface) (x1 y1 x2 y2 : Int) (colour : Nat) : Surface :=
  s.plotAll (withColour (drawLinePoints x1 y1 x2 y2) colour)

/-- The method `DrawLine`. -/
def Surface.DrawLine (s : Surface) (x1 y1 x2 y2 : Int) (colour weight : Nat) : Surface :=
  s.plotAll (withColour (DrawLinePoints x1 y1 x2 y2 weight) colour)

/-- The pixels `drawQuadrant` plots for the four end points of the axes at
    radius `nRadius`, in program order.  The sums and differences are kept
    as integers here; `DrawPixelInt` reduces them modulo `2 ^ 32`, which is
    what the `unsigned int` arithmetic of the source passes to `DrawPixel`. -/
def quadrantAxisPoints (x0 y0 : Int) (nRadius : Nat) (bQ1 bQ2 bQ3 bQ4 : Bool) :
    List (Int × Int) :=
  (if bQ1 then [(x0, y0 - nRadius), (x0 + nRadius, y0)] else []) ++
  (if bQ2 then [(x0 + nRadius, y0), (x0, y0 + nRadius)] else []) ++
  (if bQ3 then [(x0, y0 + nRadius), (x0 - nRadius, y0)] else []) ++
  (if bQ4 then [(x0 - nRadius, y0), (x0, y0 - nRadius)] else [])

/-- The pixels `drawQuadrant` plots in one pass of its `while` loop, for the
    offsets `x`, `y` reached in that pass. -/
def quadrantArcPoints (x0 y0 x y : Int) (bQ1 bQ2 bQ3 bQ4 : Bool) : List (Int × Int) :=
  (if bQ1 then [(x0 + x, y0 - y), (x0 + y, y0 - x)] else []) ++
  (if bQ2 then [(x0 + y, y0 + x), (x0 + x, y0 + y)] else []) ++
  (if bQ3 then [(x0 - x, y0 + y), (x0 - y, y0 + x)] else []) ++
  (if bQ4 then [(x0 - y, y0 - x), (x0 - x, y0 - y)] else [])

/-- The `while(x < y)` loop of `drawQuadrant`, with its variables `f`,
    `ddF_x`, `ddF_y`, `x`, `y`.  The first argument bounds the number of
    passes; `x` grows by one in each pass and `y` never grows, so the radius
    is enough. -/
def quadrantLoop (x0 y0 : Int) (bQ1 bQ2 bQ3 bQ4 : Bool) :
    Nat → Int → Int → Int → Int → Int → List (Int × Int)
  | 0, _, _, _, _, _ => []
  | fuel + 1, f, ddF_x, ddF_y, x, y =>
    if x < y then
      let y1 := if f ≥ 0 then y - 1 else y
      let ddF_y1 := if f ≥ 0 then ddF_y + 2 else ddF_y
      let f1 := if f ≥ 0 then f + ddF_y1 else f
      let x1 := x + 1
      let ddF_x1 := ddF_x + 2
      let f2 := f1 + (ddF_x1 + 1)
      quadrantArcPoints x0 y0 x1 y1 bQ1 bQ2 bQ3 bQ4 ++
        quadrantLoop x0 y0 bQ1 bQ2 bQ3 bQ4 fuel f2 ddF_x1 ddF_y1 x1 y1
    else []

/-- The values of `nRadius` in the loop
    `for(nRadius = radius; nRadius > radius - border; --nRadius)` of
    `drawQuadrant`, where `radius - border` is computed in `unsigned int`:
    from `radius` down to one above that bound, none when the bound is not
    below `radius`. -/
def quadrantRadii (radius border : Nat) : List Nat :=
  (List.range (radius - sub32 radius border)).map fun (i : Nat) => radius - i

/-- The calls of `DrawPixel` made by
    `drawQuadrant(x0, y0, radius, colour, border, quadrant)`. -/
def drawQuadrantPoints (x0 y0 : Int) (radius border quadrant : Nat) : List (Int × Int) :=
  let bQ1 : Bool := decide (quadrant &&& QUADRANT_TOP_RIGHT = QUADRANT_TOP_RIGHT)
  let bQ2 : Bool := decide (quadrant &&& QUADRANT_BOTTOM_RIGHT = QUADRANT_BOTTOM_RIGHT)
  let bQ3 : Bool := decide (quadrant &&& QUADRANT_BOTTOM_LEFT = QUADRANT_BOTTOM_LEFT)
  let bQ4 : Bool := decide (quadrant &&& QUADRANT_TOP_LEFT = QUADRANT_TOP_LEFT)
  (quadrantRadii radius border).flatMap fun nRadius =>
    quadrantAxisPoints x0 y0 nRadius bQ1 bQ2 bQ3 bQ4 ++
      quadrantLoop x0 y0 bQ1 bQ2 bQ3 bQ4 nRadius (toI32 (1 - nRadius)) 0
        (toI32 (-2 * nRadius)) 0 (toI32 nRadius)

/-- The rows `nRow` of the fill loop of `DrawRect`, from `y1 + border` to
    `y2 - border`. -/
def rectFillRows (y1 y2 : Int) (border : Nat) : List Int :=
  (List.range (y2 - border + 1 - (y1 + border)).toNat).map fun (i : Nat) =>
    y1 + border + (i : Int)

/-- The calls of `DrawPixel` made by the fill loop of `DrawRect`, for corners
    already put in order. -/
def rectFillPoints (x1 y1 x2 y2 : Int) (border : Nat) : List (Int × Int) :=
  (rectFillRows y1 y2 border).flatMap fun nRow =>
    DrawLinePoints (x1 + border) nRow (x2 - border + 1) nRow 1

/-- The calls of `DrawPixel` made by the four border lines of `DrawRect` and
    by its corner quadrants, for corners already put in order.  The sums with
    `radius` are computed in `uint32_t` and passed as `int`. -/
def rectBorderPoints (x1 y1 x2 y2 : Int) (border round radius : Nat) : List (Int × Int) :=
  DrawLinePoints (toI32 (x1 + radius)) y1 (toI32 (x2 - radius)) y1 border ++
  DrawLinePoints (toI32 (x1 + radius)) (y2 - border + 1) (toI32 (x2 - radius))
    (y2 - border + 1) border ++
  DrawLinePoints x1 (toI32 (y1 + radius)) x1 (toI32 (y2 - radius)) border ++
  DrawLinePoints (x2 - border + 1) (toI32 (y1 + radius)) (x2 - border + 1)
    (toI32 (y2 - radius)) border ++
  (if radius ≠ 0 then
    (if round &&& QUADRANT_TOP_LEFT ≠ 0 then
      drawQuadrantPoints (toI32 (x1 + radius)) (toI32 (y1 + radius)) radius border
        QUADRANT_TOP_LEFT else []) ++
    (if round &&& QUADRANT_TOP_RIGHT ≠ 0 then
      drawQuadrantPoints (toI32 (x2 - radius)) (toI32 (y1 + radius)) radius border
        QUADRANT_TOP_RIGHT else []) ++
    (if round &&& QUADRANT_BOTTOM_LEFT ≠ 0 then
      drawQuadrantPoints (toI32 (x1 + radius)) (toI32 (y2 - radius)) radius border
        QUADRANT_BOTTOM_LEFT else []) ++
    (if round &&& QUADRANT_BOTTOM_RIGHT ≠ 0 then
      drawQuadrantPoints (toI32 (x2 - radius)) (toI32 (y2 - radius)) radius border
        QUADRANT_BOTTOM_RIGHT else [])
  else [])

/-- The calls of `DrawPixel` made by
    `DrawRect(x1, y1, x2, y2, colour, border, fillColour, round, radius)`. -/
def DrawRectPlots (x1 y1 x2 y2 : Int) (colour border fillColour round radius : Nat) :
    List Plot :=
  let xl := if x1 > x2 then x2 else x1
  let xr := if x1 > x2 then x1 else x2
  let yt := if y1 > y2 then y2 else y1
  let yb := if y1 > y2 then y1 else y2
  (if fillColour ≠ NO_FILL then withColour (rectFillPoints xl yt xr yb border) fillColour
    else []) ++
  withColour (rectBorderPoints xl yt xr yb border round radius) colour

/-- The method `DrawRect`. -/
def Surface.DrawRect (s : Surface) (x1 y1 x2 y2 : Int)
    (colour border fillColour round radius : Nat) : Surface :=
  s.plotAll (DrawRectPlots x1 y1 x2 y2 colour border fillColour round radius)

/-- The four fill lines of one pass of the fill loop of `DrawCircle`. -/
def circleFillSpans (x0 y0 nXoffset nYoffset : Int) : List (Int × Int) :=
  let p0 := x0 - nXoffset
  let p1 := x0 - nYoffset
  let w0 := nXoffset + nXoffset
  let w1 := nYoffset + nYoffset
  DrawLinePoints p0 (y0 + nYoffset) (p0 + w0) (y0 + nYoffset) 1 ++
  DrawLinePoints p0 (y0 - nYoffset) (p0 + w0) (y0 - nYoffset) 1 ++
  DrawLinePoints p1 (y0 + nXoffset) (p1 + w1) (y0 + nXoffset) 1 ++
  DrawLinePoints p1 (y0 - nXoffset) (p1 + w1) (y0 - nXoffset) 1

/-- The `while(nXoffset <= nYoffset)` loop of `DrawCircle`.  The first
    argument bounds the number of passes; `nXoffset` grows by one in each pass
    and `nYoffset` never grows, so the radius plus one is enough. -/
def circleFillLoop (x0 y0 : Int) : Nat → Int → Int → Int → List (Int × Int)
  | 0, _, _, _ => []
  | fuel + 1, nXoffset, nYoffset, balance =>
    if nXoffset ≤ nYoffset then
      let nXoffset1 := nXoffset + 1
      let balance1 := balance + nXoffset1
      let nYoffset1 := if balance1 ≥ 0 then nYoffset - 1 else nYoffset
      let balance2 := if balance1 ≥ 0 then balance1 - nYoffset1 else balance1
      circleFillSpans x0 y0 nXoffset nYoffset ++
        circleFillLoop x0 y0 fuel nXoffset1 nYoffset1 balance2
    else []

/-- The calls of `DrawPixel` made by the fill of `DrawCircle`. -/
def circleFillPoints (x0 y0 : Int) (radius : Nat) : List (Int × Int) :=
  circleFillLoop x0 y0 (radius + 1) 0 (toI32 radius) (toI32 (-(radius : Int)))

/-- The calls of `DrawPixel` made by
    `DrawCircle(x0, y0, radius, colour, border, fillColour)`. -/
def DrawCirclePlots (x0 y0 : Int) (radius colour border fillColour : Nat) : List Plot :=
  (if fillColour ≠ NO_FILL then withColour (circleFillPoints x0 y0 radius) fillColour
    else []) ++
  withColour (drawQuadrantPoints x0 y0 radius border QUADRANT_ALL) colour

/-- The method `DrawCircle`. -/
def Surface.DrawCircle (s : Surface) (x0 y0 : Int) (radius colour border fillColour : Nat) :
    Surface :=
  s.plotAll (DrawCirclePlots x0 y0 radius colour border fillColour)

/-! ## Triangles -/

/-- Conversion of a `float` value to `int`: the fraction is dropped. -/
def truncToInt (q : ℚ) : Int := Int.tdiv q.num q.den

/-- The vertices of `DrawTriangle` after its three exchanges, which put them
    in ascending order of `y`. -/
def sortVertices (v1 v2 v3 : Int × Int) : (Int × Int) × (Int × Int) × (Int × Int) :=
  let a1 := if v1.2 > v2.2 then v2 else v1
  let a2 := if v1.2 > v2.2 then v1 else v2
  let b2 := if a2.2 > v3.2 then v3 else a2
  let b3 := if a2.2 > v3.2 then a2 else v3
  let c1 := if a1.2 > b2.2 then b2 else a1
  let c2 := if a1.2 > b2.2 then a1 else b2
  (c1, c2, b3)

/-- The slope `dx / dy` of an edge as `DrawTriangle` computes it, zero for an
    edge of no height. -/
def edgeSlope (xa ya xb yb : Int) : ℚ :=
  if yb - ya > 0 then ((xb - xa : Int) : ℚ) / ((yb - ya : Int) : ℚ) else 0

/-- One `for(; yS <= yMax; yS++, yE++, xS += dS, xE += dE)` loop of
    `DrawTriangle` with body `DrawLine(xS, yS, xE, yS, fillColour)`.  The
    result holds the plotted points and the values of `xS`, `yS`, `xE` after
    the loop.  The first argument bounds the number of passes.  The variable
    `yE` of the source is never read and is left out. -/
def triangleSweep (dS dE : ℚ) (yMax : Int) :
    Nat → ℚ → ℚ → ℚ → List (Int × Int) × (ℚ × ℚ × ℚ)
  | 0, xS, yS, xE => ([], (xS, yS, xE))
  | fuel + 1, xS, yS, xE =>
    if yS ≤ (yMax : ℚ) then
      let r := triangleSweep dS dE yMax fuel (xS + dS) (yS + 1) (xE + dE)
      (DrawLinePoints (truncToInt xS) (truncToInt yS) (truncToInt xE) (truncToInt yS) 1
        ++ r.1, r.2)
    else ([], (xS, yS, xE))

/-- The calls of `DrawPixel` made by the fill of `DrawTriangle`, for vertices
    already in ascending order of `y`. -/
def triangleFillPoints (x1 y1 x2 y2 x3 y3 : Int) : List (Int × Int) :=
  let dx1 := edgeSlope x1 y1 x2 y2
  let dx2 := edgeSlope x1 y1 x3 y3
  let dx3 := edgeSlope x2 y2 x3 y3
  let fuel := (y3 - y1 + 2).toNat
  if dx1 > dx2 then
    let r := triangleSweep dx2 dx1 y2 fuel x1 y1 x1
    let r2 := triangleSweep dx2 dx3 y3 fuel r.2.1 r.2.2.1 x2
    r.1 ++ r2.1
  else
    let r := triangleSweep dx1 dx2 y2 fuel x1 y1 x1
    let r2 := triangleSweep dx3 dx2 y3 fuel x2 y2 r.2.2.2
    r.1 ++ r2.1

/-- The calls of `DrawPixel` made by
    `DrawTriangle(x1, y1, x2, y2, x3, y3, colour, border, fillColour)`. -/
def DrawTrianglePlots (x1 y1 x2 y2 x3 y3 : Int) (colour border fillColour : Nat) :
    List Plot :=
  if fillColour ≠ NO_FILL then
    let v := sortVertices (x1, y1) (x2, y2) (x3, y3)
    withColour (triangleFillPoints v.1.1 v.1.2 v.2.1.1 v.2.1.2 v.2.2.1 v.2.2.2) fillColour ++
    withColour (DrawLinePoints v.1.1 v.1.2 v.2.1.1 v.2.1.2 border ++
      DrawLinePoints v.2.1.1 v.2.1.2 v.2.2.1 v.2.2.2 border ++
      DrawLinePoints v.2.2.1 v.2.2.2 v.1.1 v.1.2 border) colour
  else
    withColour (DrawLinePoints x1 y1 x2 y2 border ++ DrawLinePoints x2 y2 x3 y3 border ++
      DrawLinePoints x3 y3 x1 y1 border) colour

/-- The method `DrawTriangle`. -/
def Surface.DrawTriangle (s : Surface) (x1 y1 x2 y2 x3 y3 : Int)
    (colour border fillColour : Nat) : Surface :=
  s.plotAll (DrawTrianglePlots x1 y1 x2 y2 x3 y3 colour border fillColour)

/-! ## Bitmaps -/

/-- The type `rgb_t` of the bitmap library. -/
structure rgb_t where
  red : Nat
  green : Nat
  blue : Nat

/-- What `DrawBitmap` uses of a `bitmap_image`: its size and its pixels. -/
structure bitmap_image where
  width : Nat
  height : Nat
  get_pixel : Nat → Nat → rgb_t

/-- The static `GetColour32(rgb_t)`. -/
def GetColour32Rgb (colour : rgb_t) : Nat :=
  GetColour32 colour.red colour.green colour.blue

/-- The calls of `DrawPixel` made by the loops of `DrawBitmap(sName, x, y)`.
    The loop variables of the source are named `x` and `y` too and hide the
    parameters, which the loops therefore never read. -/
def DrawBitmapPlots (pImage : bitmap_image) (_x _y : Int) : List Plot :=
  (List.range pImage.height).flatMap fun (y : Nat) =>
    (List.range pImage.width).map fun (x : Nat) =>
      (((x : Int), (y : Int)), GetColour32Rgb (pImage.get_pixel x y))

/-- The method `DrawBitmap`, with the map `m_mmBitmaps` of loaded images as a
    function from names. -/
def Surface.DrawBitmap (s : Surface) (m_mmBitmaps : String → Option bitmap_image)
    (sName : String) (x y : Int) : Bool × Surface :=
  match m_mmBitmaps sName with
  | none => (false, s)
  | some pImage => (true, s.plotAll (DrawBitmapPlots pImage x y))

/-! ## Fonts -/

/-- The members that `SetFont` and `DrawText` use: `m_nFtLibInit`,
    `m_nFtFace`, the face behind `m_ftFace` if one is open (named by its
    path), and the pixel sizes set on it. -/
structure FontState where
  m_nFtLibInit : Int
  m_nFtFace : Int
  m_ftFace : Option String
  pixelWidth : Int
  pixelHeight : Int
deriving DecidableEq

/-- The method `SetFont(height, width, path)`.  `FT_New_Face` gives the error
    code of the font engine for a path, zero on success.  `FT_Done_Face`
    closes the open face. -/
def SetFont (FT_New_Face : String → Int) (st : FontState) (height width : Int)
    (path : String) : Bool × FontState :=
  if st.m_nFtLibInit ≠ 0 then (false, st)
  else
    let st1 : FontState :=
      if path ≠ "" then
        let closed : FontState := if st.m_nFtFace = 0 then { st with m_ftFace := none } else st
        { closed with
          m_nFtFace := FT_New_Face path
          m_ftFace := if FT_New_Face path = 0 then some path else closed.m_ftFace }
      else st
    if st1.m_nFtFace ≠ 0 then (false, st1)
    else (true, { st1 with pixelWidth := width, pixelHeight := height })

/-- Whether `DrawText` goes past its first test and draws: the library is
    initialised and a face is loaded. -/
def DrawTextDraws (st : FontState) : Bool :=
  !(decide (st.m_nFtLibInit ≠ 0) || decide (st.m_nFtFace ≠ 0))

/-! ## Glyphs -/

/-- What `drawBitmap` uses of an `FT_Bitmap`. -/
structure FT_Bitmap where
  rows : Nat
  width : Nat
  pitch : Int
  buffer : List Nat

/-- The loop over the bits of one byte in `drawBitmap`: `k` bits are left,
    `dBit` is the number of the next one, `nMask` its mask and `nXcount` the
    number of pixels left in the row.  The result holds the plotted points
    and `nXcount` after the loop. -/
def glyphBitLoop (x y dX dY : Int) (nMapByte : Nat) :
    Nat → Nat → Nat → Nat → List (Int × Int) × Nat
  | 0, _, _, nXcount => ([], nXcount)
  | k + 1, dBit, nMask, nXcount =>
    if nXcount = 0 then ([], nXcount)
    else
      let r := glyphBitLoop x y dX dY nMapByte k (dBit + 1) (nMask >>> 1) (nXcount - 1)
      ((if nMapByte &&& nMask ≠ 0 then [(x + dX * 8 + dBit, y + dY)] else []) ++ r.1, r.2)

/-- The loop over the bytes of one row in `drawBitmap`.  The first argument
    bounds the number of passes. -/
def glyphRowLoop (bitmap : FT_Bitmap) (x y dY : Int) : Nat → Int → Nat → List (Int × Int)
  | 0, _, _ => []
  | fuel + 1, dX, nXcount =>
    if dX < bitmap.pitch ∧ nXcount ≠ 0 then
      let nMapByte := bitmap.buffer.getD (dY * |bitmap.pitch| + dX).toNat 0
      let r := glyphBitLoop x y dX dY nMapByte 8 0 0x80 nXcount
      r.1 ++ glyphRowLoop bitmap x y dY fuel (dX + 1) r.2
    else []

/-- The loop over the rows in `drawBitmap`, from `dY` in steps of `nYdir`
    while `dY < nYmax`.  The first argument bounds the number of passes. -/
def glyphLoop (bitmap : FT_Bitmap) (x y nYmax nYdir : Int) : Nat → Int → List (Int × Int)
  | 0, _ => []
  | fuel + 1, dY =>
    if dY < nYmax then
      glyphRowLoop bitmap x y dY bitmap.pitch.toNat 0 bitmap.width ++
        glyphLoop bitmap x y nYmax nYdir fuel (dY + nYdir)
    else []

/-- The calls of `DrawPixel` made by the private
    `drawBitmap(bitmap, x, y, colour)`. -/
def drawBitmapPoints (bitmap : FT_Bitmap) (x y : Int) : List (Int × Int) :=
  let nYmin : Int := if bitmap.pitch < 0 then bitmap.rows else 0
  let nYmax : Int := if bitmap.pitch < 0 then 0 else bitmap.rows
  let nYdir : Int := if bitmap.pitch < 0 then -1 else 1
  glyphLoop bitmap x y nYmax nYdir bitmap.rows nYmin

/-- The bit of the pixel `(col, row)` of a monochrome glyph bitmap: bit
    `col % 8`, counted from the most significant one, of the byte
    `row * |pitch| + col / 8` of the buffer. -/
def glyphBit (bitmap : FT_Bitmap) (row col : Nat) : Bool :=
  decide (bitmap.buffer.getD (row * bitmap.pitch.natAbs + col / 8) 0 &&& (0x80 >>> (col % 8)) ≠ 0)

/-- The private method `drawBitmap`. -/
def Surface.drawBitmap (s : Surface) (bitmap : FT_Bitmap) (x y : Int) (colour : Nat) :
    Surface :=
  s.plotAll (withColour (drawBitmapPoints bitmap x y) colour)

/-- The private method `drawQuadrant`. -/
def Surface.drawQuadrant (s : Surface) (x0 y0 : Int) (radius colour border quadrant : Nat) :
    Surface :=
  s.plotAll (withColour (drawQuadrantPoints x0 y0 radius border quadrant) colour)

/-! ## Pixels of a surface -/

/-- The pixel `(x, y)` of the surface holds the colour `c`: every byte that
    `DrawPixel(x, y, c)` stores has the stored value. -/
def Surface.PixelIs (s : Surface) (x y : Int) (c : Nat) : Prop :=
  ∀ w ∈ s.DrawPixelWrites (toU32 x) (toU32 y) c, s.mem w.1 = w.2

/-- The pixel `(x, y)` has the same bytes in the surfaces `s` and `t`. -/
def Surface.SamePixel (s t : Surface) (x y : Int) : Prop :=
  ∀ w ∈ s.DrawPixelWrites (toU32 x) (toU32 y) 0, t.mem w.1 = s.mem w.1

/-- Coordinates that fit an `int`. -/
def InIntRange (p : Int × Int) : Prop :=
  -2 ^ 31 ≤ p.1 ∧ p.1 < 2 ^ 31 ∧ -2 ^ 31 ≤ p.2 ∧ p.2 < 2 ^ 31

/-- The points `(xa + i * sx, ya + i * sy)` for `i` from 0 to `n - 1`. -/
def stepPoints (xa ya sx sy : Int) (n : Nat) : List (Int × Int) :=
  (List.range n).map fun (i : Nat) => (xa + (i : Int) * sx, ya + (i : Int) * sy)

/-! ## Example surfaces -/

/-- A 20 x 20 surface of 16 bits per pixel, 40 bytes a row, all memory zero,
    before the masks and shifts are assigned. -/
def fbRaw16 : Surface :=
  { xres := 20, yres := 20, bits_per_pixel := 16, line_length := 40, smem_len := 800,
    mapped := true,
    m_nRedMask := 0, m_nGreenMask := 0, m_nBlueMask := 0,
    m_nRedShift := 0, m_nGreenShift := 0, m_nBlueShift := 0,
    mem := fun _ => 0 }

/-- The 16-bit surface in the BGR565 layout: blue in bits 11 to 15, green in
    bits 5 to 10, red in bits 0 to 4. -/
def fbBGR565 : Surface :=
  fbRaw16.initColourFormat ⟨0, 5⟩ ⟨5, 6⟩ ⟨11, 5⟩

/-- The 16-bit surface in the RGB565 layout: red in bits 11 to 15, green in
    bits 5 to 10, blue in bits 0 to 4. -/
def fb565 : Surface :=
  fbRaw16.initColourFormat ⟨11, 5⟩ ⟨5, 6⟩ ⟨0, 5⟩

/-- An image of one red pixel. -/
def redDot : bitmap_image :=
  { width := 1, height := 1, get_pixel := fun _ _ => ⟨255, 0, 0⟩ }

/-- A map of loaded images that holds `redDot` under the name `a`. -/
def bitmapsWithA : String → Option bitmap_image :=
  fun sName => if sName = "a" then some redDot else none

/-- A glyph bitmap of one row and one set pixel with a negative pitch, the
    sign of a bitmap whose rows go upwards. -/
def glyphUp : FT_Bitmap :=
  { rows := 1, width := 1, pitch := -1, buffer := [0x80] }

/-- The same glyph bitmap with a positive pitch. -/
def glyphDown : FT_Bitmap :=
  { rows := 1, width := 1, pitch := 1, buffer := [0x80] }

/-- A font engine that opens the face `A.ttf` and no other. -/
def engineWithA : String → Int :=
  fun path => if path = "A.ttf" then 0 else 1

/-- The state of an initialised library with the face `A.ttf` loaded at 16
    by 16 pixels. -/
def fontA : FontState :=
  { m_nFtLibInit := 0, m_nFtFace := 0, m_ftFace := some "A.ttf", pixelWidth := 16,
    pixelHeight := 16 }

/-! ## Basic facts about stores -/

theorem Surface.withMem_mem (s : Surface) : s.withMem s.mem = s := rfl

theorem writeAll_nil (m : Nat → Nat) : writeAll m [] = m := rfl

theorem mem_storeLE (a n v : Nat) (w : Nat × Nat) :
    w ∈ storeLE a n v ↔ ∃ k, k < n ∧ w = (a + k, (v >>> (8 * k)) % 256) := by
  unfold storeLE
  constructor
  · intro h
    obtain ⟨k, hk, rfl⟩ := List.mem_map.1 h
    exact ⟨k, List.mem_range.1 hk, rfl⟩
  · rintro ⟨k, hk, rfl⟩
    exact List.mem_map.2 ⟨k, List.mem_range.2 hk, rfl⟩

theorem writeAll_cons (m : Nat → Nat) (w : Nat × Nat) (ws : List (Nat × Nat)) :
    writeAll m (w :: ws) = writeAll (Function.update m w.1 w.2) ws := rfl

theorem writeAll_append (m : Nat → Nat) (a b : List (Nat × Nat)) :
    writeAll m (a ++ b) = writeAll (writeAll m a) b := by
  unfold writeAll
  rw [List.foldl_append]

theorem writeAll_of_not_mem (ws : List (Nat × Nat)) (m : Nat → Nat) (i : Nat)
    (h : ∀ w ∈ ws, w.1 ≠ i) : writeAll m ws i = m i := by
  induction ws generalizing m with
  | nil => rfl
  | cons w ws ih =>
    rw [writeAll_cons, ih _ (fun w' hw' => h w' (List.mem_cons_of_mem _ hw'))]
    exact Function.update_noteq (Ne.symm (h w (List.mem_cons_self _ _))) _ _

theorem writeAll_of_forall_eq (ws : List (Nat × Nat)) (m : Nat → Nat) (i v : Nat)
    (hex : ∃ w ∈ ws, w.1 = i) (hall : ∀ w ∈ ws, w.1 = i → w.2 = v) :
    writeAll m ws i = v := by
  induction ws generalizing m with
  | nil => obtain ⟨w, hw, _⟩ := hex; cases hw
  | cons w ws ih =>
    rw [writeAll_cons]
    by_cases hlater : ∃ w' ∈ ws, w'.1 = i
    · exact ih _ hlater (fun w' hw' => hall w' (List.mem_cons_of_mem _ hw'))
    · have hnone : ∀ w' ∈ ws, w'.1 ≠ i := fun w' hw' he => hlater ⟨w', hw', he⟩
      rw [writeAll_of_not_mem ws _ i hnone]
      obtain ⟨w0, hw0, he0⟩ := hex
      rcases List.mem_cons.1 hw0 with rfl | hin
      · rw [← he0, Function.update_same]
        exact hall w0 (List.mem_cons_self _ _) he0
      · exact absurd he0 (hnone w0 hin)

theorem offset_bound (x y n w h ll : Nat) (hx : x < w) (hy : y < h) (hs : w * n ≤ ll) :
    y * ll + x * n + n ≤ ll * h := by
  have h1 : (x + 1) * n ≤ w * n := Nat.mul_le_mul_right n hx
  have h2 : (y + 1) * ll ≤ h * ll := Nat.mul_le_mul_right ll hy
  have h3 : ll * h = h * ll := Nat.mul_comm _ _
  have h4 : (x + 1) * n = x * n + n := by ring
  have h5 : (y + 1) * ll = y * ll + ll := by ring
  omega

theorem writeAll_storeLE_at (m : Nat → Nat) (a n v k : Nat) (hk : k < n) :
    writeAll m (storeLE a n v) (a + k) = (v >>> (8 * k)) % 256 := by
  apply writeAll_of_forall_eq
  · exact ⟨(a + k, (v >>> (8 * k)) % 256), (mem_storeLE a n v _).2 ⟨k, hk, rfl⟩, rfl⟩
  · intro w hw he
    obtain ⟨k', _, rfl⟩ := (mem_storeLE a n v w).1 hw
    have hkk : k' = k := by simpa using he
    rw [hkk]

theorem writeAll_storeLE_frame (m : Nat → Nat) (a n v i : Nat) (h : i < a ∨ a + n ≤ i) :
    writeAll m (storeLE a n v) i = m i := by
  apply writeAll_of_not_mem
  intro w hw he
  obtain ⟨k, hk, rfl⟩ := (mem_storeLE a n v w).1 hw
  simp only at he
  omega

theorem Surface.pixelOffset_eq (s : Surface) (hwf : s.WellFormed) (x y : Nat)
    (hx : x < s.xres) (hy : y < s.yres) :
    s.pixelOffset x y (s.bits_per_pixel / 8)
      = y * s.line_length + x * (s.bits_per_pixel / 8) := by
  unfold Surface.pixelOffset U32
  apply Nat.mod_eq_of_lt
  have h1 := offset_bound x y (s.bits_per_pixel / 8) s.xres s.yres s.line_length hx hy
    hwf.strideFits
  have h2 := hwf.rowsFit
  have h3 := hwf.smemFits
  omega

/-- Inside the surface and at a supported depth the stores of `DrawPixel` are
    one little-endian store of `bits_per_pixel / 8` bytes. -/
theorem Surface.DrawPixelWrites_eq_storeLE (s : Surface) (x y c : Nat)
    (hx : x < s.xres) (hy : y < s.yres) :
    (s.bits_per_pixel = 32 →
      s.DrawPixelWrites x y c = storeLE (s.pixelOffset x y 4) 4 (c % 2 ^ 32)) ∧
    (s.bits_per_pixel = 24 →
      s.DrawPixelWrites x y c = storeLE (s.pixelOffset x y 3) 3 c) ∧
    (s.bits_per_pixel = 16 →
      s.DrawPixelWrites x y c = storeLE (s.pixelOffset x y 2) 2 (s.GetColour c % 2 ^ 16)) ∧
    (s.bits_per_pixel = 8 →
      s.DrawPixelWrites x y c = storeLE (s.pixelOffset x y 1) 1 (s.GetColour c % 2 ^ 8)) := by
  have hin : ¬ (x ≥ s.GetWidth ∨ y ≥ s.GetHeight) := by
    unfold Surface.GetWidth Surface.GetHeight
    omega
  refine ⟨?_, ?_, ?_, ?_⟩ <;> intro hd <;>
    simp only [Surface.DrawPixelWrites, if_neg hin, Surface.GetDepth, hd] <;>
    simp [storeLE, List.range_succ]

theorem Surface.DrawPixelWrites_of_out (s : Surface) (x y c : Nat)
    (h : s.xres ≤ x ∨ s.yres ≤ y) : s.DrawPixelWrites x y c = [] := by
  unfold Surface.DrawPixelWrites Surface.GetWidth Surface.GetHeight
  rw [if_pos h]

theorem Surface.DrawPixel_of_out (s : Surface) (x y c : Nat)
    (h : s.xres ≤ x ∨ s.yres ≤ y) : s.DrawPixel x y c = s := by
  unfold Surface.DrawPixel
  rw [s.DrawPixelWrites_of_out x y c h, writeAll_nil]
  rfl

theorem toU32_of_nonneg (i : Int) (h0 : 0 ≤ i) (h1 : i < 2 ^ 31) : (toU32 i : Int) = i := by
  unfold toU32
  rw [Int.toNat_of_nonneg (Int.emod_nonneg _ (by norm_num))]
  exact Int.emod_eq_of_lt h0 (by omega)

theorem toU32_of_neg (i : Int) (h0 : i < 0) (h1 : -2 ^ 31 ≤ i) : 2 ^ 31 ≤ toU32 i := by
  unfold toU32
  have h : (i % (2 ^ 32 : Int)) = i + 2 ^ 32 := by
    rw [← Int.add_emod_self]
    exact Int.emod_eq_of_lt (by omega) (by omega)
  rw [h]
  omega

/-! ## Facts about the colour formulas -/

/-- Masking with `L` one bits at position `k` keeps the `L`-bit field at `k`. -/
theorem and_field_mask (c L k : Nat) :
    c &&& ((2 ^ L - 1) <<< k) = ((c >>> k) % 2 ^ L) <<< k := by
  apply Nat.eq_of_testBit_eq
  intro i
  simp only [Nat.testBit_and, Nat.testBit_shiftLeft, Nat.testBit_two_pow_sub_one,
    Nat.testBit_mod_two_pow, Nat.testBit_shiftRight]
  by_cases h : i ≥ k
  · have e : k + (i - k) = i := by omega
    simp [h, e, Bool.and_comm]
  · simp [h]

theorem and_field_mask_div (c L k : Nat) :
    c &&& ((2 ^ L - 1) * 2 ^ k) = (c / 2 ^ k % 2 ^ L) * 2 ^ k := by
  have := and_field_mask c L k
  simpa [Nat.shiftLeft_eq, Nat.shiftRight_eq_div_pow] using this

theorem GetColour_16_eq_add (c : Nat) :
    GetColour c 16 = c / 524288 % 32 * 2048 + c / 1024 % 64 * 32 + c / 8 % 32 := by
  have hr := and_field_mask_div c 5 19
  have hg := and_field_mask_div c 6 10
  have hb := and_field_mask_div c 5 3
  norm_num at hr hg hb
  have e : GetColour c 16 = ((c &&& 0xF80000) >>> 8) ||| ((c &&& 0x00FC00) >>> 5)
           ||| ((c &&& 0x0000F8) >>> 3) := rfl
  rw [e, hr, hg, hb]
  simp only [Nat.shiftRight_eq_div_pow]
  have e1 : c / 524288 % 32 * 524288 / 2 ^ 8 = 2 ^ 11 * (c / 524288 % 32) := by omega
  have e2 : c / 1024 % 64 * 1024 / 2 ^ 5 = 2 ^ 5 * (c / 1024 % 64) := by omega
  have e3 : c / 8 % 32 * 8 / 2 ^ 3 = c / 8 % 32 := by omega
  rw [e1, e2, e3, Nat.or_assoc]
  rw [← Nat.mul_add_lt_is_or (show c / 8 % 32 < 2 ^ 5 by omega) (c / 1024 % 64),
    ← Nat.mul_add_lt_is_or (show 2 ^ 5 * (c / 1024 % 64) + c / 8 % 32 < 2 ^ 11 by omega)
      (c / 524288 % 32)]
  omega

theorem GetColour_8_eq_add (c : Nat) :
    GetColour c 8 = c / 2097152 % 8 * 32 + c / 8192 % 8 * 4 + c / 64 % 4 := by
  have hr := and_field_mask_div c 3 21
  have hg := and_field_mask_div c 3 13
  have hb := and_field_mask_div c 2 6
  norm_num at hr hg hb
  have e : GetColour c 8 = ((c &&& 0xE00000) >>> 16) ||| ((c &&& 0x00E000) >>> 11)
           ||| ((c &&& 0x0000C0) >>> 6) := rfl
  rw [e, hr, hg, hb]
  simp only [Nat.shiftRight_eq_div_pow]
  have e1 : c / 2097152 % 8 * 2097152 / 2 ^ 16 = 2 ^ 5 * (c / 2097152 % 8) := by omega
  have e2 : c / 8192 % 8 * 8192 / 2 ^ 11 = 2 ^ 2 * (c / 8192 % 8) := by omega
  have e3 : c / 64 % 4 * 64 / 2 ^ 6 = c / 64 % 4 := by omega
  rw [e1, e2, e3, Nat.or_assoc]
  rw [← Nat.mul_add_lt_is_or (show c / 64 % 4 < 2 ^ 2 by omega) (c / 8192 % 8),
    ← Nat.mul_add_lt_is_or (show 2 ^ 2 * (c / 8192 % 8) + c / 64 % 4 < 2 ^ 5 by omega)
      (c / 2097152 % 8)]
  omega

theorem GetColour_16_fixed (v : Nat)
    (e : v / 524288 % 32 * 2048 + v / 1024 % 64 * 32 + v / 8 % 32 = v)
    (h : v < 65536) : v = 0 := by
  have h1 : v < 2048 := by omega
  have h2 : v < 1024 := by omega
  have q1 : v / 524288 = 0 := Nat.div_eq_of_lt (by omega)
  have q2 : v / 1024 = 0 := Nat.div_eq_of_lt h2
  rw [q1, q2] at e
  have h3 : v < 32 := by omega
  have q3 : v / 8 % 32 = v / 8 := Nat.mod_eq_of_lt (by omega)
  rw [q3] at e
  omega
theorem GetColour_8_fixed (v : Nat)
    (e : v / 2097152 % 8 * 32 + v / 8192 % 8 * 4 + v / 64 % 4 = v)
    (h : v < 256) : v = 0 := by
  have q1 : v / 2097152 = 0 := Nat.div_eq_of_lt (by omega)
  have q2 : v / 8192 = 0 := Nat.div_eq_of_lt (by omega)
  rw [q1, q2] at e
  have h3 : v < 4 := by omega
  have q3 : v / 64 % 4 = v / 64 := Nat.mod_eq_of_lt (by omega)
  rw [q3] at e
  omega

theorem GetColour_16_lt (c : Nat) : GetColour c 16 < 2 ^ 16 := by
  rw [GetColour_16_eq_add]
  omega

theorem GetColour_8_lt (c : Nat) : GetColour c 8 < 2 ^ 8 := by
  rw [GetColour_8_eq_add]
  omega

/-! ## The derived masks and shifts -/

/-- The mask the constructor derives for a channel of `L ≤ 8` bits below bit
    `top` has `L` one bits from bit `top - L` on. -/
theorem channel_mask_eq (top L : Nat) (hL : L ≤ 8) (ht : top = 24 ∨ top = 16 ∨ top = 8) :
    shl32 (sub32 (shl32 1 L) 1) (sub32 top L) = (2 ^ L - 1) <<< (top - L) := by
  interval_cases L <;> rcases ht with rfl | rfl | rfl <;> rfl

/-- The shift the constructor derives is `top - L - O` when that is not
    negative. -/
theorem channel_shift_eq (top L O : Nat) (ht : top ≤ 24) (h : O + L ≤ top) :
    sub32 (sub32 top L) O % 256 = top - L - O := by
  unfold sub32 U32
  omega

theorem shiftLeft_add_shiftRight (x a b : Nat) : (x <<< (a + b)) >>> b = x <<< a := by
  simp only [Nat.shiftLeft_eq, Nat.shiftRight_eq_div_pow]
  rw [Nat.pow_add, ← Nat.mul_assoc, Nat.mul_div_cancel _ (Nat.two_pow_pos b)]

/-- A channel term of the member `GetColour`: the `L`-bit field below bit
    `top` of the colour, moved to bit `O`. -/
theorem channel_term_eq (c top L O : Nat) (h : O + L ≤ top) :
    (c &&& ((2 ^ L - 1) <<< (top - L))) >>> (top - L - O)
      = ((c >>> (top - L)) % 2 ^ L) <<< O := by
  rw [and_field_mask]
  have e : top - L = O + (top - L - O) := by omega
  have h2 := shiftLeft_add_shiftRight ((c >>> (top - L)) % 2 ^ L) O (top - L - O)
  rw [← e] at h2
  exact h2

/-- Reading `L` bits at bit `O` of a field placed there. -/
theorem testBit_field_same (A O L i : Nat) (hA : A < 2 ^ L) :
    (decide (i < L) && (A <<< O).testBit (O + i)) = A.testBit i := by
  rw [Nat.testBit_shiftLeft]
  have e : O + i - O = i := by omega
  rw [e]
  by_cases hi : i < L
  · simp [hi]
  · have : A.testBit i = false :=
      Nat.testBit_lt_two_pow (Nat.lt_of_lt_of_le hA (Nat.pow_le_pow_right (by decide) (by omega)))
    simp [hi, this]

/-- Reading `L` bits at bit `O` of a field placed elsewhere. -/
theorem testBit_field_other (B O L O' L' i : Nat) (hB : B < 2 ^ L')
    (hd : O + L ≤ O' ∨ O' + L' ≤ O) (hi : i < L) :
    (B <<< O').testBit (O + i) = false := by
  rw [Nat.testBit_shiftLeft]
  rcases hd with hd | hd
  · have : ¬ (O + i ≥ O') := by omega
    simp [this]
  · have : B.testBit (O + i - O') = false :=
      Nat.testBit_lt_two_pow (Nat.lt_of_lt_of_le hB (Nat.pow_le_pow_right (by decide) (by omega)))
    simp [this]

theorem field_of_or (A B C O L O1 L1 O2 L2 : Nat) (hA : A < 2 ^ L) (hB : B < 2 ^ L1)
    (hC : C < 2 ^ L2) (h1 : O + L ≤ O1 ∨ O1 + L1 ≤ O) (h2 : O + L ≤ O2 ∨ O2 + L2 ≤ O) :
    (((A <<< O) ||| (B <<< O1) ||| (C <<< O2)) >>> O) % 2 ^ L = A ∧
    (((B <<< O1) ||| (A <<< O) ||| (C <<< O2)) >>> O) % 2 ^ L = A ∧
    (((B <<< O1) ||| (C <<< O2) ||| (A <<< O)) >>> O) % 2 ^ L = A := by
  refine ⟨?_, ?_, ?_⟩ <;>
  · apply Nat.eq_of_testBit_eq
    intro i
    simp only [Nat.testBit_mod_two_pow, Nat.testBit_shiftRight, Nat.testBit_or, Bool.and_or_distrib_left]
    rw [testBit_field_same A O L i hA]
    by_cases hi : i < L
    · rw [testBit_field_other B O L O1 L1 i hB h1 hi, testBit_field_other C O L O2 L2 i hC h2 hi]
      simp
    · simp [hi]

/-- The `L` bits below bit `top` of a colour are the top `L` bits of the byte
    below bit `top`. -/
theorem top_bits_of_byte (c top L : Nat) (hL : L ≤ 8)
    (ht : top = 24 ∨ top = 16 ∨ top = 8) :
    (c >>> (top - L)) % 2 ^ L = ((c >>> (top - 8)) % 256) >>> (8 - L) := by
  interval_cases L <;> rcases ht with rfl | rfl | rfl <;>
    simp only [Nat.shiftRight_eq_div_pow] <;> norm_num <;> omega

/-- Where no channel lies above its place in the `0xRRGGBB` colour (red ends
    at or below bit 24, green at or below bit 16, blue at or below bit 8),
    the masks and shifts of the constructor make the member `GetColour` put
    the top `length` bits of each colour byte at the channel's offset. -/
theorem Surface.GetColour_initColourFormat_of_fits (s : Surface)
    (red green blue : fb_bitfield) (c : Nat)
    (hr : red.length ≤ 8) (hg : green.length ≤ 8) (hb : blue.length ≤ 8)
    (fr : red.offset + red.length ≤ 24) (fg : green.offset + green.length ≤ 16)
    (fb : blue.offset + blue.length ≤ 8)
    (drg : red.offset + red.length ≤ green.offset
      ∨ green.offset + green.length ≤ red.offset)
    (drb : red.offset + red.length ≤ blue.offset
      ∨ blue.offset + blue.length ≤ red.offset)
    (dgb : green.offset + green.length ≤ blue.offset
      ∨ blue.offset + blue.length ≤ green.offset) :
    ((s.initColourFormat red green blue).GetColour c >>> red.offset) % 2 ^ red.length
      = ((c >>> 16) % 256) >>> (8 - red.length) ∧
    ((s.initColourFormat red green blue).GetColour c >>> green.offset) % 2 ^ green.length
      = ((c >>> 8) % 256) >>> (8 - green.length) ∧
    ((s.initColourFormat red green blue).GetColour c >>> blue.offset) % 2 ^ blue.length
      = (c % 256) >>> (8 - blue.length) := by
  have hn : (s.initColourFormat red green blue).GetColour c
      = (((c >>> (24 - red.length)) % 2 ^ red.length) <<< red.offset)
        ||| (((c >>> (16 - green.length)) % 2 ^ green.length) <<< green.offset)
        ||| (((c >>> (8 - blue.length)) % 2 ^ blue.length) <<< blue.offset) := by
    show ((c &&& shl32 (sub32 (shl32 1 red.length) 1) (sub32 24 red.length))
          >>> (sub32 (sub32 24 red.length) red.offset % 256))
        ||| ((c &&& shl32 (sub32 (shl32 1 green.length) 1) (sub32 16 green.length))
          >>> (sub32 (sub32 16 green.length) green.offset % 256))
        ||| ((c &&& shl32 (sub32 (shl32 1 blue.length) 1) (sub32 8 blue.length))
          >>> (sub32 (sub32 8 blue.length) blue.offset % 256)) = _
    rw [channel_mask_eq 24 _ hr (Or.inl rfl), channel_mask_eq 16 _ hg (Or.inr (Or.inl rfl)),
      channel_mask_eq 8 _ hb (Or.inr (Or.inr rfl)),
      channel_shift_eq 24 _ _ (by decide) fr, channel_shift_eq 16 _ _ (by decide) fg,
      channel_shift_eq 8 _ _ (by decide) fb,
      channel_term_eq c 24 _ _ fr, channel_term_eq c 16 _ _ fg, channel_term_eq c 8 _ _ fb]
  have hA : (c >>> (24 - red.length)) % 2 ^ red.length < 2 ^ red.length :=
    Nat.mod_lt _ (Nat.two_pow_pos _)
  have hB : (c >>> (16 - green.length)) % 2 ^ green.length < 2 ^ green.length :=
    Nat.mod_lt _ (Nat.two_pow_pos _)
  have hC : (c >>> (8 - blue.length)) % 2 ^ blue.length < 2 ^ blue.length :=
    Nat.mod_lt _ (Nat.two_pow_pos _)
  have tr := top_bits_of_byte c 24 red.length hr (Or.inl rfl)
  have tg := top_bits_of_byte c 16 green.length hg (Or.inr (Or.inl rfl))
  have tb := top_bits_of_byte c 8 blue.length hb (Or.inr (Or.inr rfl))
  simp only [Nat.sub_self, Nat.shiftRight_zero] at tr tg tb
  rw [hn]
  refine ⟨?_, ?_, ?_⟩
  · rw [(field_of_or _ _ _ red.offset red.length green.offset green.length blue.offset
      blue.length hA hB hC drg drb).1]
    exact tr
  · rw [(field_of_or _ _ _ green.offset green.length red.offset red.length blue.offset
      blue.length hB hA hC (by omega) dgb).2.1]
    exact tg
  · rw [(field_of_or _ _ _ blue.offset blue.length red.offset red.length green.offset
      green.length hC hA hB (by omega) (by omega)).2.2]
    exact tb

/-! ## Facts about `Clear` -/

theorem Surface.DrawPixel_withMem (s : Surface) (m : Nat → Nat) (x y c : Nat) :
    (s.withMem m).DrawPixel x y c = s.withMem (writeAll m (s.DrawPixelWrites x y c)) := rfl

theorem Surface.foldl_DrawPixel_column (s : Surface) (x c : Nat) (ys : List Nat)
    (m : Nat → Nat) :
    ys.foldl (fun acc y => acc.DrawPixel x y c) (s.withMem m)
      = s.withMem (writeAll m (ys.flatMap fun y => s.DrawPixelWrites x y c)) := by
  induction ys generalizing m with
  | nil => rfl
  | cons y ys ih =>
    rw [List.foldl_cons, s.DrawPixel_withMem, ih, List.flatMap_cons, writeAll_append]

theorem Surface.foldl_DrawPixel_columns (s : Surface) (c : Nat) (xs ys : List Nat)
    (m : Nat → Nat) :
    xs.foldl (fun acc x => ys.foldl (fun acc2 y => acc2.DrawPixel x y c) acc) (s.withMem m)
      = s.withMem (writeAll m
          (xs.flatMap fun x => ys.flatMap fun y => s.DrawPixelWrites x y c)) := by
  induction xs generalizing m with
  | nil => rfl
  | cons x xs ih =>
    rw [List.foldl_cons, s.foldl_DrawPixel_column, ih, List.flatMap_cons, writeAll_append]

/-- For a colour other than zero `Clear` performs the stores of
    `ClearWrites`. -/
theorem Surface.Clear_of_ne_zero (s : Surface) (c : Nat) (hm : s.mapped = true)
    (hc : c ≠ 0) : s.Clear c = s.withMem (writeAll s.mem (s.ClearWrites c)) := by
  unfold Surface.Clear Surface.ClearWrites
  rw [hm]
  simp only [Bool.not_true, Bool.false_eq_true, if_false, if_neg hc]
  exact s.foldl_DrawPixel_columns c _ _ s.mem

theorem Surface.Clear_zero (s : Surface) (hm : s.mapped = true) :
    s.Clear 0 = s.withMem fun i => if i < s.smem_len then 0 else s.mem i := by
  unfold Surface.Clear
  rw [hm]
  simp

theorem Surface.GetColour_zero (s : Surface) : s.GetColour 0 = 0 := by
  simp [Surface.GetColour]

theorem Surface.pixelWord_zero (s : Surface) : s.pixelWord 0 = 0 := by
  unfold Surface.pixelWord
  split <;> simp [Surface.GetColour_zero]

/-- Inside a well-formed surface of a supported depth the stores of
    `DrawPixel` are the little-endian bytes of the pixel word at the offset
    of the pixel. -/
theorem Surface.DrawPixelWrites_eq_pixelWord (s : Surface) (hwf : s.WellFormed)
    (hd : s.bits_per_pixel = 8 ∨ s.bits_per_pixel = 16 ∨ s.bits_per_pixel = 24
      ∨ s.bits_per_pixel = 32)
    (x y c : Nat) (hx : x < s.xres) (hy : y < s.yres) :
    s.DrawPixelWrites x y c
      = storeLE (y * s.line_length + x * (s.bits_per_pixel / 8)) (s.bits_per_pixel / 8)
          (s.pixelWord c) := by
  obtain ⟨h32, h24, h16, h8⟩ := s.DrawPixelWrites_eq_storeLE x y c hx hy
  have hoff := s.pixelOffset_eq hwf x y hx hy
  rw [← hoff]
  unfold Surface.pixelWord Surface.GetDepth
  rcases hd with hd | hd | hd | hd
  · rw [h8 hd, hd]
  · rw [h16 hd, hd]
  · rw [h24 hd, hd]
  · rw [h32 hd, hd]

theorem pixel_byte_unique (ll n x y k x0 y0 k0 : Nat) (hk : k < n) (hk0 : k0 < n)
    (hr : x * n + n ≤ ll) (hr0 : x0 * n + n ≤ ll)
    (h : y * ll + x * n + k = y0 * ll + x0 * n + k0) : k = k0 := by
  have e1 : (y * ll + (x * n + k)) % ll = x * n + k := by
    rw [Nat.mul_add_mod', Nat.mod_eq_of_lt (by omega)]
  have e2 : (y0 * ll + (x0 * n + k0)) % ll = x0 * n + k0 := by
    rw [Nat.mul_add_mod', Nat.mod_eq_of_lt (by omega)]
  have e3 : x * n + k = x0 * n + k0 := by
    rw [← e1, ← e2, ← Nat.add_assoc, ← Nat.add_assoc, h]
  have e4 : (x * n + k) % n = k := by
    rw [Nat.mul_add_mod', Nat.mod_eq_of_lt hk]
  have e5 : (x0 * n + k0) % n = k0 := by
    rw [Nat.mul_add_mod', Nat.mod_eq_of_lt hk0]
  rw [← e4, ← e5, e3]

/-! ## Performing a list of pixel calls -/

theorem Surface.plotAll_withMem (s : Surface) (ps : List Plot) (m : Nat → Nat) :
    (s.withMem m).plotAll ps
      = s.withMem (writeAll m
          (ps.flatMap fun p => s.DrawPixelWrites (toU32 p.1.1) (toU32 p.1.2) p.2)) := by
  induction ps generalizing m with
  | nil => rfl
  | cons p ps ih =>
    unfold Surface.plotAll at ih ⊢
    rw [List.foldl_cons]
    show List.foldl _ ((s.withMem m).DrawPixel (toU32 p.1.1) (toU32 p.1.2) p.2) ps = _
    rw [s.DrawPixel_withMem, ih, List.flatMap_cons, writeAll_append]

theorem Surface.plotAll_eq (s : Surface) (ps : List Plot) :
    s.plotAll ps
      = s.withMem (writeAll s.mem
          (ps.flatMap fun p => s.DrawPixelWrites (toU32 p.1.1) (toU32 p.1.2) p.2)) :=
  s.plotAll_withMem ps s.mem

theorem Surface.plotAll_append (s : Surface) (ps qs : List Plot) :
    s.plotAll (ps ++ qs) = (s.plotAll ps).plotAll qs := by
  unfold Surface.plotAll
  rw [List.foldl_append]

/-- Two bytes of pixels of a surface at the same offset are the same byte of
    the same pixel. -/
theorem pixel_addr_unique (ll n x y k x0 y0 k0 : Nat) (hk : k < n) (hk0 : k0 < n)
    (hr : x * n + n ≤ ll) (hr0 : x0 * n + n ≤ ll)
    (h : y * ll + x * n + k = y0 * ll + x0 * n + k0) : x = x0 ∧ y = y0 ∧ k = k0 := by
  have hkk := pixel_byte_unique ll n x y k x0 y0 k0 hk hk0 hr hr0 h
  subst hkk
  have e1 : (y * ll + (x * n + k)) % ll = x * n + k := by
    rw [Nat.mul_add_mod', Nat.mod_eq_of_lt (by omega)]
  have e2 : (y0 * ll + (x0 * n + k)) % ll = x0 * n + k := by
    rw [Nat.mul_add_mod', Nat.mod_eq_of_lt (by omega)]
  have e3 : x * n + k = x0 * n + k := by
    rw [← e1, ← e2, ← Nat.add_assoc, ← Nat.add_assoc, h]
  have hn : 0 < n := by omega
  have hxx : x = x0 := Nat.eq_of_mul_eq_mul_right hn (by omega)
  subst hxx
  have hll : 0 < ll := by omega
  have hyy : y = y0 := Nat.eq_of_mul_eq_mul_right hll (by omega)
  exact ⟨rfl, hyy, rfl⟩

theorem Surface.row_fits (s : Surface) (hwf : s.WellFormed) (x : Nat) (hx : x < s.xres) :
    x * (s.bits_per_pixel / 8) + s.bits_per_pixel / 8 ≤ s.line_length := by
  have h1 : (x + 1) * (s.bits_per_pixel / 8) ≤ s.xres * (s.bits_per_pixel / 8) :=
    Nat.mul_le_mul_right _ hx
  have h2 : (x + 1) * (s.bits_per_pixel / 8)
      = x * (s.bits_per_pixel / 8) + s.bits_per_pixel / 8 := by ring
  have h3 := hwf.strideFits
  omega

/-- A store of a list of pixel calls comes from one of the calls, which is
    inside the surface, and is a byte of its pixel word. -/
theorem Surface.mem_plot_writes (s : Surface) (hwf : s.WellFormed)
    (hd : s.bits_per_pixel = 8 ∨ s.bits_per_pixel = 16 ∨ s.bits_per_pixel = 24
      ∨ s.bits_per_pixel = 32)
    (ps : List Plot) (w : Nat × Nat)
    (hw : w ∈ ps.flatMap fun p => s.DrawPixelWrites (toU32 p.1.1) (toU32 p.1.2) p.2) :
    ∃ p ∈ ps, toU32 p.1.1 < s.xres ∧ toU32 p.1.2 < s.yres ∧
      ∃ k, k < s.bits_per_pixel / 8 ∧
        w = (toU32 p.1.2 * s.line_length + toU32 p.1.1 * (s.bits_per_pixel / 8) + k,
             (s.pixelWord p.2 >>> (8 * k)) % 256) := by
  obtain ⟨p, hp, hw⟩ := List.mem_flatMap.1 hw
  have hx : toU32 p.1.1 < s.xres := by
    by_contra hge
    rw [s.DrawPixelWrites_of_out _ _ _ (Or.inl (by omega))] at hw
    cases hw
  have hy : toU32 p.1.2 < s.yres := by
    by_contra hge
    rw [s.DrawPixelWrites_of_out _ _ _ (Or.inr (by omega))] at hw
    cases hw
  rw [s.DrawPixelWrites_eq_pixelWord hwf hd _ _ _ hx hy] at hw
  obtain ⟨k, hk, rfl⟩ := (mem_storeLE _ _ _ w).1 hw
  exact ⟨p, hp, hx, hy, k, hk, rfl⟩

/-- After a list of pixel calls a pixel inside the surface holds the colour
    of the last call for it: here the calls are split in two parts, the
    second part has a call for the pixel, and all its calls for the pixel
    have the colour `c`. -/
theorem Surface.plotAll_pixelIs (s : Surface) (hwf : s.WellFormed)
    (hd : s.bits_per_pixel = 8 ∨ s.bits_per_pixel = 16 ∨ s.bits_per_pixel = 24
      ∨ s.bits_per_pixel = 32)
    (pre post : List Plot) (x y : Int) (c : Nat)
    (hx : toU32 x < s.xres) (hy : toU32 y < s.yres)
    (hin : ∃ p ∈ post, toU32 p.1.1 = toU32 x ∧ toU32 p.1.2 = toU32 y ∧ p.2 = c)
    (hall : ∀ p ∈ post, toU32 p.1.1 = toU32 x → toU32 p.1.2 = toU32 y → p.2 = c) :
    (s.plotAll (pre ++ post)).PixelIs x y c := by
  intro w hw
  rw [s.plotAll_eq] at hw ⊢
  change w ∈ s.DrawPixelWrites (toU32 x) (toU32 y) c at hw
  show writeAll s.mem _ w.1 = w.2
  rw [List.flatMap_append, writeAll_append]
  have hst := s.DrawPixelWrites_eq_pixelWord hwf hd _ _ c hx hy
  rw [hst] at hw
  obtain ⟨k, hk, rfl⟩ := (mem_storeLE _ _ _ w).1 hw
  apply writeAll_of_forall_eq
  · obtain ⟨p, hp, hpx, hpy, hpc⟩ := hin
    refine ⟨_, List.mem_flatMap.2 ⟨p, hp, ?_⟩, rfl⟩
    rw [hpx, hpy, hpc, hst]
    exact (mem_storeLE _ _ _ _).2 ⟨k, hk, rfl⟩
  · intro w' hw' he
    obtain ⟨p, hp, hpx, hpy, k', hk', rfl⟩ := s.mem_plot_writes hwf hd post w' hw'
    obtain ⟨hxx, hyy, hkk⟩ := pixel_addr_unique s.line_length (s.bits_per_pixel / 8) _ _ k'
      _ _ k hk' hk (s.row_fits hwf _ hpx) (s.row_fits hwf _ hx) he
    rw [hall p hp hxx hyy, hkk]

/-- A list of pixel calls leaves a pixel as it was when none of the calls is
    for it. -/
theorem Surface.plotAll_samePixel (s : Surface) (hwf : s.WellFormed)
    (hd : s.bits_per_pixel = 8 ∨ s.bits_per_pixel = 16 ∨ s.bits_per_pixel = 24
      ∨ s.bits_per_pixel = 32)
    (ps : List Plot) (x y : Int)
    (hnot : ∀ p ∈ ps, ¬ (toU32 p.1.1 = toU32 x ∧ toU32 p.1.2 = toU32 y)) :
    s.SamePixel (s.plotAll ps) x y := by
  intro w hw
  rw [s.plotAll_eq]
  show writeAll s.mem _ w.1 = s.mem w.1
  apply writeAll_of_not_mem
  intro w' hw' he
  have hx : toU32 x < s.xres := by
    by_contra hge
    rw [s.DrawPixelWrites_of_out _ _ _ (Or.inl (by omega))] at hw
    cases hw
  have hy : toU32 y < s.yres := by
    by_contra hge
    rw [s.DrawPixelWrites_of_out _ _ _ (Or.inr (by omega))] at hw
    cases hw
  rw [s.DrawPixelWrites_eq_pixelWord hwf hd _ _ _ hx hy] at hw
  obtain ⟨k, hk, rfl⟩ := (mem_storeLE _ _ _ w).1 hw
  obtain ⟨p, hp, hpx, hpy, k', hk', rfl⟩ := s.mem_plot_writes hwf hd ps w' hw'
  obtain ⟨hxx, hyy, _⟩ := pixel_addr_unique s.line_length (s.bits_per_pixel / 8) _ _ k'
    _ _ k hk' hk (s.row_fits hwf _ hpx) (s.row_fits hwf _ hx) he
  exact hnot p hp ⟨hxx, hyy⟩

theorem toU32_of_small (i : Int) (h0 : 0 ≤ i) (h1 : i < 2 ^ 32) : toU32 i = i.toNat := by
  unfold toU32
  rw [Int.emod_eq_of_lt h0 h1]

theorem toU32_inj (a b : Int) (ha0 : -2 ^ 31 ≤ a) (ha1 : a < 2 ^ 31) (hb0 : -2 ^ 31 ≤ b)
    (hb1 : b < 2 ^ 31) (h : toU32 a = toU32 b) : a = b := by
  unfold toU32 at h
  have h1 : a % (2 ^ 32 : Int) = b % (2 ^ 32 : Int) := by
    have ha := Int.toNat_of_nonneg (Int.emod_nonneg a (show (2 ^ 32 : Int) ≠ 0 by norm_num))
    have hb := Int.toNat_of_nonneg (Int.emod_nonneg b (show (2 ^ 32 : Int) ≠ 0 by norm_num))
    rw [← ha, ← hb, h]
  omega

theorem toI32_of_small (i : Int) (h0 : -2 ^ 31 ≤ i) (h1 : i < 2 ^ 31) : toI32 i = i := by
  unfold toI32
  omega

/-! ## Horizontal, vertical and diagonal lines -/

theorem stepPoints_succ (xa ya sx sy : Int) (n : Nat) :
    stepPoints xa ya sx sy (n + 1) = (xa, ya) :: stepPoints (xa + sx) (ya + sy) sx sy n := by
  unfold stepPoints
  rw [List.range_succ_eq_map, List.map_cons, List.map_map]
  congr 1
  · simp
  · apply List.map_congr_left
    intro i _
    simp only [Function.comp, Nat.succ_eq_add_one]
    push_cast
    congr 1 <;> ring

/-- The loop of `drawLine` for `dy = 0`: `y` stays. -/
theorem drawLineLoop_flat (steep : Bool) (dx : ℚ) (ystep : Int) (n : Nat) (x y : Int)
    (e : ℚ) (he : 0 ≤ e) :
    drawLineLoop steep dx 0 ystep n x y e
      = if steep then stepPoints y x 0 1 n else stepPoints x y 1 0 n := by
  induction n generalizing x with
  | zero => cases steep <;> rfl
  | succ n ih =>
    have hlt : ¬ (e - 0 < 0) := by rw [sub_zero]; exact not_lt.2 he
    rw [drawLineLoop, if_neg hlt, sub_zero, ih, stepPoints_succ, stepPoints_succ]
    cases steep <;> simp

/-- The loop of `drawLine` for `dy = dx > 0` and `error = dx / 2`: `y` moves
    by `ystep` in every pass. -/
theorem drawLineLoop_diagonal (dx : ℚ) (hdx : 0 < dx) (ystep : Int) (n : Nat) (x y : Int) :
    drawLineLoop false dx dx ystep n x y (dx / 2) = stepPoints x y 1 ystep n := by
  induction n generalizing x y with
  | zero => rfl
  | succ n ih =>
    have hlt : dx / 2 - dx < 0 := by linarith
    have he : dx / 2 - dx + dx = dx / 2 := by ring
    rw [drawLineLoop, if_pos hlt, he, ih, stepPoints_succ]
    simp

/-- The points of `drawLine` when the line is not steep. -/
theorem drawLinePoints_of_not_steep (x1 y1 x2 y2 : Int) (h : ¬ |y2 - y1| > |x2 - x1|) :
    drawLinePoints x1 y1 x2 y2 =
      if x1 > x2 then
        drawLineLoop false ((x1 - x2 : Int) : ℚ) ((|y1 - y2| : Int) : ℚ)
          (if y2 < y1 then 1 else -1) (x1 + 1 - x2).toNat x2 y2 (((x1 - x2 : Int) : ℚ) / 2)
      else
        drawLineLoop false ((x2 - x1 : Int) : ℚ) ((|y2 - y1| : Int) : ℚ)
          (if y1 < y2 then 1 else -1) (x2 + 1 - x1).toNat x1 y1 (((x2 - x1 : Int) : ℚ) / 2) := by
  have hs : decide (|y2 - y1| > |x2 - x1|) = false := decide_eq_false h
  simp only [drawLinePoints, hs, Bool.false_eq_true, if_false]
  by_cases hgt : x1 > x2
  · simp only [hgt, if_true]
  · simp only [hgt, if_false]

/-- The points of `drawLine` when the line is steep. -/
theorem drawLinePoints_of_steep (x1 y1 x2 y2 : Int) (h : |y2 - y1| > |x2 - x1|) :
    drawLinePoints x1 y1 x2 y2 =
      if y1 > y2 then
        drawLineLoop true ((y1 - y2 : Int) : ℚ) ((|x1 - x2| : Int) : ℚ)
          (if x2 < x1 then 1 else -1) (y1 + 1 - y2).toNat y2 x2 (((y1 - y2 : Int) : ℚ) / 2)
      else
        drawLineLoop true ((y2 - y1 : Int) : ℚ) ((|x2 - x1| : Int) : ℚ)
          (if x1 < x2 then 1 else -1) (y2 + 1 - y1).toNat y1 x1 (((y2 - y1 : Int) : ℚ) / 2) := by
  have hs : decide (|y2 - y1| > |x2 - x1|) = true := decide_eq_true h
  simp only [drawLinePoints, hs, if_true]
  by_cases hgt : y1 > y2
  · simp only [hgt, if_true]
  · simp only [hgt, if_false]

theorem cast_half_nonneg (a : Int) (h : 0 ≤ a) : (0 : ℚ) ≤ (a : ℚ) / 2 := by
  have : (0 : ℚ) ≤ (a : ℚ) := by exact_mod_cast h
  linarith

/-- A horizontal line. -/
theorem drawLinePoints_horizontal (x1 x2 y : Int) :
    drawLinePoints x1 y x2 y = stepPoints (min x1 x2) y 1 0 (|x2 - x1|.toNat + 1) := by
  have hs : ¬ (|y - y| > |x2 - x1|) := by
    rw [sub_self, abs_zero]
    exact not_lt.2 (abs_nonneg _)
  rw [drawLinePoints_of_not_steep _ _ _ _ hs, sub_self, abs_zero, Int.cast_zero]
  by_cases hgt : x1 > x2
  · rw [if_pos hgt, drawLineLoop_flat _ _ _ _ _ _ _ (cast_half_nonneg _ (by omega))]
    simp only [Bool.false_eq_true, if_false]
    congr 1
    · omega
    · rw [abs_of_neg (by omega)]; omega
  · rw [if_neg hgt, drawLineLoop_flat _ _ _ _ _ _ _ (cast_half_nonneg _ (by omega))]
    simp only [Bool.false_eq_true, if_false]
    congr 1
    · omega
    · rw [abs_of_nonneg (by omega)]; omega

/-- A vertical line of more than one pixel. -/
theorem drawLinePoints_vertical (x y1 y2 : Int) (hne : y1 ≠ y2) :
    drawLinePoints x y1 x y2 = stepPoints x (min y1 y2) 0 1 (|y2 - y1|.toNat + 1) := by
  have hs : |y2 - y1| > |x - x| := by
    rw [sub_self, abs_zero]
    exact abs_pos.2 (by omega)
  rw [drawLinePoints_of_steep _ _ _ _ hs, sub_self, abs_zero, Int.cast_zero]
  by_cases hgt : y1 > y2
  · rw [if_pos hgt, drawLineLoop_flat _ _ _ _ _ _ _ (cast_half_nonneg _ (by omega))]
    simp only [if_true]
    congr 1
    · omega
    · rw [abs_of_neg (by omega)]; omega
  · rw [if_neg hgt, drawLineLoop_flat _ _ _ _ _ _ _ (cast_half_nonneg _ (by omega))]
    simp only [if_true]
    congr 1
    · omega
    · rw [abs_of_nonneg (by omega)]; omega

/-- A line at 45 degrees of more than one pixel. -/
theorem drawLinePoints_diagonal (x1 y1 x2 y2 : Int) (hd : |x2 - x1| = |y2 - y1|)
    (hne : x1 ≠ x2) :
    drawLinePoints x1 y1 x2 y2 =
      if x1 > x2 then stepPoints x2 y2 1 (if y2 < y1 then 1 else -1) (|x2 - x1|.toNat + 1)
      else stepPoints x1 y1 1 (if y1 < y2 then 1 else -1) (|x2 - x1|.toNat + 1) := by
  have hs : ¬ (|y2 - y1| > |x2 - x1|) := by rw [hd]; exact lt_irrefl _
  rw [drawLinePoints_of_not_steep _ _ _ _ hs]
  by_cases hgt : x1 > x2
  · rw [if_pos hgt, if_pos hgt]
    have e1 : |y1 - y2| = x1 - x2 := by
      rw [abs_sub_comm, ← hd, abs_of_neg (by omega)]; omega
    have hpos : (0 : ℚ) < ((x1 - x2 : Int) : ℚ) := by exact_mod_cast (by omega : (0 : Int) < x1 - x2)
    rw [e1, drawLineLoop_diagonal _ hpos]
    congr 1
    rw [abs_of_neg (by omega)]; omega
  · rw [if_neg hgt, if_neg hgt]
    have e1 : |y2 - y1| = x2 - x1 := by
      rw [← hd, abs_of_pos (by omega)]
    have hpos : (0 : ℚ) < ((x2 - x1 : Int) : ℚ) := by exact_mod_cast (by omega : (0 : Int) < x2 - x1)
    rw [e1, drawLineLoop_diagonal _ hpos]
    congr 1
    rw [abs_of_pos (by omega)]; omega

/-- A line of weight one is one call of `drawLine`. -/
theorem DrawLinePoints_one (x1 y1 x2 y2 : Int) :
    DrawLinePoints x1 y1 x2 y2 1 = drawLinePoints x1 y1 x2 y2 := by
  unfold DrawLinePoints
  rw [show List.range 1 = [0] from rfl, List.flatMap_singleton]
  simp

theorem stepPoints_length (xa ya sx sy : Int) (n : Nat) :
    (stepPoints xa ya sx sy n).length = n := by
  simp [stepPoints]

theorem mem_stepPoints (xa ya sx sy : Int) (n : Nat) (p : Int × Int) :
    p ∈ stepPoints xa ya sx sy n ↔ ∃ i : Nat, i < n ∧ p = (xa + i * sx, ya + i * sy) := by
  unfold stepPoints
  constructor
  · intro h
    obtain ⟨i, hi, rfl⟩ := List.mem_map.1 h
    exact ⟨i, List.mem_range.1 hi, rfl⟩
  · rintro ⟨i, hi, rfl⟩
    exact List.mem_map.2 ⟨i, List.mem_range.2 hi, rfl⟩

theorem stepPoints_getD (xa ya sx sy : Int) (n i : Nat) (hi : i < n) (d : Int × Int) :
    (stepPoints xa ya sx sy n).getD i d = (xa + i * sx, ya + i * sy) := by
  unfold stepPoints
  rw [List.getD_eq_getElem?_getD, List.getElem?_map, List.getElem?_range hi]
  rfl

theorem stepPoints_nodup (xa ya sx sy : Int) (n : Nat) (hs : sx ≠ 0 ∨ sy ≠ 0) :
    (stepPoints xa ya sx sy n).Nodup := by
  unfold stepPoints
  apply List.Nodup.map _ (List.nodup_range n)
  intro i j hij
  simp only [Prod.mk.injEq] at hij
  rcases hs with hs | hs
  · have h1 : (i : Int) * sx = j * sx := by omega
    exact_mod_cast mul_right_cancel₀ hs h1
  · have h1 : (i : Int) * sy = j * sy := by omega
    exact_mod_cast mul_right_cancel₀ hs h1

/-- The points of a horizontal, a vertical or a 45 degree line: from one end
    point to the other in unit steps along the longer axis. -/
theorem drawLinePoints_axis_or_diagonal (x1 y1 x2 y2 : Int)
    (h : y1 = y2 ∨ x1 = x2 ∨ |x2 - x1| = |y2 - y1|) :
    ∃ xa ya sx sy : Int,
      drawLinePoints x1 y1 x2 y2
        = stepPoints xa ya sx sy ((max |x2 - x1| |y2 - y1|).toNat + 1) ∧
      (if |y2 - y1| > |x2 - x1| then sy = 1 ∧ sx = 0
        else sx = 1 ∧ (sy = 0 ∨ sy = 1 ∨ sy = -1)) ∧
      ((xa = x1 ∧ ya = y1 ∧ x2 = x1 + max |x2 - x1| |y2 - y1| * sx
          ∧ y2 = y1 + max |x2 - x1| |y2 - y1| * sy) ∨
        (xa = x2 ∧ ya = y2 ∧ x1 = x2 + max |x2 - x1| |y2 - y1| * sx
          ∧ y1 = y2 + max |x2 - x1| |y2 - y1| * sy)) := by
  by_cases hy : y1 = y2
  · subst hy
    refine ⟨min x1 x2, y1, 1, 0, ?_, ?_, ?_⟩
    · rw [drawLinePoints_horizontal, sub_self, abs_zero, max_eq_left (abs_nonneg _)]
    · rw [sub_self, abs_zero, if_neg (not_lt.2 (abs_nonneg _))]
      exact ⟨rfl, Or.inl rfl⟩
    · rw [sub_self, abs_zero, max_eq_left (abs_nonneg _)]
      rcases le_total x1 x2 with hle | hle
      · left
        rw [min_eq_left hle, abs_of_nonneg (by omega)]
        omega
      · right
        rw [min_eq_right hle, abs_of_nonpos (by omega)]
        omega
  by_cases hx : x1 = x2
  · subst hx
    have hpos : 0 < |y2 - y1| := abs_pos.2 (by omega)
    refine ⟨x1, min y1 y2, 0, 1, ?_, ?_, ?_⟩
    · rw [drawLinePoints_vertical _ _ _ hy, sub_self, abs_zero, max_eq_right (abs_nonneg _)]
    · rw [sub_self, abs_zero, if_pos hpos]
      exact ⟨rfl, rfl⟩
    · rw [sub_self, abs_zero, max_eq_right (abs_nonneg _)]
      rcases le_total y1 y2 with hle | hle
      · left
        rw [min_eq_left hle, abs_of_nonneg (by omega)]
        omega
      · right
        rw [min_eq_right hle, abs_of_nonpos (by omega)]
        omega
  have hd : |x2 - x1| = |y2 - y1| := by
    rcases h with h | h | h
    · exact absurd h hy
    · exact absurd h hx
    · exact h
  have hns : ¬ (|y2 - y1| > |x2 - x1|) := by rw [hd]; exact lt_irrefl _
  have hmax : max |x2 - x1| |y2 - y1| = |x2 - x1| := by rw [← hd, max_self]
  by_cases hgt : x1 > x2
  · have hx' : |x2 - x1| = x1 - x2 := by rw [abs_of_neg (by omega)]; omega
    refine ⟨x2, y2, 1, if y2 < y1 then 1 else -1, ?_, ?_, Or.inr ⟨rfl, rfl, ?_, ?_⟩⟩
    · rw [drawLinePoints_diagonal _ _ _ _ hd hx, if_pos hgt, hmax]
    · rw [if_neg hns]
      refine ⟨rfl, ?_⟩
      split <;> simp
    · rw [hmax, hx']; omega
    · rw [hmax, hx']
      rw [hx'] at hd
      by_cases hlt : y2 < y1
      · rw [if_pos hlt]
        rw [abs_of_neg (by omega)] at hd
        omega
      · rw [if_neg hlt]
        rw [abs_of_nonneg (by omega)] at hd
        omega
  · have hx' : |x2 - x1| = x2 - x1 := by rw [abs_of_pos (by omega)]
    refine ⟨x1, y1, 1, if y1 < y2 then 1 else -1, ?_, ?_, Or.inl ⟨rfl, rfl, ?_, ?_⟩⟩
    · rw [drawLinePoints_diagonal _ _ _ _ hd hx, if_neg hgt, hmax]
    · rw [if_neg hns]
      refine ⟨rfl, ?_⟩
      split <;> simp
    · rw [hmax, hx']; omega
    · rw [hmax, hx']
      rw [hx'] at hd
      by_cases hlt : y1 < y2
      · rw [if_pos hlt]
        rw [abs_of_pos (by omega)] at hd
        omega
      · rw [if_neg hlt]
        rw [abs_of_nonpos (by omega)] at hd
        omega

/-! ## Pixels after a list of calls with `int` coordinates -/

theorem toU32_lt_of_inside (x : Int) (w : Nat) (h0 : 0 ≤ x) (h1 : x < w) (hw : w ≤ 2 ^ 31) :
    toU32 x < w := by
  rw [toU32_of_small x h0 (by omega)]
  omega

/-- The last call for a pixel decides its colour, for calls with `int`
    coordinates and a pixel inside the surface. -/
theorem Surface.plotAll_pixelIs_of_last (s : Surface) (hwf : s.WellFormed)
    (hd : s.bits_per_pixel = 8 ∨ s.bits_per_pixel = 16 ∨ s.bits_per_pixel = 24
      ∨ s.bits_per_pixel = 32)
    (hw31 : s.xres ≤ 2 ^ 31) (hh31 : s.yres ≤ 2 ^ 31)
    (pre post : List Plot) (x y : Int) (c : Nat)
    (hx0 : 0 ≤ x) (hx : x < s.xres) (hy0 : 0 ≤ y) (hy : y < s.yres)
    (hin : ((x, y), c) ∈ post)
    (hall : ∀ q ∈ post, q.1 = (x, y) → q.2 = c)
    (hrange : ∀ q ∈ post, InIntRange q.1) :
    (s.plotAll (pre ++ post)).PixelIs x y c := by
  apply s.plotAll_pixelIs hwf hd pre post x y c
    (toU32_lt_of_inside x _ hx0 hx hw31) (toU32_lt_of_inside y _ hy0 hy hh31)
  · exact ⟨((x, y), c), hin, rfl, rfl, rfl⟩
  · intro q hq hqx hqy
    obtain ⟨r1, r2, r3, r4⟩ := hrange q hq
    have e1 : q.1.1 = x := toU32_inj _ _ r1 r2 (by omega) (by omega) hqx
    have e2 : q.1.2 = y := toU32_inj _ _ r3 r4 (by omega) (by omega) hqy
    exact hall q hq (Prod.ext e1 e2)

/-- A pixel inside the surface for which there is no call stays as it was,
    for calls with `int` coordinates. -/
theorem Surface.plotAll_samePixel_of_not_mem (s : Surface) (hwf : s.WellFormed)
    (hd : s.bits_per_pixel = 8 ∨ s.bits_per_pixel = 16 ∨ s.bits_per_pixel = 24
      ∨ s.bits_per_pixel = 32)
    (ps : List Plot) (x y : Int)
    (hx0 : 0 ≤ x) (hx : x < 2 ^ 31) (hy0 : 0 ≤ y) (hy : y < 2 ^ 31)
    (hnot : ∀ q ∈ ps, q.1 ≠ (x, y))
    (hrange : ∀ q ∈ ps, InIntRange q.1) :
    s.SamePixel (s.plotAll ps) x y := by
  apply s.plotAll_samePixel hwf hd
  rintro q hq ⟨hqx, hqy⟩
  obtain ⟨r1, r2, r3, r4⟩ := hrange q hq
  have e1 : q.1.1 = x := toU32_inj _ _ r1 r2 (by omega) (by omega) hqx
  have e2 : q.1.2 = y := toU32_inj _ _ r3 r4 (by omega) (by omega) hqy
  exact hnot q hq (Prod.ext e1 e2)

theorem mem_withColour (pts : List (Int × Int)) (colour : Nat) (q : Plot) :
    q ∈ withColour pts colour ↔ q.1 ∈ pts ∧ q.2 = colour := by
  unfold withColour
  constructor
  · intro h
    obtain ⟨p, hp, rfl⟩ := List.mem_map.1 h
    exact ⟨hp, rfl⟩
  · rintro ⟨hp, hc⟩
    exact List.mem_map.2 ⟨q.1, hp, by rw [← hc]⟩

/-! ## The pixels of horizontal and vertical lines and of rectangles -/

theorem mem_drawLinePoints_horizontal (x1 x2 y : Int) (p : Int × Int) :
    p ∈ drawLinePoints x1 y x2 y ↔ p.2 = y ∧ min x1 x2 ≤ p.1 ∧ p.1 ≤ max x1 x2 := by
  rw [drawLinePoints_horizontal, mem_stepPoints]
  have habs : ((|x2 - x1|).toNat : Int) = max x1 x2 - min x1 x2 := by
    rw [Int.toNat_of_nonneg (abs_nonneg _)]
    rcases le_total x1 x2 with hle | hle
    · rw [abs_of_nonneg (by omega), max_eq_right hle, min_eq_left hle]
    · rw [abs_of_nonpos (by omega), max_eq_left hle, min_eq_right hle]; omega
  have hnn := abs_nonneg (x2 - x1)
  constructor
  · rintro ⟨i, hi, rfl⟩
    refine ⟨by simp, ?_, ?_⟩ <;> simp only [mul_zero, mul_one, add_zero] <;> omega
  · rintro ⟨h1, h2, h3⟩
    refine ⟨(p.1 - min x1 x2).toNat, by omega, ?_⟩
    rw [Int.toNat_of_nonneg (by omega)]
    apply Prod.ext
    · simp
    · simp [h1]

theorem mem_drawLinePoints_vertical (x y1 y2 : Int) (p : Int × Int) :
    p ∈ drawLinePoints x y1 x y2 ↔ p.1 = x ∧ min y1 y2 ≤ p.2 ∧ p.2 ≤ max y1 y2 := by
  by_cases hy : y1 = y2
  · subst hy
    rw [mem_drawLinePoints_horizontal]
    simp only [min_self, max_self]
    constructor
    · rintro ⟨h1, h2, h3⟩
      exact ⟨by omega, by omega, by omega⟩
    · rintro ⟨h1, h2, h3⟩
      exact ⟨by omega, by omega, by omega⟩
  rw [drawLinePoints_vertical _ _ _ hy, mem_stepPoints]
  have habs : ((|y2 - y1|).toNat : Int) = max y1 y2 - min y1 y2 := by
    rw [Int.toNat_of_nonneg (abs_nonneg _)]
    rcases le_total y1 y2 with hle | hle
    · rw [abs_of_nonneg (by omega), max_eq_right hle, min_eq_left hle]
    · rw [abs_of_nonpos (by omega), max_eq_left hle, min_eq_right hle]; omega
  have hnn := abs_nonneg (y2 - y1)
  constructor
  · rintro ⟨i, hi, rfl⟩
    refine ⟨by simp, ?_, ?_⟩ <;> simp only [mul_zero, mul_one, add_zero] <;> omega
  · rintro ⟨h1, h2, h3⟩
    refine ⟨(p.2 - min y1 y2).toNat, by omega, ?_⟩
    rw [Int.toNat_of_nonneg (by omega)]
    apply Prod.ext
    · simp [h1]
    · simp

theorem mem_rectFillRows (y1 y2 : Int) (border : Nat) (r : Int) :
    r ∈ rectFillRows y1 y2 border ↔ y1 + border ≤ r ∧ r ≤ y2 - border := by
  unfold rectFillRows
  constructor
  · intro h
    obtain ⟨i, hi, rfl⟩ := List.mem_map.1 h
    have := List.mem_range.1 hi
    omega
  · rintro ⟨h1, h2⟩
    refine List.mem_map.2 ⟨(r - (y1 + border)).toNat, List.mem_range.2 (by omega), ?_⟩
    rw [Int.toNat_of_nonneg (by omega)]
    omega

/-- The pixels of the fill loop of `DrawRect`: the rows from `y1 + border`
    to `y2 - border`, and in each the columns between `x1 + border` and
    `x2 - border + 1`. -/
theorem mem_rectFillPoints (x1 y1 x2 y2 : Int) (border : Nat) (p : Int × Int) :
    p ∈ rectFillPoints x1 y1 x2 y2 border ↔
      (y1 + border ≤ p.2 ∧ p.2 ≤ y2 - border) ∧
      min (x1 + border) (x2 - border + 1) ≤ p.1 ∧ p.1 ≤ max (x1 + border) (x2 - border + 1) := by
  unfold rectFillPoints
  rw [List.mem_flatMap]
  constructor
  · rintro ⟨r, hr, hp⟩
    rw [DrawLinePoints_one, mem_drawLinePoints_horizontal] at hp
    rw [mem_rectFillRows] at hr
    obtain ⟨h1, h2, h3⟩ := hp
    rw [h1]
    exact ⟨hr, h2, h3⟩
  · rintro ⟨hr, h2, h3⟩
    refine ⟨p.2, (mem_rectFillRows _ _ _ _).2 hr, ?_⟩
    rw [DrawLinePoints_one, mem_drawLinePoints_horizontal]
    exact ⟨rfl, h2, h3⟩

/-- The pixels of the border of `DrawRect` for `border = 1` and
    `radius = 0`, corners in order: the four sides. -/
theorem mem_rectBorderPoints_one (x1 y1 x2 y2 : Int) (round : Nat) (p : Int × Int)
    (hx : x1 ≤ x2) (hy : y1 ≤ y2)
    (hr : InIntRange (x1, y1)) (hr2 : InIntRange (x2, y2)) :
    p ∈ rectBorderPoints x1 y1 x2 y2 1 round 0 ↔
      (x1 ≤ p.1 ∧ p.1 ≤ x2 ∧ y1 ≤ p.2 ∧ p.2 ≤ y2) ∧
      (p.1 = x1 ∨ p.1 = x2 ∨ p.2 = y1 ∨ p.2 = y2) := by
  obtain ⟨a1, a2, a3, a4⟩ := hr
  obtain ⟨b1, b2, b3, b4⟩ := hr2
  simp only at a1 a2 a3 a4 b1 b2 b3 b4
  unfold rectBorderPoints
  simp only [Nat.cast_zero, add_zero, sub_zero, Nat.cast_one, ne_eq, not_true_eq_false,
    if_false, List.append_nil, List.mem_append, DrawLinePoints_one]
  rw [toI32_of_small x1 a1 a2, toI32_of_small x2 b1 b2, toI32_of_small y1 a3 a4,
    toI32_of_small y2 b3 b4]
  rw [mem_drawLinePoints_horizontal, mem_drawLinePoints_horizontal,
    mem_drawLinePoints_vertical, mem_drawLinePoints_vertical]
  rw [min_eq_left hx, max_eq_right hx, min_eq_left hy, max_eq_right hy]
  constructor
  · rintro (((h | h) | h) | h) <;> omega
  · rintro ⟨h, h' | h' | h' | h'⟩
    · exact Or.inl (Or.inr ⟨h', by omega, by omega⟩)
    · exact Or.inr ⟨by omega, by omega, by omega⟩
    · exact Or.inl (Or.inl (Or.inl ⟨h', by omega, by omega⟩))
    · exact Or.inl (Or.inl (Or.inr ⟨by omega, by omega, by omega⟩))

/-! ## Facts about the loops that are not entered -/

/-- With a border wider than the radius the loop of `drawQuadrant` is not
    entered. -/
theorem drawQuadrantPoints_of_lt (x0 y0 : Int) (radius border quadrant : Nat)
    (h : radius < border) (hb : border < 2 ^ 32) :
    drawQuadrantPoints x0 y0 radius border quadrant = [] := by
  have hr : quadrantRadii radius border = [] := by
    unfold quadrantRadii sub32 U32
    have e : radius - (radius % 2 ^ 32 + 2 ^ 32 - border % 2 ^ 32) % 2 ^ 32 = 0 := by omega
    rw [e]
    rfl
  unfold drawQuadrantPoints
  simp only [hr, List.flatMap_nil]

/-- With a negative pitch the row loop of `drawBitmap` is not entered. -/
theorem drawBitmapPoints_of_neg (bitmap : FT_Bitmap) (x y : Int) (h : bitmap.pitch < 0) :
    drawBitmapPoints bitmap x y = [] := by
  unfold drawBitmapPoints
  simp only [if_pos h]
  cases hrows : bitmap.rows with
  | zero => rfl
  | succ n =>
    have hn : ¬ (((n + 1 : Nat) : Int) < 0) := by omega
    rw [glyphLoop, if_neg hn]

/-- The pixels of `DrawBitmap` do not depend on the position it is given. -/
theorem DrawBitmapPlots_position (pImage : bitmap_image) (x y : Int) :
    DrawBitmapPlots pImage x y = DrawBitmapPlots pImage 0 0 := rfl

/-! ## The border of a circle that is not wider than the radius -/

theorem quadrantRadii_head (radius border : Nat) (h1 : 1 ≤ border) (h2 : border ≤ radius)
    (hr : radius < 2 ^ 32) : radius ∈ quadrantRadii radius border := by
  unfold quadrantRadii
  have hs : sub32 radius border = radius - border := by
    unfold sub32 U32
    omega
  rw [hs]
  exact List.mem_map.2 ⟨0, List.mem_range.2 (by omega), by omega⟩

/-- With `1 ≤ border ≤ radius` the four end points of the axes are among the
    pixels of `drawQuadrant` for all four quadrants. -/
theorem axis_ends_mem_drawQuadrantPoints (x0 y0 : Int) (radius border : Nat)
    (h1 : 1 ≤ border) (h2 : border ≤ radius) (hr : radius < 2 ^ 32) (p : Int × Int)
    (hp : p = (x0 + radius, y0) ∨ p = (x0 - radius, y0) ∨ p = (x0, y0 + radius)
      ∨ p = (x0, y0 - radius)) :
    p ∈ drawQuadrantPoints x0 y0 radius border QUADRANT_ALL := by
  unfold drawQuadrantPoints
  refine List.mem_flatMap.2 ⟨radius, quadrantRadii_head radius border h1 h2 hr, ?_⟩
  apply List.mem_append_left
  have e1 : decide (QUADRANT_ALL &&& QUADRANT_TOP_RIGHT = QUADRANT_TOP_RIGHT) = true := by
    decide
  have e2 : decide (QUADRANT_ALL &&& QUADRANT_BOTTOM_RIGHT = QUADRANT_BOTTOM_RIGHT) = true := by
    decide
  have e3 : decide (QUADRANT_ALL &&& QUADRANT_BOTTOM_LEFT = QUADRANT_BOTTOM_LEFT) = true := by
    decide
  have e4 : decide (QUADRANT_ALL &&& QUADRANT_TOP_LEFT = QUADRANT_TOP_LEFT) = true := by
    decide
  rw [e1, e2, e3, e4]
  unfold quadrantAxisPoints
  simp only [if_true, List.mem_append, List.mem_cons, List.mem_singleton, List.not_mem_nil,
    or_false]
  rcases hp with rfl | rfl | rfl | rfl <;> simp

/-- With `1 ≤ border ≤ radius`, after `DrawCircle` each end point of an axis
    that is inside the surface holds the border colour, with or without a
    fill. -/
theorem Surface.DrawCircle_axis_ends (s : Surface) (hwf : s.WellFormed)
    (hd : s.bits_per_pixel = 8 ∨ s.bits_per_pixel = 16 ∨ s.bits_per_pixel = 24
      ∨ s.bits_per_pixel = 32)
    (x0 y0 : Int) (radius colour border fillColour : Nat)
    (h1 : 1 ≤ border) (h2 : border ≤ radius) (hr : radius < 2 ^ 32) (p : Int × Int)
    (hp : p = (x0 + radius, y0) ∨ p = (x0 - radius, y0) ∨ p = (x0, y0 + radius)
      ∨ p = (x0, y0 - radius))
    (hx : toU32 p.1 < s.xres) (hy : toU32 p.2 < s.yres) :
    (s.DrawCircle x0 y0 radius colour border fillColour).PixelIs p.1 p.2 colour := by
  unfold Surface.DrawCircle DrawCirclePlots
  apply s.plotAll_pixelIs hwf hd _ _ p.1 p.2 colour hx hy
  · exact ⟨(p, colour), (mem_withColour _ _ _).2
      ⟨axis_ends_mem_drawQuadrantPoints x0 y0 radius border h1 h2 hr p hp, rfl⟩, rfl, rfl, rfl⟩
  · exact fun q hq _ _ => ((mem_withColour _ _ q).1 hq).2

/-! ## The rows of the triangle fill -/

theorem truncToInt_intCast (z : Int) : truncToInt (z : ℚ) = z := by
  unfold truncToInt
  rw [Rat.num_intCast, Rat.den_intCast]
  simp

/-- One sweep of `DrawTriangle` from the row `y`: it draws the rows `y + k`
    for `k` below the number of passes `n`, each between the positions
    `xS + k * dS` and `xE + k * dE`, and ends with both positions and the row
    advanced `n` times. -/
theorem triangleSweep_eq (dS dE : ℚ) (yMax : Int) (fuel : Nat) (xS : ℚ) (y : Int) (xE : ℚ) :
    triangleSweep dS dE yMax fuel xS (y : ℚ) xE =
      ((List.range (min fuel (yMax + 1 - y).toNat)).flatMap fun (k : Nat) =>
          DrawLinePoints (truncToInt (xS + k * dS)) (y + k) (truncToInt (xE + k * dE))
            (y + k) 1,
        (xS + (min fuel (yMax + 1 - y).toNat : Nat) * dS,
         ((y + (min fuel (yMax + 1 - y).toNat : Nat) : Int) : ℚ),
         xE + (min fuel (yMax + 1 - y).toNat : Nat) * dE)) := by
  induction fuel generalizing xS y xE with
  | zero => simp [triangleSweep]
  | succ fuel ih =>
    rw [triangleSweep]
    by_cases hle : (y : ℚ) ≤ (yMax : ℚ)
    · have hle' : y ≤ yMax := by exact_mod_cast hle
      rw [if_pos hle]
      have hy1 : ((y : ℚ) + 1) = ((y + 1 : Int) : ℚ) := by push_cast; ring
      rw [hy1, ih]
      have hn : min (fuel + 1) (yMax + 1 - y).toNat
          = min fuel (yMax + 1 - (y + 1)).toNat + 1 := by omega
      rw [hn, List.range_succ_eq_map, List.flatMap_cons, List.flatMap_map]
      simp only [Nat.cast_zero, zero_mul, add_zero, truncToInt_intCast, Nat.succ_eq_add_one,
        Nat.cast_add, Nat.cast_one]
      refine Prod.ext ?_ (Prod.ext ?_ (Prod.ext ?_ ?_))
      · simp only
        congr 1
        apply List.flatMap_congr
        intro k _
        have e1 : xS + dS + (k : ℚ) * dS = xS + ((k : ℚ) + 1) * dS := by ring
        have e2 : xE + dE + (k : ℚ) * dE = xE + ((k : ℚ) + 1) * dE := by ring
        have e3 : y + 1 + (k : Int) = y + ((k : Int) + 1) := by ring
        rw [e1, e2, e3]
      · simp only; ring
      · simp only; push_cast; ring
      · simp only; ring
    · have hle' : ¬ y ≤ yMax := by
        intro h
        exact hle (by exact_mod_cast h)
      rw [if_neg hle]
      have hn : min (fuel + 1) (yMax + 1 - y).toNat = 0 := by omega
      rw [hn]
      simp

/-- The rows of the triangle fill when the slope of the edge from the first
    to the second vertex is the greater one.  The rows `y1 + k` up to `y2`
    are drawn between the positions of the edges from the first vertex in
    that row.  The row `y2 + 1 + j` is drawn between the position of the
    edge from the first to the third vertex in that row and
    `x2 + j * dx3`, the position of the edge from the second to the third
    vertex in the row `y2 + j`. -/
theorem triangleFillPoints_of_gt (x1 y1 x2 y2 x3 y3 : Int) (h12 : y1 ≤ y2) (h23 : y2 ≤ y3)
    (h : edgeSlope x1 y1 x2 y2 > edgeSlope x1 y1 x3 y3) :
    triangleFillPoints x1 y1 x2 y2 x3 y3 =
      ((List.range (y2 + 1 - y1).toNat).flatMap fun (k : Nat) =>
        DrawLinePoints (truncToInt (x1 + k * edgeSlope x1 y1 x3 y3)) (y1 + k)
          (truncToInt (x1 + k * edgeSlope x1 y1 x2 y2)) (y1 + k) 1) ++
      ((List.range (y3 - y2).toNat).flatMap fun (j : Nat) =>
        DrawLinePoints
          (truncToInt (x1 + ((y2 + 1 + j - y1 : Int) : ℚ) * edgeSlope x1 y1 x3 y3))
          (y2 + 1 + j)
          (truncToInt (x2 + j * edgeSlope x2 y2 x3 y3)) (y2 + 1 + j) 1) := by
  unfold triangleFillPoints
  simp only [if_pos h]
  rw [triangleSweep_eq]
  simp only
  have hn1 : min (y3 - y1 + 2).toNat (y2 + 1 - y1).toNat = (y2 + 1 - y1).toNat := by omega
  rw [hn1, triangleSweep_eq]
  simp only
  have hn2 : min (y3 - y1 + 2).toNat (y3 + 1 - (y1 + ((y2 + 1 - y1).toNat : Int))).toNat
      = (y3 - y2).toNat := by omega
  rw [hn2]
  congr 1
  apply List.flatMap_congr
  intro j _
  have hc : (((y2 + 1 - y1).toNat : Nat) : Int) = y2 + 1 - y1 := Int.toNat_of_nonneg (by omega)
  have hcq : (((y2 + 1 - y1).toNat : Nat) : ℚ) = ((y2 + 1 - y1 : Int) : ℚ) := by
    rw [← hc]; push_cast; rfl
  have e1 : (x1 : ℚ) + (((y2 + 1 - y1).toNat : Nat) : ℚ) * edgeSlope x1 y1 x3 y3
        + (j : ℚ) * edgeSlope x1 y1 x3 y3
      = x1 + ((y2 + 1 + j - y1 : Int) : ℚ) * edgeSlope x1 y1 x3 y3 := by
    rw [hcq]; push_cast; ring
  have e2 : y1 + (((y2 + 1 - y1).toNat : Nat) : Int) + (j : Int) = y2 + 1 + j := by
    rw [hc]; ring
  rw [e1, e2]

/-- The rows of the triangle fill in the other case.  The rows `y1 + k` up
    to `y2` are drawn between the positions of the edges from the first
    vertex in that row.  Then the row `y2 + j` is drawn, from `y2` on again,
    between the position of the edge from the second to the third vertex in
    that row and the position of the edge from the first to the third vertex
    in the row `y2 + 1 + j`. -/
theorem triangleFillPoints_of_not_gt (x1 y1 x2 y2 x3 y3 : Int) (h12 : y1 ≤ y2)
    (h23 : y2 ≤ y3) (h : ¬ edgeSlope x1 y1 x2 y2 > edgeSlope x1 y1 x3 y3) :
    triangleFillPoints x1 y1 x2 y2 x3 y3 =
      ((List.range (y2 + 1 - y1).toNat).flatMap fun (k : Nat) =>
        DrawLinePoints (truncToInt (x1 + k * edgeSlope x1 y1 x2 y2)) (y1 + k)
          (truncToInt (x1 + k * edgeSlope x1 y1 x3 y3)) (y1 + k) 1) ++
      ((List.range (y3 + 1 - y2).toNat).flatMap fun (j : Nat) =>
        DrawLinePoints (truncToInt (x2 + j * edgeSlope x2 y2 x3 y3)) (y2 + j)
          (truncToInt (x1 + ((y2 + 1 + j - y1 : Int) : ℚ) * edgeSlope x1 y1 x3 y3))
          (y2 + j) 1) := by
  unfold triangleFillPoints
  simp only [if_neg h]
  rw [triangleSweep_eq]
  simp only
  have hn1 : min (y3 - y1 + 2).toNat (y2 + 1 - y1).toNat = (y2 + 1 - y1).toNat := by omega
  rw [hn1, triangleSweep_eq]
  simp only
  have hn2 : min (y3 - y1 + 2).toNat (y3 + 1 - y2).toNat = (y3 + 1 - y2).toNat := by omega
  rw [hn2]
  congr 1
  apply List.flatMap_congr
  intro j _
  have hc : (((y2 + 1 - y1).toNat : Nat) : Int) = y2 + 1 - y1 := Int.toNat_of_nonneg (by omega)
  have hcq : (((y2 + 1 - y1).toNat : Nat) : ℚ) = ((y2 + 1 - y1 : Int) : ℚ) := by
    rw [← hc]; push_cast; rfl
  have e1 : (x1 : ℚ) + (((y2 + 1 - y1).toNat : Nat) : ℚ) * edgeSlope x1 y1 x3 y3
        + (j : ℚ) * edgeSlope x1 y1 x3 y3
      = x1 + ((y2 + 1 + j - y1 : Int) : ℚ) * edgeSlope x1 y1 x3 y3 := by
    rw [hcq]; push_cast; ring
  rw [e1]

/-! ## The glyph loops for a positive pitch -/

/-- The loop over the bits of a byte, from bit `dBit` on with `k` bits left
    and `nXcount` pixels left in the row: it visits `min k nXcount` bits. -/
theorem glyphBitLoop_eq (x y dX dY : Int) (nMapByte k dBit nMask nXcount : Nat) :
    glyphBitLoop x y dX dY nMapByte k dBit nMask nXcount =
      ((List.range (min k nXcount)).flatMap fun (i : Nat) =>
          if nMapByte &&& (nMask >>> i) ≠ 0 then [(x + dX * 8 + ((dBit + i : Nat) : Int), y + dY)]
          else [],
        nXcount - min k nXcount) := by
  induction k generalizing dBit nMask nXcount with
  | zero => simp [glyphBitLoop]
  | succ k ih =>
    rw [glyphBitLoop]
    by_cases hc : nXcount = 0
    · subst hc
      simp
    · rw [if_neg hc, ih]
      have hn : min (k + 1) nXcount = min k (nXcount - 1) + 1 := by omega
      rw [hn, List.range_succ_eq_map, List.flatMap_cons, List.flatMap_map]
      refine Prod.ext ?_ ?_
      · simp only [Nat.shiftRight_zero, Nat.add_zero, Nat.succ_eq_add_one]
        congr 1
        apply List.flatMap_congr
        intro i _
        have e1 : nMask >>> 1 >>> i = nMask >>> (i + 1) := by
          rw [← Nat.shiftRight_add, Nat.add_comm]
        have e2 : dBit + 1 + i = dBit + (i + 1) := by omega
        rw [e1, e2]
      · simp only
        omega

theorem mem_glyphBitLoop (x y dX dY : Int) (nMapByte nXcount : Nat) (p : Int × Int) :
    p ∈ (glyphBitLoop x y dX dY nMapByte 8 0 0x80 nXcount).1 ↔
      ∃ i : Nat, i < 8 ∧ i < nXcount ∧ nMapByte &&& (0x80 >>> i) ≠ 0 ∧
        p = (x + dX * 8 + (i : Int), y + dY) := by
  rw [glyphBitLoop_eq]
  simp only [List.mem_flatMap, List.mem_range, Nat.zero_add]
  constructor
  · rintro ⟨i, hi, hp⟩
    by_cases hb : nMapByte &&& (0x80 >>> i) ≠ 0
    · rw [if_pos hb] at hp
      exact ⟨i, by omega, by omega, hb, List.mem_singleton.1 hp⟩
    · rw [if_neg hb] at hp
      cases hp
  · rintro ⟨i, h8, hc, hb, rfl⟩
    refine ⟨i, by omega, ?_⟩
    rw [if_pos hb]
    exact List.mem_singleton.2 rfl

/-- The pixels of one row of a glyph, from the byte `d` on with `nXcount`
    pixels left: the set bits among the next `nXcount` pixels, as far as the
    bytes of the row go. -/
theorem mem_glyphRowLoop (bitmap : FT_Bitmap) (x y : Int) (row : Nat)
    (fuel d nXcount : Nat) (p : Int × Int) :
    p ∈ glyphRowLoop bitmap x y row fuel d nXcount ↔
      ∃ i : Nat, i < nXcount ∧ i < 8 * fuel ∧ ((d * 8 + i : Nat) : Int) < 8 * bitmap.pitch ∧
        glyphBit bitmap row (d * 8 + i) = true ∧
        p = (x + ((d * 8 + i : Nat) : Int), y + row) := by
  induction fuel generalizing d nXcount with
  | zero =>
    simp [glyphRowLoop]
  | succ fuel ih =>
    rw [glyphRowLoop]
    by_cases hcond : ((d : Nat) : Int) < bitmap.pitch ∧ nXcount ≠ 0
    · rw [if_pos hcond]
      simp only [List.mem_append]
      have hnext : ((d : Int) + 1) = ((d + 1 : Nat) : Int) := by push_cast; rfl
      rw [hnext, ih, mem_glyphBitLoop, glyphBitLoop_eq]
      simp only
      have hidx : ((row : Int) * |bitmap.pitch| + (d : Int)).toNat
          = row * bitmap.pitch.natAbs + d := by
        rw [Int.abs_eq_natAbs]
        have : ((row : Int) * (bitmap.pitch.natAbs : Int) + (d : Int))
            = ((row * bitmap.pitch.natAbs + d : Nat) : Int) := by push_cast; rfl
        rw [this, Int.toNat_ofNat]
      rw [hidx]
      constructor
      · rintro (⟨i, h8, hc, hb, rfl⟩ | ⟨i, hc, hf, hpitch, hb, rfl⟩)
        · refine ⟨i, hc, by omega, by omega, ?_, ?_⟩
          · unfold glyphBit
            have e1 : (d * 8 + i) / 8 = d := by omega
            have e2 : (d * 8 + i) % 8 = i := by omega
            rw [e1, e2]
            exact decide_eq_true hb
          · push_cast
            rw [add_assoc]
        · refine ⟨8 + i, by omega, by omega, ?_, ?_, ?_⟩
          · have : d * 8 + (8 + i) = (d + 1) * 8 + i := by ring
            rw [this]
            exact hpitch
          · have : d * 8 + (8 + i) = (d + 1) * 8 + i := by ring
            rw [this]
            exact hb
          · have : d * 8 + (8 + i) = (d + 1) * 8 + i := by ring
            rw [this]
      · rintro ⟨i, hc, hf, hpitch, hb, rfl⟩
        by_cases h8 : i < 8
        · left
          refine ⟨i, h8, hc, ?_, ?_⟩
          · unfold glyphBit at hb
            have e1 : (d * 8 + i) / 8 = d := by omega
            have e2 : (d * 8 + i) % 8 = i := by omega
            rw [e1, e2] at hb
            exact of_decide_eq_true hb
          · push_cast
            rw [add_assoc]
        · right
          have e : d * 8 + i = (d + 1) * 8 + (i - 8) := by omega
          refine ⟨i - 8, by omega, by omega, ?_, ?_, ?_⟩
          · rw [← e]; exact hpitch
          · rw [← e]; exact hb
          · rw [← e]
    · rw [if_neg hcond]
      simp only [List.not_mem_nil, false_iff]
      rintro ⟨i, hc, hf, hpitch, hb, rfl⟩
      apply hcond
      refine ⟨by omega, by omega⟩

theorem mem_glyphLoop (bitmap : FT_Bitmap) (x y : Int)
    (fuel r0 : Nat) (p : Int × Int) :
    p ∈ glyphLoop bitmap x y bitmap.rows 1 fuel r0 ↔
      ∃ row : Nat, r0 ≤ row ∧ row < r0 + fuel ∧ row < bitmap.rows ∧
        p ∈ glyphRowLoop bitmap x y row bitmap.pitch.toNat 0 bitmap.width := by
  induction fuel generalizing r0 with
  | zero =>
    simp only [glyphLoop, List.not_mem_nil, false_iff]
    rintro ⟨row, h1, h2, _, _⟩
    omega
  | succ fuel ih =>
    rw [glyphLoop]
    by_cases hlt : ((r0 : Nat) : Int) < (bitmap.rows : Int)
    · rw [if_pos hlt]
      have hnext : ((r0 : Int) + 1) = ((r0 + 1 : Nat) : Int) := by push_cast; rfl
      rw [List.mem_append, hnext, ih]
      constructor
      · rintro (h | ⟨row, h1, h2, h3, h4⟩)
        · exact ⟨r0, le_refl _, by omega, by omega, h⟩
        · exact ⟨row, by omega, by omega, h3, h4⟩
      · rintro ⟨row, h1, h2, h3, h4⟩
        by_cases he : row = r0
        · subst he
          exact Or.inl h4
        · exact Or.inr ⟨row, by omega, by omega, h3, h4⟩
    · rw [if_neg hlt]
      simp only [List.not_mem_nil, false_iff]
      rintro ⟨row, h1, h2, h3, h4⟩
      omega

/-- For a pitch that is not negative `drawBitmap` plots exactly the set bits
    of the bitmap: the pixel `(x + col, y + row)` for every row and column of
    the bitmap, within the bytes of a row, whose bit is set. -/
theorem mem_drawBitmapPoints_of_nonneg (bitmap : FT_Bitmap) (x y : Int)
    (hp0 : 0 ≤ bitmap.pitch) (p : Int × Int) :
    p ∈ drawBitmapPoints bitmap x y ↔
      ∃ row col : Nat, row < bitmap.rows ∧ col < bitmap.width ∧
        (col : Int) < 8 * bitmap.pitch ∧ glyphBit bitmap row col = true ∧
        p = (x + col, y + row) := by
  unfold drawBitmapPoints
  have hneg : ¬ bitmap.pitch < 0 := by omega
  simp only [if_neg hneg]
  have h0 : (0 : Int) = ((0 : Nat) : Int) := rfl
  rw [h0, mem_glyphLoop bitmap x y]
  constructor
  · rintro ⟨row, _, _, hrow, hp⟩
    have := (mem_glyphRowLoop bitmap x y row _ 0 _ p).1 (by simpa using hp)
    obtain ⟨i, hc, _, hpitch, hb, rfl⟩ := this
    simp only [Nat.zero_mul, Nat.zero_add] at hpitch hb ⊢
    exact ⟨row, i, hrow, hc, hpitch, hb, rfl⟩
  · rintro ⟨row, col, hrow, hc, hpitch, hb, rfl⟩
    refine ⟨row, Nat.zero_le _, by omega, hrow, ?_⟩
    have := (mem_glyphRowLoop bitmap x y row bitmap.pitch.toNat 0 bitmap.width
      (x + col, y + row)).2
    apply this
    refine ⟨col, hc, by omega, ?_, ?_, ?_⟩
    · simpa using hpitch
    · simpa using hb
    · simp

/-! ## Symmetry of lines and the vertices of a triangle -/

/-- The points of `drawLine` do not depend on the order of the two ends. -/
theorem drawLinePoints_comm (x1 y1 x2 y2 : Int) :
    drawLinePoints x1 y1 x2 y2 = drawLinePoints x2 y2 x1 y1 := by
  by_cases hs : |y2 - y1| > |x2 - x1|
  · have hs2 : |y1 - y2| > |x1 - x2| := by rw [abs_sub_comm y1, abs_sub_comm x1]; exact hs
    rw [drawLinePoints_of_steep _ _ _ _ hs, drawLinePoints_of_steep _ _ _ _ hs2]
    have hne : y1 ≠ y2 := by
      rintro rfl
      rw [sub_self, abs_zero] at hs
      exact absurd hs (not_lt.2 (abs_nonneg _))
    by_cases hgt : y1 > y2
    · rw [if_pos hgt, if_neg (by omega : ¬ y2 > y1)]
    · rw [if_neg hgt, if_pos (by omega : y2 > y1)]
  · have hs2 : ¬ |y1 - y2| > |x1 - x2| := by rw [abs_sub_comm y1, abs_sub_comm x1]; exact hs
    rw [drawLinePoints_of_not_steep _ _ _ _ hs, drawLinePoints_of_not_steep _ _ _ _ hs2]
    by_cases hgt : x1 > x2
    · rw [if_pos hgt, if_neg (by omega : ¬ x2 > x1)]
    · by_cases hlt : x2 > x1
      · rw [if_neg hgt, if_pos hlt]
      · have hx : x1 = x2 := by omega
        subst hx
        have hy : y1 = y2 := by
          rw [sub_self, abs_zero] at hs
          have := abs_nonneg (y2 - y1)
          have h0 : |y2 - y1| = 0 := by omega
          have := abs_eq_zero.1 h0
          omega
        subst hy
        rfl

/-- The points of `DrawLine` do not depend on the order of the two ends. -/
theorem DrawLinePoints_comm (x1 y1 x2 y2 : Int) (weight : Nat) :
    DrawLinePoints x1 y1 x2 y2 weight = DrawLinePoints x2 y2 x1 y1 weight := by
  unfold DrawLinePoints
  have hc : (x2 = x1) = (x1 = x2) := propext ⟨Eq.symm, Eq.symm⟩
  simp only [hc]
  apply List.flatMap_congr
  intro n _
  exact drawLinePoints_comm _ _ _ _

/-- The loop of `drawQuadrant` ends by its own condition when the bound on
    its passes is at least `y - x`: more passes change nothing. -/
theorem quadrantLoop_fuel (x0 y0 : Int) (bQ1 bQ2 bQ3 bQ4 : Bool) (extra fuel : Nat)
    (f ddF_x ddF_y x y : Int) (h : (y - x).toNat ≤ fuel) :
    quadrantLoop x0 y0 bQ1 bQ2 bQ3 bQ4 (fuel + extra) f ddF_x ddF_y x y =
      quadrantLoop x0 y0 bQ1 bQ2 bQ3 bQ4 fuel f ddF_x ddF_y x y := by
  induction fuel generalizing f ddF_x ddF_y x y with
  | zero =>
    have hxy : ¬ x < y := by omega
    cases extra with
    | zero => rfl
    | succ e =>
      rw [show 0 + (e + 1) = e + 1 from by omega]
      simp [quadrantLoop, hxy]
  | succ fuel ih =>
    rw [show fuel + 1 + extra = (fuel + extra) + 1 from by omega, quadrantLoop, quadrantLoop]
    by_cases hxy : x < y
    · rw [if_pos hxy, if_pos hxy]
      simp only []
      rw [ih]
      split_ifs <;> omega
    · rw [if_neg hxy, if_neg hxy]

/-- Every point of the loop of `drawQuadrant` is one of the eight images of
    an offset `(x, y)` that the loop reaches, and for a loop that starts with
    `0 ≤ x` and `y ≤ n` these offsets have `1 ≤ x ≤ n` and `0 ≤ y ≤ n`. -/
theorem quadrantLoop_offsets (x0 y0 : Int) (bQ1 bQ2 bQ3 bQ4 : Bool) (n : Int) (fuel : Nat)
    (f ddF_x ddF_y x y : Int) (hx : 0 ≤ x) (hy : y ≤ n) (p : Int × Int)
    (hp : p ∈ quadrantLoop x0 y0 bQ1 bQ2 bQ3 bQ4 fuel f ddF_x ddF_y x y) :
    ∃ a b : Int, p ∈ quadrantArcPoints x0 y0 a b bQ1 bQ2 bQ3 bQ4 ∧
      1 ≤ a ∧ a ≤ n ∧ 0 ≤ b ∧ b ≤ n := by
  induction fuel generalizing f ddF_x ddF_y x y with
  | zero => cases hp
  | succ fuel ih =>
    rw [quadrantLoop] at hp
    by_cases hxy : x < y
    · rw [if_pos hxy] at hp
      simp only [] at hp
      rcases List.mem_append.1 hp with h | h
      · exact ⟨_, _, h, by omega, by omega, by split_ifs <;> omega, by split_ifs <;> omega⟩
      · exact ih _ _ _ _ _ (by omega) (by split_ifs <;> omega) h
    · rw [if_neg hxy] at hp
      cases hp

/-- The images of an offset with `0 ≤ x` and `0 ≤ y` lie in the closed
    quadrants whose flags are set. -/
theorem quadrantArcPoints_in_quadrants (x0 y0 x y : Int) (bQ1 bQ2 bQ3 bQ4 : Bool)
    (hx : 0 ≤ x) (hy : 0 ≤ y) (p : Int × Int)
    (hp : p ∈ quadrantArcPoints x0 y0 x y bQ1 bQ2 bQ3 bQ4) :
    (bQ1 = true ∧ x0 ≤ p.1 ∧ p.2 ≤ y0) ∨ (bQ2 = true ∧ x0 ≤ p.1 ∧ y0 ≤ p.2) ∨
    (bQ3 = true ∧ p.1 ≤ x0 ∧ y0 ≤ p.2) ∨ (bQ4 = true ∧ p.1 ≤ x0 ∧ p.2 ≤ y0) := by
  unfold quadrantArcPoints at hp
  simp only [List.mem_append] at hp
  rcases hp with ((h | h) | h) | h
  · by_cases hb : bQ1 = true
    · rw [if_pos hb] at h
      simp only [List.mem_cons, List.mem_singleton, List.not_mem_nil, or_false] at h
      rcases h with rfl | rfl <;> exact Or.inl ⟨hb, by simp; omega, by simp; omega⟩
    · rw [if_neg hb] at h
      cases h
  · by_cases hb : bQ2 = true
    · rw [if_pos hb] at h
      simp only [List.mem_cons, List.mem_singleton, List.not_mem_nil, or_false] at h
      rcases h with rfl | rfl <;> exact Or.inr (Or.inl ⟨hb, by simp; omega, by simp; omega⟩)
    · rw [if_neg hb] at h
      cases h
  · by_cases hb : bQ3 = true
    · rw [if_pos hb] at h
      simp only [List.mem_cons, List.mem_singleton, List.not_mem_nil, or_false] at h
      rcases h with rfl | rfl <;>
        exact Or.inr (Or.inr (Or.inl ⟨hb, by simp; omega, by simp; omega⟩))
    · rw [if_neg hb] at h
      cases h
  · by_cases hb : bQ4 = true
    · rw [if_pos hb] at h
      simp only [List.mem_cons, List.mem_singleton, List.not_mem_nil, or_false] at h
      rcases h with rfl | rfl <;>
        exact Or.inr (Or.inr (Or.inr ⟨hb, by simp; omega, by simp; omega⟩))
    · rw [if_neg hb] at h
      cases h

/-- The end points of the axes lie in the closed quadrants whose flags are
    set. -/
theorem quadrantAxisPoints_in_quadrants (x0 y0 : Int) (nRadius : Nat)
    (bQ1 bQ2 bQ3 bQ4 : Bool) (p : Int × Int)
    (hp : p ∈ quadrantAxisPoints x0 y0 nRadius bQ1 bQ2 bQ3 bQ4) :
    (bQ1 = true ∧ x0 ≤ p.1 ∧ p.2 ≤ y0) ∨ (bQ2 = true ∧ x0 ≤ p.1 ∧ y0 ≤ p.2) ∨
    (bQ3 = true ∧ p.1 ≤ x0 ∧ y0 ≤ p.2) ∨ (bQ4 = true ∧ p.1 ≤ x0 ∧ p.2 ≤ y0) := by
  unfold quadrantAxisPoints at hp
  simp only [List.mem_append] at hp
  rcases hp with ((h | h) | h) | h
  · by_cases hb : bQ1 = true
    · rw [if_pos hb] at h
      simp only [List.mem_cons, List.mem_singleton, List.not_mem_nil, or_false] at h
      rcases h with rfl | rfl <;> exact Or.inl ⟨hb, by simp, by simp⟩
    · rw [if_neg hb] at h
      cases h
  · by_cases hb : bQ2 = true
    · rw [if_pos hb] at h
      simp only [List.mem_cons, List.mem_singleton, List.not_mem_nil, or_false] at h
      rcases h with rfl | rfl <;> exact Or.inr (Or.inl ⟨hb, by simp, by simp⟩)
    · rw [if_neg hb] at h
      cases h
  · by_cases hb : bQ3 = true
    · rw [if_pos hb] at h
      simp only [List.mem_cons, List.mem_singleton, List.not_mem_nil, or_false] at h
      rcases h with rfl | rfl <;> exact Or.inr (Or.inr (Or.inl ⟨hb, by simp, by simp⟩))
    · rw [if_neg hb] at h
      cases h
  · by_cases hb : bQ4 = true
    · rw [if_pos hb] at h
      simp only [List.mem_cons, List.mem_singleton, List.not_mem_nil, or_false] at h
      rcases h with rfl | rfl <;> exact Or.inr (Or.inr (Or.inr ⟨hb, by simp, by simp⟩))
    · rw [if_neg hb] at h
      cases h

/-- The value of `nRadius` as an `int` is at most `nRadius`. -/
theorem toI32_natCast_le (n : Nat) : toI32 (n : Int) ≤ (n : Int) := by
  unfold toI32
  omega

/-- The images of an offset `(x, y)` are `x` and `y` away from the centre,
    one along each axis. -/
theorem quadrantArcPoints_offset (x0 y0 x y : Int) (bQ1 bQ2 bQ3 bQ4 : Bool) (p : Int × Int)
    (hp : p ∈ quadrantArcPoints x0 y0 x y bQ1 bQ2 bQ3 bQ4) :
    ((p.1 - x0 = x ∨ p.1 - x0 = -x) ∧ (p.2 - y0 = y ∨ p.2 - y0 = -y)) ∨
    ((p.1 - x0 = y ∨ p.1 - x0 = -y) ∧ (p.2 - y0 = x ∨ p.2 - y0 = -x)) := by
  unfold quadrantArcPoints at hp
  simp only [List.mem_append] at hp
  rcases hp with ((h | h) | h) | h <;> split_ifs at h <;>
    simp only [List.mem_cons, List.mem_singleton, List.not_mem_nil, or_false] at h <;>
    rcases h with rfl | rfl <;> simp

/-- The values of `nRadius` in `drawQuadrant` are between 1 and `radius`. -/
theorem mem_quadrantRadii_bounds (radius border nRadius : Nat)
    (h : nRadius ∈ quadrantRadii radius border) : 1 ≤ nRadius ∧ nRadius ≤ radius := by
  unfold quadrantRadii at h
  obtain ⟨i, hi, rfl⟩ := List.mem_map.1 h
  have := List.mem_range.1 hi
  omega

/-- Every point of `drawQuadrant` lies in a closed quadrant whose flag is
    set, and not further than `radius` from the centre along each axis. -/
theorem drawQuadrantPoints_in_quadrants (x0 y0 : Int) (radius border quadrant : Nat)
    (p : Int × Int) (hp : p ∈ drawQuadrantPoints x0 y0 radius border quadrant) :
    ((quadrant &&& QUADRANT_TOP_RIGHT = QUADRANT_TOP_RIGHT ∧ x0 ≤ p.1 ∧ p.2 ≤ y0) ∨
     (quadrant &&& QUADRANT_BOTTOM_RIGHT = QUADRANT_BOTTOM_RIGHT ∧ x0 ≤ p.1 ∧ y0 ≤ p.2) ∨
     (quadrant &&& QUADRANT_BOTTOM_LEFT = QUADRANT_BOTTOM_LEFT ∧ p.1 ≤ x0 ∧ y0 ≤ p.2) ∨
     (quadrant &&& QUADRANT_TOP_LEFT = QUADRANT_TOP_LEFT ∧ p.1 ≤ x0 ∧ p.2 ≤ y0)) ∧
    x0 - radius ≤ p.1 ∧ p.1 ≤ x0 + radius ∧ y0 - radius ≤ p.2 ∧ p.2 ≤ y0 + radius := by
  unfold drawQuadrantPoints at hp
  simp only [List.mem_flatMap] at hp
  obtain ⟨nRadius, hn, hp⟩ := hp
  obtain ⟨hn1, hn2⟩ := mem_quadrantRadii_bounds _ _ _ hn
  rcases List.mem_append.1 hp with h | h
  · refine ⟨?_, ?_⟩
    · simpa only [decide_eq_true_eq] using quadrantAxisPoints_in_quadrants _ _ _ _ _ _ _ p h
    · unfold quadrantAxisPoints at h
      simp only [List.mem_append] at h
      rcases h with ((h | h) | h) | h <;> split_ifs at h <;>
        simp only [List.mem_cons, List.mem_singleton, List.not_mem_nil, or_false] at h <;>
        rcases h with rfl | rfl <;> simp <;> omega
  · obtain ⟨a, b, hab, ha1, ha2, hb1, hb2⟩ :=
      quadrantLoop_offsets _ _ _ _ _ _ (nRadius : Int) _ _ _ _ _ _ (le_refl 0)
        (toI32_natCast_le nRadius) p h
    refine ⟨?_, ?_⟩
    · simpa only [decide_eq_true_eq] using
        quadrantArcPoints_in_quadrants _ _ _ _ _ _ _ _ (by omega) hb1 p hab
    · have := quadrantArcPoints_offset _ _ _ _ _ _ _ _ p hab
      omega

/-- The midpoint loop of `drawQuadrant` for the radius `n`.  While
    `f = (x + 1)² + y² - y - n²`, `ddF_x = 2 x`, `ddF_y = -2 y` and
    `n² - n < x² + y² ≤ n² + n` hold at the start of a pass, they hold at the
    start of the next one, so every offset `(a, b)` the loop reaches
    has `n² - n < a² + b² ≤ n² + n`, with `1 ≤ a ≤ n` and `0 ≤ b ≤ n`. -/
theorem quadrantLoop_ring (x0 y0 : Int) (bQ1 bQ2 bQ3 bQ4 : Bool) (n : Int) (fuel : Nat)
    (f ddF_x ddF_y x y : Int) (hx : 0 ≤ x) (hy : y ≤ n)
    (hf : f = x ^ 2 + 2 * x + 1 + y ^ 2 - y - n ^ 2) (hdx : ddF_x = 2 * x)
    (hdy : ddF_y = -2 * y) (hlo : n ^ 2 - n + 1 ≤ x ^ 2 + y ^ 2)
    (hhi : x ^ 2 + y ^ 2 ≤ n ^ 2 + n) (p : Int × Int)
    (hp : p ∈ quadrantLoop x0 y0 bQ1 bQ2 bQ3 bQ4 fuel f ddF_x ddF_y x y) :
    ∃ a b : Int, p ∈ quadrantArcPoints x0 y0 a b bQ1 bQ2 bQ3 bQ4 ∧
      1 ≤ a ∧ a ≤ n ∧ 0 ≤ b ∧ b ≤ n ∧
      n ^ 2 - n + 1 ≤ a ^ 2 + b ^ 2 ∧ a ^ 2 + b ^ 2 ≤ n ^ 2 + n := by
  induction fuel generalizing f ddF_x ddF_y x y with
  | zero => cases hp
  | succ fuel ih =>
    rw [quadrantLoop] at hp
    by_cases hxy : x < y
    · rw [if_pos hxy] at hp
      simp only [] at hp
      subst hdx hdy
      by_cases hf0 : f ≥ 0
      · simp only [if_pos hf0] at hp
        have h1 : n ^ 2 - n + 1 ≤ (x + 1) ^ 2 + (y - 1) ^ 2 := by
          have e : (x + 1) ^ 2 + (y - 1) ^ 2 = x ^ 2 + 2 * x + 1 + y ^ 2 - 2 * y + 1 := by ring
          rw [e]
          omega
        have h2 : (x + 1) ^ 2 + (y - 1) ^ 2 ≤ n ^ 2 + n := by
          have e : (x + 1) ^ 2 + (y - 1) ^ 2 = x ^ 2 + 2 * x + 1 + y ^ 2 - 2 * y + 1 := by ring
          rw [e]
          omega
        rcases List.mem_append.1 hp with h | h
        · exact ⟨_, _, h, by omega, by omega, by omega, by omega, h1, h2⟩
        · refine ih _ _ _ _ _ (by omega) (by omega) ?_ (by ring) (by ring) h1 h2 h
          rw [hf]
          ring
      · simp only [if_neg hf0] at hp
        have h1 : n ^ 2 - n + 1 ≤ (x + 1) ^ 2 + y ^ 2 := by
          have e : (x + 1) ^ 2 + y ^ 2 = x ^ 2 + 2 * x + 1 + y ^ 2 := by ring
          rw [e]
          omega
        have h2 : (x + 1) ^ 2 + y ^ 2 ≤ n ^ 2 + n := by
          have e : (x + 1) ^ 2 + y ^ 2 = x ^ 2 + 2 * x + 1 + y ^ 2 := by ring
          rw [e]
          omega
        rcases List.mem_append.1 hp with h | h
        · exact ⟨_, _, h, by omega, by omega, by omega, by omega, h1, h2⟩
        · refine ih _ _ _ _ _ (by omega) hy ?_ (by ring) rfl h1 h2 h
          rw [hf]
          ring
    · rw [if_neg hxy] at hp
      cases hp

/-- The images of an offset `(x, y)` are as far from the centre as `(x, y)`
    is from the origin. -/
theorem quadrantArcPoints_dist (x0 y0 x y : Int) (bQ1 bQ2 bQ3 bQ4 : Bool) (p : Int × Int)
    (hp : p ∈ quadrantArcPoints x0 y0 x y bQ1 bQ2 bQ3 bQ4) :
    (p.1 - x0) ^ 2 + (p.2 - y0) ^ 2 = x ^ 2 + y ^ 2 := by
  rcases quadrantArcPoints_offset _ _ _ _ _ _ _ _ p hp with ⟨h1 | h1, h2 | h2⟩ | ⟨h1 | h1, h2 | h2⟩ <;>
    rw [h1, h2] <;> ring

/-! ## The fill loop of `DrawCircle` -/

/-- Passes of the loop of `drawQuadrant` in which `f` is negative leave `y`
    as it is: if `f` stays negative and `x` below `y` for `k` passes, the
    loop goes on from `x + k` with `f + k * ddF_x + k² + 2 k` and
    `ddF_x + 2 k`, so what it plots from there is plotted by the loop. -/
theorem quadrantLoop_skip (x0 y0 : Int) (bQ1 bQ2 bQ3 bQ4 : Bool) (k : Nat) :
    ∀ (fuel : Nat) (f ddF_x ddF_y x y : Int) (p : Int × Int),
      (∀ j : Nat, j < k → f + (j : Int) * ddF_x + (j : Int) ^ 2 + 2 * (j : Int) < 0 ∧
        x + (j : Int) < y) →
      p ∈ quadrantLoop x0 y0 bQ1 bQ2 bQ3 bQ4 fuel
        (f + (k : Int) * ddF_x + (k : Int) ^ 2 + 2 * (k : Int)) (ddF_x + 2 * (k : Int)) ddF_y
        (x + (k : Int)) y →
      p ∈ quadrantLoop x0 y0 bQ1 bQ2 bQ3 bQ4 (fuel + k) f ddF_x ddF_y x y := by
  induction k with
  | zero =>
    intro fuel f ddF_x ddF_y x y p _ hp
    simpa using hp
  | succ k ih =>
    intro fuel f ddF_x ddF_y x y p h hp
    obtain ⟨hf, hxy⟩ := h 0 (by omega)
    simp only [Nat.cast_zero, zero_mul, add_zero, ne_eq, OfNat.ofNat_ne_zero, not_false_eq_true,
      zero_pow, mul_zero] at hf hxy
    rw [show fuel + (k + 1) = (fuel + k) + 1 from by omega, quadrantLoop, if_pos hxy]
    simp only [if_neg (not_le.2 hf)]
    apply List.mem_append_right
    apply ih fuel _ _ _ _ _ p
    · intro j hj
      obtain ⟨h1, h2⟩ := h (j + 1) (by omega)
      push_cast at h1 h2
      constructor
      · have e : f + (ddF_x + 2 + 1) + (j : Int) * (ddF_x + 2) + (j : Int) ^ 2 + 2 * (j : Int)
            = f + ((j : Int) + 1) * ddF_x + ((j : Int) + 1) ^ 2 + 2 * ((j : Int) + 1) := by ring
        rw [e]
        exact h1
      · omega
    · have e1 : f + (ddF_x + 2 + 1) + (k : Int) * (ddF_x + 2) + (k : Int) ^ 2 + 2 * (k : Int)
          = f + ((k + 1 : Nat) : Int) * ddF_x + ((k + 1 : Nat) : Int) ^ 2
            + 2 * ((k + 1 : Nat) : Int) := by
        push_cast
        ring
      have e2 : ddF_x + 2 + 2 * (k : Int) = ddF_x + 2 * ((k + 1 : Nat) : Int) := by
        push_cast
        ring
      have e3 : x + 1 + (k : Int) = x + ((k + 1 : Nat) : Int) := by
        push_cast
        ring
      rw [e1, e2, e3]
      exact hp

/-- The ring of radius `2 ^ 31 - 1` with `ddF_y = 2`, the value that
    `-2 * nRadius` has as an `int`: after 46340 passes with negative `f` the
    next two passes lower `y` twice, and the second plots the offset
    `(46342, 2147483645)`. -/
theorem quadrantLoop_wrapped_ring (m : Nat) :
    (46342, 2147483645) ∈ quadrantLoop 0 0 false true false false (m + 1 + 1 + 46340)
      (-2147483646) 0 2 0 2147483647 := by
  apply quadrantLoop_skip
  · intro j hj
    have hj1 : (j : Int) ≤ 46339 := by omega
    have hj0 : (0 : Int) ≤ (j : Int) := by omega
    have hsq : (j : Int) ^ 2 ≤ 46339 ^ 2 := pow_le_pow_left₀ hj0 hj1 2
    norm_num at hsq
    constructor
    · omega
    · omega
  · norm_num [quadrantLoop, quadrantArcPoints]

/-! ## The `float` variables of `drawLine` -/

/-- C1. On a surface whose width and height are at most `2 ^ 31`, a call of
    `DrawPixel` at unsigned coordinates with `x ≥ width` or `y ≥ height`
    returns the surface unchanged, and so does a call at signed `int`
    coordinates (converted to `uint32_t`) that are negative or beyond the
    width or height. -/
theorem DrawPixel_outside_unchanged (s : Surface) (c : Nat)
    (hw : s.xres ≤ 2 ^ 31) (hh : s.yres ≤ 2 ^ 31) :
    (∀ x y : Nat, s.xres ≤ x ∨ s.yres ≤ y → s.DrawPixel x y c = s) ∧
    (∀ x y : Int, -2 ^ 31 ≤ x → x < 2 ^ 31 → -2 ^ 31 ≤ y → y < 2 ^ 31 →
      (x < 0 ∨ y < 0 ∨ (s.xres : Int) ≤ x ∨ (s.yres : Int) ≤ y) →
      s.DrawPixelInt x y c = s) := by
  refine ⟨fun x y h => s.DrawPixel_of_out x y c h, ?_⟩
  intro x y hx0 hx1 hy0 hy1 h
  unfold Surface.DrawPixelInt
  apply s.DrawPixel_of_out
  rcases h with h | h | h | h
  · left; have := toU32_of_neg x h hx0; omega
  · right; have := toU32_of_neg y h hy0; omega
  · left
    have := toU32_of_nonneg x (by omega) hx1
    omega
  · right
    have := toU32_of_nonneg y (by omega) hy1
    omega

/-- Witness for C1: on the 20 x 20 example surface the pixel `(20, 3)` and
    the signed pixel `(-1, 5)` are clipped. -/
theorem DrawPixel_outside_unchanged_witness :
    fb565.DrawPixel 20 3 0xFFFFFF = fb565 ∧ fb565.DrawPixelInt (-1) 5 0xFFFFFF = fb565 :=
  ⟨(DrawPixel_outside_unchanged fb565 0xFFFFFF (by decide) (by decide)).1 20 3
      (Or.inl (by decide)),
   (DrawPixel_outside_unchanged fb565 0xFFFFFF (by decide) (by decide)).2 (-1) 5
      (by decide) (by decide) (by decide) (by decide) (Or.inl (by decide))⟩

/-- C2. At a depth of 8, 16, 24 or 32 bits, with a row of at least
    `width * (depth / 8)` bytes and a mapped buffer of `stride * height` bytes
    whose offsets fit 32 bits, every byte offset that `DrawPixel` stores to is
    below `stride * height`, for all `x`, `y` and colours. -/
theorem DrawPixel_writes_inside_mapping (s : Surface) (x y c : Nat)
    (hd : s.bits_per_pixel = 8 ∨ s.bits_per_pixel = 16 ∨ s.bits_per_pixel = 24
      ∨ s.bits_per_pixel = 32)
    (hs : s.xres * (s.bits_per_pixel / 8) ≤ s.line_length)
    (ho : s.line_length * s.yres ≤ 2 ^ 32) :
    ∀ w ∈ s.DrawPixelWrites x y c, w.1 < s.line_length * s.yres := by
  intro w hw
  by_cases hout : s.xres ≤ x ∨ s.yres ≤ y
  · rw [s.DrawPixelWrites_of_out x y c hout] at hw
    cases hw
  · have hx : x < s.xres := by omega
    have hy : y < s.yres := by omega
    have hb := offset_bound x y (s.bits_per_pixel / 8) s.xres s.yres s.line_length hx hy hs
    obtain ⟨h32, h24, h16, h8⟩ := s.DrawPixelWrites_eq_storeLE x y c hx hy
    have hmod : ∀ n, n = s.bits_per_pixel / 8 →
        s.pixelOffset x y n = y * s.line_length + x * n := by
      intro n hn
      unfold Surface.pixelOffset U32
      apply Nat.mod_eq_of_lt
      rw [hn]
      omega
    rcases hd with hd | hd | hd | hd
    · rw [h8 hd] at hw
      obtain ⟨k, hk, rfl⟩ := (mem_storeLE _ _ _ w).1 hw
      have := hmod 1 (by rw [hd])
      rw [hd] at hb
      simp only [this]
      omega
    · rw [h16 hd] at hw
      obtain ⟨k, hk, rfl⟩ := (mem_storeLE _ _ _ w).1 hw
      have := hmod 2 (by rw [hd])
      rw [hd] at hb
      simp only [this]
      omega
    · rw [h24 hd] at hw
      obtain ⟨k, hk, rfl⟩ := (mem_storeLE _ _ _ w).1 hw
      have := hmod 3 (by rw [hd])
      rw [hd] at hb
      simp only [this]
      omega
    · rw [h32 hd] at hw
      obtain ⟨k, hk, rfl⟩ := (mem_storeLE _ _ _ w).1 hw
      have := hmod 4 (by rw [hd])
      rw [hd] at hb
      simp only [this]
      omega

/-- Witness for C2: the store to the high byte of the last pixel of the
    20 x 20 RGB565 example surface is at offset 799, below 800. -/
theorem DrawPixel_writes_inside_mapping_witness :
    fb565.xres * (fb565.bits_per_pixel / 8) ≤ fb565.line_length ∧
    fb565.line_length * fb565.yres ≤ 2 ^ 32 ∧
    (799, 0xFF) ∈ fb565.DrawPixelWrites 19 19 0xFFFFFF ∧
    799 < fb565.line_length * fb565.yres :=
  ⟨by decide, by decide, by decide,
   DrawPixel_writes_inside_mapping fb565 19 19 0xFFFFFF (Or.inr (Or.inl rfl))
    (by decide) (by decide) (799, 0xFF) (by decide)⟩

/-- C3. On a well-formed surface and for a pixel `(x, y)` inside it,
    `DrawPixel(x, y, c)` changes nothing but the `bits_per_pixel / 8` bytes
    from offset `y * line_length + x * (bits_per_pixel / 8)` on.  These hold
    the pixel word, least significant byte first: at 32 bits per pixel the
    raw colour, at 24 the bytes `c & 0xFF`, `(c >> 8) & 0xFF`,
    `(c >> 16) & 0xFF`, at 16 and 8 the result of the mask and shift
    conversion `GetColour(c)` cut to 16 resp. 8 bits. -/
theorem DrawPixel_stores_pixel_word (s : Surface) (x y c : Nat) (hwf : s.WellFormed)
    (hx : x < s.xres) (hy : y < s.yres) :
    (s.DrawPixel x y c).withMem s.mem = s ∧
    (∀ i, (i < y * s.line_length + x * (s.bits_per_pixel / 8) ∨
          y * s.line_length + x * (s.bits_per_pixel / 8) + s.bits_per_pixel / 8 ≤ i) →
        (s.DrawPixel x y c).mem i = s.mem i) ∧
    (s.bits_per_pixel = 32 → ∀ k, k < 4 →
        (s.DrawPixel x y c).mem (y * s.line_length + x * 4 + k) = (c >>> (8 * k)) % 256) ∧
    (s.bits_per_pixel = 24 →
        (s.DrawPixel x y c).mem (y * s.line_length + x * 3) = c &&& 0xFF ∧
        (s.DrawPixel x y c).mem (y * s.line_length + x * 3 + 1) = (c >>> 8) &&& 0xFF ∧
        (s.DrawPixel x y c).mem (y * s.line_length + x * 3 + 2) = (c >>> 16) &&& 0xFF) ∧
    (s.bits_per_pixel = 16 → ∀ k, k < 2 →
        (s.DrawPixel x y c).mem (y * s.line_length + x * 2 + k)
          = ((s.GetColour c % 2 ^ 16) >>> (8 * k)) % 256) ∧
    (s.bits_per_pixel = 8 →
        (s.DrawPixel x y c).mem (y * s.line_length + x) = s.GetColour c % 2 ^ 8) := by
  obtain ⟨h32, h24, h16, h8⟩ := s.DrawPixelWrites_eq_storeLE x y c hx hy
  have hoff := s.pixelOffset_eq hwf x y hx hy
  have hmem : (s.DrawPixel x y c).mem = writeAll s.mem (s.DrawPixelWrites x y c) := rfl
  refine ⟨rfl, ?_, ?_, ?_, ?_, ?_⟩
  · intro i hi
    rw [hmem]
    apply writeAll_of_not_mem
    intro w hw he
    have hin : ¬ (x ≥ s.GetWidth ∨ y ≥ s.GetHeight) := by
      unfold Surface.GetWidth Surface.GetHeight
      omega
    by_cases hd32 : s.bits_per_pixel = 32
    · rw [h32 hd32] at hw
      obtain ⟨k, hk, rfl⟩ := (mem_storeLE _ _ _ w).1 hw
      rw [hd32] at hoff hi
      simp only [hoff] at he
      omega
    by_cases hd24 : s.bits_per_pixel = 24
    · rw [h24 hd24] at hw
      obtain ⟨k, hk, rfl⟩ := (mem_storeLE _ _ _ w).1 hw
      rw [hd24] at hoff hi
      simp only [hoff] at he
      omega
    by_cases hd16 : s.bits_per_pixel = 16
    · rw [h16 hd16] at hw
      obtain ⟨k, hk, rfl⟩ := (mem_storeLE _ _ _ w).1 hw
      rw [hd16] at hoff hi
      simp only [hoff] at he
      omega
    by_cases hd8 : s.bits_per_pixel = 8
    · rw [h8 hd8] at hw
      obtain ⟨k, hk, rfl⟩ := (mem_storeLE _ _ _ w).1 hw
      rw [hd8] at hoff hi
      simp only [hoff] at he
      omega
    · simp only [Surface.DrawPixelWrites, if_neg hin, Surface.GetDepth] at hw
      cases hw
  · intro hd k hk
    rw [hd] at hoff
    rw [hmem, h32 hd, hoff, writeAll_storeLE_at _ _ _ _ _ hk]
    simp only [Nat.shiftRight_eq_div_pow]
    interval_cases k <;> norm_num <;> omega
  · intro hd
    rw [hd] at hoff
    have e : ∀ v : Nat, v &&& 0xFF = v % 256 := fun v => Nat.and_pow_two_sub_one_eq_mod v 8
    rw [hmem, h24 hd, hoff, e, e, e]
    refine ⟨?_, ?_, ?_⟩
    · simpa using writeAll_storeLE_at s.mem (y * s.line_length + x * 3) 3 c 0 (by decide)
    · simpa using writeAll_storeLE_at s.mem (y * s.line_length + x * 3) 3 c 1 (by decide)
    · simpa using writeAll_storeLE_at s.mem (y * s.line_length + x * 3) 3 c 2 (by decide)
  · intro hd k hk
    rw [hd] at hoff
    rw [hmem, h16 hd, hoff, writeAll_storeLE_at _ _ _ _ _ hk]
  · intro hd
    rw [hd] at hoff
    have h := writeAll_storeLE_at s.mem (y * s.line_length + x * 1) 1
      (s.GetColour c % 2 ^ 8) 0 (by decide)
    simp only [Nat.mul_zero, Nat.shiftRight_zero, Nat.add_zero, Nat.mul_one] at h
    have hoff1 : s.pixelOffset x y 1 = y * s.line_length + x := by simpa using hoff
    rw [hmem, h8 hd, hoff1, h]
    omega

/-- Witness for C3: red drawn at pixel `(1, 1)` of the RGB565 example surface
    puts the bytes `0x00`, `0xF8` of the word `0xF800` at offsets 42 and 43
    and leaves offset 44 as it was. -/
theorem DrawPixel_stores_pixel_word_witness :
    fb565.WellFormed ∧
    (fb565.DrawPixel 1 1 0xFF0000).mem 42 = 0x00 ∧
    (fb565.DrawPixel 1 1 0xFF0000).mem 43 = 0xF8 ∧
    (fb565.DrawPixel 1 1 0xFF0000).mem 44 = fb565.mem 44 :=
  ⟨⟨rfl, by decide, by decide, by decide⟩,
   (DrawPixel_stores_pixel_word fb565 1 1 0xFF0000 ⟨rfl, by decide, by decide, by decide⟩
      (by decide) (by decide)).2.2.2.2.1 rfl 0 (by decide),
   (DrawPixel_stores_pixel_word fb565 1 1 0xFF0000 ⟨rfl, by decide, by decide, by decide⟩
      (by decide) (by decide)).2.2.2.2.1 rfl 1 (by decide),
   (DrawPixel_stores_pixel_word fb565 1 1 0xFF0000 ⟨rfl, by decide, by decide, by decide⟩
      (by decide) (by decide)).2.1 44 (Or.inr (by decide))⟩

/-- C4. The 16-bit conversion is the 5-6-5 packing of the red, green and blue
    bytes of the colour, does not depend on the bits above bit 23, and is
    below `2 ^ 16`. -/
theorem GetColour_16_packs_565 (c : Nat) :
    GetColour c 16 = ((((c >>> 16) &&& 0xFF) >>> 3) <<< 11)
        ||| ((((c >>> 8) &&& 0xFF) >>> 2) <<< 5) ||| ((c &&& 0xFF) >>> 3) ∧
    GetColour c 16 = GetColour (c % 2 ^ 24) 16 ∧
    GetColour c 16 < 2 ^ 16 := by
  refine ⟨?_, ?_, ?_⟩
  · have hr := and_field_mask_div c 5 19
    have hg := and_field_mask_div c 6 10
    have hb := and_field_mask_div c 5 3
    have er := Nat.and_pow_two_sub_one_eq_mod (c >>> 16) 8
    have eg := Nat.and_pow_two_sub_one_eq_mod (c >>> 8) 8
    have eb := Nat.and_pow_two_sub_one_eq_mod c 8
    norm_num at hr hg hb er eg eb
    have e : GetColour c 16 = ((c &&& 0xF80000) >>> 8) ||| ((c &&& 0x00FC00) >>> 5)
           ||| ((c &&& 0x0000F8) >>> 3) := rfl
    rw [e, hr, hg, hb, er, eg, eb]
    simp only [Nat.shiftLeft_eq, Nat.shiftRight_eq_div_pow]
    have e1 : c / 524288 % 32 * 524288 / 2 ^ 8 = c / 2 ^ 16 % 256 / 2 ^ 3 * 2 ^ 11 := by omega
    have e2 : c / 1024 % 64 * 1024 / 2 ^ 5 = c / 2 ^ 8 % 256 / 2 ^ 2 * 2 ^ 5 := by omega
    have e3 : c / 8 % 32 * 8 / 2 ^ 3 = c % 256 / 2 ^ 3 := by omega
    rw [e1, e2, e3]
  · rw [GetColour_16_eq_add, GetColour_16_eq_add]
    omega
  · exact GetColour_16_lt c

/-- C5. The 8-bit conversion is the 3-3-2 packing of the red, green and blue
    bytes of the colour (red in bits 7 to 5, green in bits 4 to 2, blue in
    bits 1 and 0), does not depend on the bits above bit 23, and is below
    `2 ^ 8`. -/
theorem GetColour_8_packs_332 (c : Nat) :
    GetColour c 8 = ((((c >>> 16) &&& 0xFF) >>> 5) <<< 5)
        ||| ((((c >>> 8) &&& 0xFF) >>> 5) <<< 2) ||| ((c &&& 0xFF) >>> 6) ∧
    GetColour c 8 = GetColour (c % 2 ^ 24) 8 ∧
    GetColour c 8 < 2 ^ 8 := by
  refine ⟨?_, ?_, ?_⟩
  · have hr := and_field_mask_div c 3 21
    have hg := and_field_mask_div c 3 13
    have hb := and_field_mask_div c 2 6
    have er := Nat.and_pow_two_sub_one_eq_mod (c >>> 16) 8
    have eg := Nat.and_pow_two_sub_one_eq_mod (c >>> 8) 8
    have eb := Nat.and_pow_two_sub_one_eq_mod c 8
    norm_num at hr hg hb er eg eb
    have e : GetColour c 8 = ((c &&& 0xE00000) >>> 16) ||| ((c &&& 0x00E000) >>> 11)
           ||| ((c &&& 0x0000C0) >>> 6) := rfl
    rw [e, hr, hg, hb, er, eg, eb]
    simp only [Nat.shiftLeft_eq, Nat.shiftRight_eq_div_pow]
    have e1 : c / 2097152 % 8 * 2097152 / 2 ^ 16 = c / 2 ^ 16 % 256 / 2 ^ 5 * 2 ^ 5 := by
      omega
    have e2 : c / 8192 % 8 * 8192 / 2 ^ 11 = c / 2 ^ 8 % 256 / 2 ^ 5 * 2 ^ 2 := by omega
    have e3 : c / 64 % 4 * 64 / 2 ^ 6 = c % 256 / 2 ^ 6 := by omega
    rw [e1, e2, e3]
  · rw [GetColour_8_eq_add, GetColour_8_eq_add]
    omega
  · exact GetColour_8_lt c

/-- C6. `GetColour(c, depth)` is total, and it returns `c` itself at depth
    24, at depth 32 and at every depth other than 8 and 16. -/
theorem GetColour_passes_through (c : Nat) :
    GetColour c 24 = c ∧ GetColour c 32 = c ∧
    ∀ depth : Nat, depth ≠ 8 → depth ≠ 16 → GetColour c depth = c := by
  refine ⟨rfl, rfl, ?_⟩
  intro depth h8 h16
  unfold GetColour
  split <;> first | rfl | contradiction

/-- Witness for C6: depth 7 is not supported and passes `0x123456`
    through. -/
theorem GetColour_passes_through_witness : GetColour 0x123456 7 = 0x123456 :=
  (GetColour_passes_through 0x123456).2.2 7 (by decide) (by decide)

/-- Counterexample to C7: white converted to 16 bits is `0xFFFF`, and
    converting that word again gives `0x07FF`. -/
theorem GetColour_16_twice_white :
    GetColour (GetColour32 255 255 255) 16 = 0xFFFF ∧
    GetColour (GetColour (GetColour32 255 255 255) 16) 16 = 0x07FF ∧
    ¬ (∀ d, d = 8 ∨ d = 16 ∨ d = 24 ∨ d = 32 → ∀ r g b : Nat, r < 256 → g < 256 →
        b < 256 → GetColour (GetColour (GetColour32 r g b) d) d
          = GetColour (GetColour32 r g b) d) := by
  refine ⟨by decide, by decide, ?_⟩
  intro h
  have h1 := h 16 (Or.inr (Or.inl rfl)) 255 255 255 (by decide) (by decide) (by decide)
  revert h1
  decide

/-- C7, amended. At depths 24 and 32 converting twice gives what converting
    once gives.  At depths 8 and 16 it does so exactly when the converted
    word is zero. -/
theorem GetColour_twice (r g b : Nat) :
    GetColour (GetColour (GetColour32 r g b) 24) 24 = GetColour (GetColour32 r g b) 24 ∧
    GetColour (GetColour (GetColour32 r g b) 32) 32 = GetColour (GetColour32 r g b) 32 ∧
    (GetColour (GetColour (GetColour32 r g b) 16) 16 = GetColour (GetColour32 r g b) 16
      ↔ GetColour (GetColour32 r g b) 16 = 0) ∧
    (GetColour (GetColour (GetColour32 r g b) 8) 8 = GetColour (GetColour32 r g b) 8
      ↔ GetColour (GetColour32 r g b) 8 = 0) := by
  refine ⟨rfl, rfl, ⟨fun h => ?_, fun h => ?_⟩, ⟨fun h => ?_, fun h => ?_⟩⟩
  · have hlt := GetColour_16_lt (GetColour32 r g b)
    rw [GetColour_16_eq_add (GetColour (GetColour32 r g b) 16)] at h
    exact GetColour_16_fixed _ h hlt
  · rw [h]; rfl
  · have hlt := GetColour_8_lt (GetColour32 r g b)
    rw [GetColour_8_eq_add (GetColour (GetColour32 r g b) 8)] at h
    exact GetColour_8_fixed _ h hlt
  · rw [h]; rfl

/-- C8, evaluated on the BGR565 layout (blue at offset 11 with 5 bits, green
    at offset 5 with 6 bits, red at offset 0 with 5 bits: disjoint fields of
    a 16-bit word).  The constructor's `8 - length - offset` for blue is
    `-8`, stored as 248 in the `uint8_t` shift; pure blue converts to 0, so
    bits 11 to 15 of the result do not hold the top five bits of the blue
    byte, and no right shift count at all would bring them there. -/
theorem GetColour_BGR565_drops_blue :
    fbBGR565.m_nBlueMask = 0xF8 ∧ fbBGR565.m_nBlueShift = 248 ∧
    fbBGR565.GetColour 0x0000FF = 0 ∧
    (fbBGR565.GetColour 0x0000FF >>> 11) % 2 ^ 5 ≠ 0xFF >>> 3 ∧
    ∀ n : Nat, (({ fbBGR565 with m_nBlueShift := n } : Surface).GetColour 0x0000FF >>> 11)
      % 2 ^ 5 = 0 := by
  refine ⟨by decide, by decide, by decide, by decide, ?_⟩
  intro n
  have h : ({ fbBGR565 with m_nBlueShift := n } : Surface).GetColour 0x0000FF
      = 0xF8 >>> n := by
    show ((0xFF &&& fbBGR565.m_nRedMask) >>> fbBGR565.m_nRedShift)
      ||| ((0xFF &&& fbBGR565.m_nGreenMask) >>> fbBGR565.m_nGreenShift)
      ||| ((0xFF &&& fbBGR565.m_nBlueMask) >>> n) = 0xF8 >>> n
    have e1 : (0xFF &&& fbBGR565.m_nRedMask) >>> fbBGR565.m_nRedShift = 0 := by decide
    have e2 : (0xFF &&& fbBGR565.m_nGreenMask) >>> fbBGR565.m_nGreenShift = 0 := by decide
    have e3 : 0xFF &&& fbBGR565.m_nBlueMask = 0xF8 := by decide
    rw [e1, e2, e3]
    simp
  rw [h]
  have hle : 0xF8 / 2 ^ n ≤ 0xF8 := Nat.div_le_self _ _
  simp only [Nat.shiftRight_eq_div_pow]
  omega

/-- C9. With the masks and shifts the constructor derives for the RGB565
    layout the member `GetColour(c)` is the fixed 16-bit formula
    `GetColour(c, 16)`, and with those it derives for the RGB332 layout it is
    the fixed 8-bit formula `GetColour(c, 8)`, for every colour. -/
theorem GetColour_standard_layouts (s : Surface) (c : Nat) :
    (s.initColourFormat ⟨11, 5⟩ ⟨5, 6⟩ ⟨0, 5⟩).GetColour c = GetColour c 16 ∧
    (s.initColourFormat ⟨5, 3⟩ ⟨2, 3⟩ ⟨0, 2⟩).GetColour c = GetColour c 8 :=
  ⟨rfl, rfl⟩

/-- C10. On a well-formed surface of depth 8, 16, 24 or 32, after
    `Clear(c)` every byte that `DrawPixel(x, y, c)` stores for a pixel
    `(x, y)` inside the surface has the stored value, for every colour `c`;
    nothing but the memory is changed; and after `Clear(0)` every byte of
    the mapped region is zero. -/
theorem Clear_fills_every_pixel (s : Surface) (c : Nat) (hwf : s.WellFormed)
    (hd : s.bits_per_pixel = 8 ∨ s.bits_per_pixel = 16 ∨ s.bits_per_pixel = 24
      ∨ s.bits_per_pixel = 32) :
    (∀ x y, x < s.xres → y < s.yres →
      ∀ w ∈ s.DrawPixelWrites x y c, (s.Clear c).mem w.1 = w.2) ∧
    (s.Clear c).withMem s.mem = s ∧
    (∀ i, i < s.smem_len → (s.Clear 0).mem i = 0) := by
  have hn : 1 ≤ s.bits_per_pixel / 8 := by omega
  have hrow : ∀ x, x < s.xres →
      x * (s.bits_per_pixel / 8) + s.bits_per_pixel / 8 ≤ s.line_length := by
    intro x hx
    have h1 : (x + 1) * (s.bits_per_pixel / 8) ≤ s.xres * (s.bits_per_pixel / 8) :=
      Nat.mul_le_mul_right _ hx
    have h2 : (x + 1) * (s.bits_per_pixel / 8)
        = x * (s.bits_per_pixel / 8) + s.bits_per_pixel / 8 := by ring
    have h3 := hwf.strideFits
    omega
  have hzero : s.Clear 0 = s.withMem fun i => if i < s.smem_len then 0 else s.mem i :=
    s.Clear_zero hwf.isMapped
  refine ⟨?_, ?_, ?_⟩
  · intro x0 y0 hx0 hy0 w0 hw0
    have hst0 := s.DrawPixelWrites_eq_pixelWord hwf hd x0 y0 c hx0 hy0
    rw [hst0] at hw0
    obtain ⟨k0, hk0, rfl⟩ := (mem_storeLE _ _ _ w0).1 hw0
    by_cases hc : c = 0
    · subst hc
      rw [hzero]
      have hb := offset_bound x0 y0 (s.bits_per_pixel / 8) s.xres s.yres s.line_length
        hx0 hy0 hwf.strideFits
      have hrows := hwf.rowsFit
      have hlt : y0 * s.line_length + x0 * (s.bits_per_pixel / 8) + k0 < s.smem_len := by
        omega
      show (if y0 * s.line_length + x0 * (s.bits_per_pixel / 8) + k0 < s.smem_len then 0
        else s.mem _) = _
      rw [if_pos hlt, s.pixelWord_zero]
      simp
    · rw [s.Clear_of_ne_zero c hwf.isMapped hc]
      show writeAll s.mem (s.ClearWrites c) _ = _
      apply writeAll_of_forall_eq
      · refine ⟨(y0 * s.line_length + x0 * (s.bits_per_pixel / 8) + k0,
          (s.pixelWord c >>> (8 * k0)) % 256), ?_, rfl⟩
        unfold Surface.ClearWrites
        refine List.mem_flatMap.2 ⟨x0, List.mem_range.2 ?_, ?_⟩
        · have := hrow x0 hx0
          have h1 : x0 * 1 ≤ x0 * (s.bits_per_pixel / 8) := Nat.mul_le_mul_left _ hn
          omega
        · refine List.mem_flatMap.2 ⟨y0, List.mem_range.2 hy0, ?_⟩
          rw [hst0]
          exact (mem_storeLE _ _ _ _).2 ⟨k0, hk0, rfl⟩
      · intro w hw he
        unfold Surface.ClearWrites at hw
        obtain ⟨x, _, hw⟩ := List.mem_flatMap.1 hw
        obtain ⟨y, hy, hw⟩ := List.mem_flatMap.1 hw
        have hy : y < s.yres := List.mem_range.1 hy
        have hx : x < s.xres := by
          by_contra hge
          rw [s.DrawPixelWrites_of_out x y c (Or.inl (by omega))] at hw
          cases hw
        rw [s.DrawPixelWrites_eq_pixelWord hwf hd x y c hx hy] at hw
        obtain ⟨k, hk, rfl⟩ := (mem_storeLE _ _ _ w).1 hw
        have hkk : k = k0 :=
          pixel_byte_unique s.line_length (s.bits_per_pixel / 8) x y k x0 y0 k0 hk hk0
            (hrow x hx) (hrow x0 hx0) he
        rw [hkk]
  · by_cases hc : c = 0
    · subst hc
      rw [hzero]
      rfl
    · rw [s.Clear_of_ne_zero c hwf.isMapped hc]
      rfl
  · intro i hi
    rw [hzero]
    show (if i < s.smem_len then 0 else s.mem i) = 0
    rw [if_pos hi]

/-- Witness for C10: after `Clear(0xFF0000)` on the RGB565 example surface
    the two bytes of pixel `(19, 19)` hold `0x00`, `0xF8`, the bytes that
    `DrawPixel(19, 19, 0xFF0000)` stores there. -/
theorem Clear_fills_every_pixel_witness :
    fb565.WellFormed ∧
    (798, 0x00) ∈ fb565.DrawPixelWrites 19 19 0xFF0000 ∧
    (799, 0xF8) ∈ fb565.DrawPixelWrites 19 19 0xFF0000 ∧
    (fb565.Clear 0xFF0000).mem 798 = 0x00 ∧
    (fb565.Clear 0xFF0000).mem 799 = 0xF8 :=
  ⟨⟨rfl, by decide, by decide, by decide⟩, by decide, by decide,
   (Clear_fills_every_pixel fb565 0xFF0000 ⟨rfl, by decide, by decide, by decide⟩
      (Or.inr (Or.inl rfl))).1 19 19 (by decide) (by decide) (798, 0x00) (by decide),
   (Clear_fills_every_pixel fb565 0xFF0000 ⟨rfl, by decide, by decide, by decide⟩
      (Or.inr (Or.inl rfl))).1 19 19 (by decide) (by decide) (799, 0xF8) (by decide)⟩

/-- C11. A `DrawLine` of weight 1 between the ends of a horizontal, a
    vertical or a 45 degree line calls `DrawPixel` for
    `max(|dx|, |dy|) + 1` different pixels, among them both ends and all
    between the ends; from one call to the next the coordinate of the longer
    axis grows by one and the other changes by at most one.  On a well-formed
    surface that holds both ends, each of these pixels then holds the colour
    and every other pixel is as before. -/
theorem DrawLine_axis_or_diagonal (x1 y1 x2 y2 : Int)
    (h : y1 = y2 ∨ x1 = x2 ∨ |x2 - x1| = |y2 - y1|) :
    (DrawLinePoints x1 y1 x2 y2 1).length = (max |x2 - x1| |y2 - y1|).toNat + 1 ∧
    (DrawLinePoints x1 y1 x2 y2 1).Nodup ∧
    (x1, y1) ∈ DrawLinePoints x1 y1 x2 y2 1 ∧
    (x2, y2) ∈ DrawLinePoints x1 y1 x2 y2 1 ∧
    (∀ p ∈ DrawLinePoints x1 y1 x2 y2 1,
      min x1 x2 ≤ p.1 ∧ p.1 ≤ max x1 x2 ∧ min y1 y2 ≤ p.2 ∧ p.2 ≤ max y1 y2) ∧
    (∀ i, i + 1 < (DrawLinePoints x1 y1 x2 y2 1).length →
      if |y2 - y1| > |x2 - x1| then
        ((DrawLinePoints x1 y1 x2 y2 1).getD (i + 1) (0, 0)).2
            = ((DrawLinePoints x1 y1 x2 y2 1).getD i (0, 0)).2 + 1 ∧
        |((DrawLinePoints x1 y1 x2 y2 1).getD (i + 1) (0, 0)).1
            - ((DrawLinePoints x1 y1 x2 y2 1).getD i (0, 0)).1| ≤ 1
      else
        ((DrawLinePoints x1 y1 x2 y2 1).getD (i + 1) (0, 0)).1
            = ((DrawLinePoints x1 y1 x2 y2 1).getD i (0, 0)).1 + 1 ∧
        |((DrawLinePoints x1 y1 x2 y2 1).getD (i + 1) (0, 0)).2
            - ((DrawLinePoints x1 y1 x2 y2 1).getD i (0, 0)).2| ≤ 1) ∧
    (∀ (s : Surface) (colour : Nat), s.WellFormed →
      (s.bits_per_pixel = 8 ∨ s.bits_per_pixel = 16 ∨ s.bits_per_pixel = 24
        ∨ s.bits_per_pixel = 32) →
      s.xres ≤ 2 ^ 31 → s.yres ≤ 2 ^ 31 →
      0 ≤ x1 → x1 < s.xres → 0 ≤ y1 → y1 < s.yres →
      0 ≤ x2 → x2 < s.xres → 0 ≤ y2 → y2 < s.yres →
      (∀ p ∈ DrawLinePoints x1 y1 x2 y2 1,
        (s.DrawLine x1 y1 x2 y2 colour 1).PixelIs p.1 p.2 colour) ∧
      (∀ x y : Int, 0 ≤ x → x < s.xres → 0 ≤ y → y < s.yres →
        (x, y) ∉ DrawLinePoints x1 y1 x2 y2 1 →
        s.SamePixel (s.DrawLine x1 y1 x2 y2 colour 1) x y)) := by
  obtain ⟨xa, ya, sx, sy, hpts, hstep, hends⟩ := drawLinePoints_axis_or_diagonal x1 y1 x2 y2 h
  rw [DrawLinePoints_one, hpts]
  have hN : 0 ≤ max |x2 - x1| |y2 - y1| := le_max_of_le_left (abs_nonneg _)
  have hNn : ((max |x2 - x1| |y2 - y1|).toNat : Int) = max |x2 - x1| |y2 - y1| :=
    Int.toNat_of_nonneg hN
  have hsne : sx ≠ 0 ∨ sy ≠ 0 := by
    split at hstep
    · right; omega
    · left; omega
  have hsx : sx = 0 ∨ sx = 1 := by
    split at hstep <;> omega
  have hsy : sy = 0 ∨ sy = 1 ∨ sy = -1 := by
    split at hstep
    · right; left; exact hstep.1
    · exact hstep.2
  have hbox : ∀ p ∈ stepPoints xa ya sx sy ((max |x2 - x1| |y2 - y1|).toNat + 1),
      min x1 x2 ≤ p.1 ∧ p.1 ≤ max x1 x2 ∧ min y1 y2 ≤ p.2 ∧ p.2 ≤ max y1 y2 := by
    intro p hp
    obtain ⟨i, hi, rfl⟩ := (mem_stepPoints _ _ _ _ _ p).1 hp
    have hi' : (i : Int) ≤ max |x2 - x1| |y2 - y1| := by omega
    generalize max |x2 - x1| |y2 - y1| = N at hN hi' hends
    simp only [min_def, max_def]
    rcases hsx with rfl | rfl <;> rcases hsy with rfl | rfl | rfl <;>
      rcases hends with ⟨rfl, rfl, e1, e2⟩ | ⟨rfl, rfl, e1, e2⟩ <;>
      simp only [mul_zero, mul_one, mul_neg, add_zero] at e1 e2 ⊢ <;>
      split_ifs <;> omega
  refine ⟨stepPoints_length _ _ _ _ _, stepPoints_nodup _ _ _ _ _ hsne, ?_, ?_, hbox, ?_, ?_⟩
  · rcases hends with ⟨rfl, rfl, _, _⟩ | ⟨rfl, rfl, e1, e2⟩
    · exact (mem_stepPoints _ _ _ _ _ _).2 ⟨0, by omega, by simp⟩
    · refine (mem_stepPoints _ _ _ _ _ _).2 ⟨(max |xa - x1| |ya - y1|).toNat, by omega, ?_⟩
      rw [hNn, ← e1, ← e2]
  · rcases hends with ⟨rfl, rfl, e1, e2⟩ | ⟨rfl, rfl, _, _⟩
    · refine (mem_stepPoints _ _ _ _ _ _).2 ⟨(max |x2 - xa| |y2 - ya|).toNat, by omega, ?_⟩
      rw [hNn, ← e1, ← e2]
    · exact (mem_stepPoints _ _ _ _ _ _).2 ⟨0, by omega, by simp⟩
  · intro i hi
    rw [stepPoints_length] at hi
    rw [stepPoints_getD _ _ _ _ _ _ hi, stepPoints_getD _ _ _ _ _ i (by omega)]
    split at hstep
    · rw [if_pos (by assumption)]
      obtain ⟨rfl, rfl⟩ := hstep
      refine ⟨by push_cast; ring, ?_⟩
      simp
    · rw [if_neg (by assumption)]
      obtain ⟨rfl, hsy'⟩ := hstep
      refine ⟨by push_cast; ring, ?_⟩
      have e : ya + ((i + 1 : Nat) : Int) * sy - (ya + (i : Int) * sy) = sy := by
        push_cast; ring
      rw [e]
      rcases hsy' with rfl | rfl | rfl <;> simp
  · intro s colour hwf hdep hw31 hh31 hx10 hx1 hy10 hy1 hx20 hx2 hy20 hy2
    have hin : ∀ p ∈ stepPoints xa ya sx sy ((max |x2 - x1| |y2 - y1|).toNat + 1),
        0 ≤ p.1 ∧ p.1 < s.xres ∧ 0 ≤ p.2 ∧ p.2 < s.yres := by
      intro p hp
      obtain ⟨b1, b2, b3, b4⟩ := hbox p hp
      simp only [min_def, max_def] at b1 b2 b3 b4
      refine ⟨?_, ?_, ?_, ?_⟩ <;> split_ifs at b1 b2 b3 b4 <;> omega
    have hrange : ∀ q ∈ withColour
        (stepPoints xa ya sx sy ((max |x2 - x1| |y2 - y1|).toNat + 1)) colour,
        InIntRange q.1 := by
      intro q hq
      obtain ⟨b1, b2, b3, b4⟩ := hin q.1 ((mem_withColour _ _ q).1 hq).1
      unfold InIntRange
      omega
    have hdl : s.DrawLine x1 y1 x2 y2 colour 1
        = s.plotAll ([] ++ withColour
            (stepPoints xa ya sx sy ((max |x2 - x1| |y2 - y1|).toNat + 1)) colour) := by
      unfold Surface.DrawLine
      rw [DrawLinePoints_one, hpts, List.nil_append]
    rw [hdl]
    refine ⟨?_, ?_⟩
    · intro p hp
      obtain ⟨b1, b2, b3, b4⟩ := hin p hp
      exact s.plotAll_pixelIs_of_last hwf hdep hw31 hh31 [] _ p.1 p.2 colour b1 b2 b3 b4
        ((mem_withColour _ _ _).2 ⟨hp, rfl⟩) (fun q hq _ => ((mem_withColour _ _ q).1 hq).2)
        hrange
    · intro x y hx0 hx hy0 hy hnot
      rw [List.nil_append]
      apply s.plotAll_samePixel_of_not_mem hwf hdep _ x y hx0 (by omega) hy0 (by omega)
      · intro q hq he
        exact hnot (he ▸ ((mem_withColour _ _ q).1 hq).1)
      · exact hrange


/-- Witness for C11: the 45 degree line from `(2, 3)` to `(6, 7)` on the
    RGB565 example surface has five pixels, and its first one holds the
    colour afterwards. -/
theorem DrawLine_axis_or_diagonal_witness :
    |(6 : Int) - 2| = |(7 : Int) - 3| ∧
    (DrawLinePoints 2 3 6 7 1).length = 5 ∧
    (fb565.DrawLine 2 3 6 7 WHITE 1).PixelIs 2 3 WHITE :=
  ⟨by decide,
   (DrawLine_axis_or_diagonal 2 3 6 7 (Or.inr (Or.inr (by decide)))).1,
   ((DrawLine_axis_or_diagonal 2 3 6 7 (Or.inr (Or.inr (by decide)))).2.2.2.2.2.2
      fb565 WHITE ⟨rfl, by decide, by decide, by decide⟩ (Or.inr (Or.inl rfl))
      (by decide) (by decide) (by decide) (by decide) (by decide) (by decide)
      (by decide) (by decide) (by decide) (by decide)).1 (2, 3)
      (DrawLine_axis_or_diagonal 2 3 6 7 (Or.inr (Or.inr (by decide)))).2.2.1⟩

/-- C12. On a well-formed surface, after `DrawRect` with `border = 1`,
    `radius = 0` and a fill colour other than `NO_FILL` for a rectangle whose
    corners are inside the surface, every pixel on the four sides of the
    rectangle holds the border colour and every pixel strictly inside holds
    the fill colour. -/
theorem DrawRect_border_over_fill (s : Surface) (hwf : s.WellFormed)
    (hdep : s.bits_per_pixel = 8 ∨ s.bits_per_pixel = 16 ∨ s.bits_per_pixel = 24
      ∨ s.bits_per_pixel = 32)
    (hw31 : s.xres ≤ 2 ^ 31) (hh31 : s.yres ≤ 2 ^ 31)
    (x1 y1 x2 y2 : Int) (colour fillColour round : Nat)
    (hx1 : 0 ≤ x1) (hx1' : x1 < s.xres) (hy1 : 0 ≤ y1) (hy1' : y1 < s.yres)
    (hx2 : 0 ≤ x2) (hx2' : x2 < s.xres) (hy2 : 0 ≤ y2) (hy2' : y2 < s.yres)
    (hf : fillColour ≠ NO_FILL) :
    (∀ x y : Int, min x1 x2 ≤ x → x ≤ max x1 x2 → min y1 y2 ≤ y → y ≤ max y1 y2 →
      (x = min x1 x2 ∨ x = max x1 x2 ∨ y = min y1 y2 ∨ y = max y1 y2) →
      (s.DrawRect x1 y1 x2 y2 colour 1 fillColour round 0).PixelIs x y colour) ∧
    (∀ x y : Int, min x1 x2 < x → x < max x1 x2 → min y1 y2 < y → y < max y1 y2 →
      (s.DrawRect x1 y1 x2 y2 colour 1 fillColour round 0).PixelIs x y fillColour) := by
  have exl : (if x1 > x2 then x2 else x1) = min x1 x2 := by
    simp only [min_def]; split_ifs <;> omega
  have exr : (if x1 > x2 then x1 else x2) = max x1 x2 := by
    simp only [max_def]; split_ifs <;> omega
  have eyt : (if y1 > y2 then y2 else y1) = min y1 y2 := by
    simp only [min_def]; split_ifs <;> omega
  have eyb : (if y1 > y2 then y1 else y2) = max y1 y2 := by
    simp only [max_def]; split_ifs <;> omega
  have hrect : s.DrawRect x1 y1 x2 y2 colour 1 fillColour round 0
      = s.plotAll (withColour (rectFillPoints (min x1 x2) (min y1 y2) (max x1 x2)
            (max y1 y2) 1) fillColour ++
          withColour (rectBorderPoints (min x1 x2) (min y1 y2) (max x1 x2) (max y1 y2) 1
            round 0) colour) := by
    unfold Surface.DrawRect DrawRectPlots
    simp only [exl, exr, eyt, eyb, if_pos hf]
  have hxl0 : 0 ≤ min x1 x2 := le_min hx1 hx2
  have hyt0 : 0 ≤ min y1 y2 := le_min hy1 hy2
  have hxr : max x1 x2 < s.xres := max_lt hx1' hx2'
  have hyb : max y1 y2 < s.yres := max_lt hy1' hy2'
  have hxlr : min x1 x2 ≤ max x1 x2 := min_le_max
  have hytb : min y1 y2 ≤ max y1 y2 := min_le_max
  generalize min x1 x2 = xl at *
  generalize max x1 x2 = xr at *
  generalize min y1 y2 = yt at *
  generalize max y1 y2 = yb at *
  have hborder := fun p => mem_rectBorderPoints_one xl yt xr yb round p hxlr hytb
    (by unfold InIntRange; simp only; omega) (by unfold InIntRange; simp only; omega)
  have hbrange : ∀ q ∈ withColour (rectBorderPoints xl yt xr yb 1 round 0) colour,
      InIntRange q.1 := by
    intro q hq
    have := (hborder q.1).1 ((mem_withColour _ _ q).1 hq).1
    unfold InIntRange
    omega
  rw [hrect]
  refine ⟨?_, ?_⟩
  · intro x y h1 h2 h3 h4 hside
    apply s.plotAll_pixelIs_of_last hwf hdep hw31 hh31 _ _ x y colour (by omega) (by omega)
      (by omega) (by omega)
    · exact (mem_withColour _ _ _).2 ⟨(hborder (x, y)).2 ⟨⟨h1, h2, h3, h4⟩, hside⟩, rfl⟩
    · exact fun q hq _ => ((mem_withColour _ _ q).1 hq).2
    · exact hbrange
  · intro x y h1 h2 h3 h4
    have hfill := fun p => mem_rectFillPoints xl yt xr yb 1 p
    have hmin : min (xl + ((1 : Nat) : Int)) (xr - ((1 : Nat) : Int) + 1) = xl + 1 := by
      simp only [Nat.cast_one, min_def]; split_ifs <;> omega
    have hmax : max (xl + ((1 : Nat) : Int)) (xr - ((1 : Nat) : Int) + 1) = xr := by
      simp only [Nat.cast_one, max_def]; split_ifs <;> omega
    simp only [hmin, hmax, Nat.cast_one] at hfill
    rw [← List.nil_append (withColour _ fillColour ++ withColour _ colour)]
    apply s.plotAll_pixelIs_of_last hwf hdep hw31 hh31 _ _ x y fillColour (by omega)
      (by omega) (by omega) (by omega)
    · apply List.mem_append_left
      exact (mem_withColour _ _ _).2 ⟨(hfill (x, y)).2 ⟨⟨by simp only; omega, by simp only; omega⟩,
        by simp only; omega, by simp only; omega⟩, rfl⟩
    · intro q hq he
      rcases List.mem_append.1 hq with hq | hq
      · exact ((mem_withColour _ _ q).1 hq).2
      · have := (hborder q.1).1 ((mem_withColour _ _ q).1 hq).1
        rw [he] at this
        simp only at this
        omega
    · intro q hq
      rcases List.mem_append.1 hq with hq | hq
      · have := (hfill q.1).1 ((mem_withColour _ _ q).1 hq).1
        unfold InIntRange
        omega
      · exact hbrange q hq

/-- Witness for C12: `DrawRect(0, 0, 9, 9, WHITE, 1, BLUE)` on the 20 x 20
    RGB565 example surface leaves the corner `(0, 0)` and the side pixel
    `(9, 5)` white and the inner pixels `(1, 1)` and `(8, 8)` blue. -/
theorem DrawRect_border_over_fill_witness :
    BLUE ≠ NO_FILL ∧
    (fb565.DrawRect 0 0 9 9 WHITE 1 BLUE QUADRANT_NONE 0).PixelIs 0 0 WHITE ∧
    (fb565.DrawRect 0 0 9 9 WHITE 1 BLUE QUADRANT_NONE 0).PixelIs 9 5 WHITE ∧
    (fb565.DrawRect 0 0 9 9 WHITE 1 BLUE QUADRANT_NONE 0).PixelIs 1 1 BLUE ∧
    (fb565.DrawRect 0 0 9 9 WHITE 1 BLUE QUADRANT_NONE 0).PixelIs 8 8 BLUE :=
  ⟨by decide,
   (DrawRect_border_over_fill fb565 ⟨rfl, by decide, by decide, by decide⟩
      (Or.inr (Or.inl rfl)) (by decide) (by decide) 0 0 9 9 WHITE BLUE QUADRANT_NONE
      (by decide) (by decide) (by decide) (by decide) (by decide) (by decide) (by decide)
      (by decide) (by decide)).1 0 0 (by decide) (by decide) (by decide) (by decide)
      (Or.inl (by decide)),
   (DrawRect_border_over_fill fb565 ⟨rfl, by decide, by decide, by decide⟩
      (Or.inr (Or.inl rfl)) (by decide) (by decide) 0 0 9 9 WHITE BLUE QUADRANT_NONE
      (by decide) (by decide) (by decide) (by decide) (by decide) (by decide) (by decide)
      (by decide) (by decide)).1 9 5 (by decide) (by decide) (by decide) (by decide)
      (Or.inr (Or.inl (by decide))),
   (DrawRect_border_over_fill fb565 ⟨rfl, by decide, by decide, by decide⟩
      (Or.inr (Or.inl rfl)) (by decide) (by decide) 0 0 9 9 WHITE BLUE QUADRANT_NONE
      (by decide) (by decide) (by decide) (by decide) (by decide) (by decide) (by decide)
      (by decide) (by decide)).2 1 1 (by decide) (by decide) (by decide) (by decide),
   (DrawRect_border_over_fill fb565 ⟨rfl, by decide, by decide, by decide⟩
      (Or.inr (Or.inl rfl)) (by decide) (by decide) 0 0 9 9 WHITE BLUE QUADRANT_NONE
      (by decide) (by decide) (by decide) (by decide) (by decide) (by decide) (by decide)
      (by decide) (by decide)).2 8 8 (by decide) (by decide) (by decide) (by decide)⟩

/-- C13 evaluated for `DrawCircle(5, 5, 1, WHITE, 2, BLUE)` and for
    `DrawCircle(5, 5, 0, WHITE, 1, BLUE)` on the RGB565 example surface.  The
    bound `radius - border` of the loop of `drawQuadrant` is computed in
    `unsigned int` and wraps when the border is wider than the radius, so
    the loop is not entered: no pixel is plotted in the border colour, and
    the end points of the axes hold the fill colour. -/
theorem DrawCircle_wide_border_not_drawn :
    drawQuadrantPoints 5 5 1 2 QUADRANT_ALL = [] ∧
    (∀ q ∈ DrawCirclePlots 5 5 1 WHITE 2 BLUE, q.2 = BLUE) ∧
    (fb565.DrawCircle 5 5 1 WHITE 2 BLUE).PixelIs 6 5 BLUE ∧
    (fb565.DrawCircle 5 5 1 WHITE 2 BLUE).PixelIs 4 5 BLUE ∧
    (fb565.DrawCircle 5 5 1 WHITE 2 BLUE).PixelIs 5 6 BLUE ∧
    (fb565.DrawCircle 5 5 1 WHITE 2 BLUE).PixelIs 5 4 BLUE ∧
    ¬ (fb565.DrawCircle 5 5 1 WHITE 2 BLUE).PixelIs 6 5 WHITE ∧
    drawQuadrantPoints 5 5 0 1 QUADRANT_ALL = [] ∧
    (fb565.DrawCircle 5 5 0 WHITE 1 BLUE).PixelIs 5 5 BLUE ∧
    ¬ (fb565.DrawCircle 5 5 0 WHITE 1 BLUE).PixelIs 5 5 WHITE := by
  unfold Surface.PixelIs
  refine ⟨by decide!, by decide!, by decide!, by decide!, by decide!, by decide!, by decide!,
    by decide!, by decide!, by decide!⟩

/-- C14. With `NO_FILL` as fill colour and another border colour, every call
    of `DrawPixel` that `DrawRect`, `DrawTriangle` and `DrawCircle` make has
    the border colour, none has `NO_FILL`, and the result is that of the
    border alone: of the border lines and corner quadrants of the rectangle,
    of the three `DrawLine` calls of the triangle, of `drawQuadrant` for the
    circle. -/
theorem NO_FILL_draws_border_only (colour border : Nat) (hc : colour ≠ NO_FILL) :
    (∀ (s : Surface) (x1 y1 x2 y2 : Int) (round radius : Nat),
      (∀ q ∈ DrawRectPlots x1 y1 x2 y2 colour border NO_FILL round radius,
        q.2 = colour ∧ q.2 ≠ NO_FILL) ∧
      s.DrawRect x1 y1 x2 y2 colour border NO_FILL round radius
        = s.plotAll (withColour (rectBorderPoints (min x1 x2) (min y1 y2) (max x1 x2)
            (max y1 y2) border round radius) colour)) ∧
    (∀ (s : Surface) (x1 y1 x2 y2 x3 y3 : Int),
      (∀ q ∈ DrawTrianglePlots x1 y1 x2 y2 x3 y3 colour border NO_FILL,
        q.2 = colour ∧ q.2 ≠ NO_FILL) ∧
      s.DrawTriangle x1 y1 x2 y2 x3 y3 colour border NO_FILL
        = ((s.DrawLine x1 y1 x2 y2 colour border).DrawLine x2 y2 x3 y3 colour border).DrawLine
            x3 y3 x1 y1 colour border) ∧
    (∀ (s : Surface) (x0 y0 : Int) (radius : Nat),
      (∀ q ∈ DrawCirclePlots x0 y0 radius colour border NO_FILL,
        q.2 = colour ∧ q.2 ≠ NO_FILL) ∧
      s.DrawCircle x0 y0 radius colour border NO_FILL
        = s.drawQuadrant x0 y0 radius colour border QUADRANT_ALL) := by
  have hcol : ∀ (pts : List (Int × Int)) (q : Plot), q ∈ withColour pts colour →
      q.2 = colour ∧ q.2 ≠ NO_FILL := by
    intro pts q hq
    have := ((mem_withColour _ _ q).1 hq).2
    exact ⟨this, by rw [this]; exact hc⟩
  refine ⟨?_, ?_, ?_⟩
  · intro s x1 y1 x2 y2 round radius
    have exl : (if x1 > x2 then x2 else x1) = min x1 x2 := by
      simp only [min_def]; split_ifs <;> omega
    have exr : (if x1 > x2 then x1 else x2) = max x1 x2 := by
      simp only [max_def]; split_ifs <;> omega
    have eyt : (if y1 > y2 then y2 else y1) = min y1 y2 := by
      simp only [min_def]; split_ifs <;> omega
    have eyb : (if y1 > y2 then y1 else y2) = max y1 y2 := by
      simp only [max_def]; split_ifs <;> omega
    have e : DrawRectPlots x1 y1 x2 y2 colour border NO_FILL round radius
        = withColour (rectBorderPoints (min x1 x2) (min y1 y2) (max x1 x2) (max y1 y2)
            border round radius) colour := by
      unfold DrawRectPlots
      simp only [exl, exr, eyt, eyb, ne_eq, not_true_eq_false, if_false, List.nil_append]
    refine ⟨?_, ?_⟩
    · rw [e]
      exact hcol _
    · unfold Surface.DrawRect
      rw [e]
  · intro s x1 y1 x2 y2 x3 y3
    have e : DrawTrianglePlots x1 y1 x2 y2 x3 y3 colour border NO_FILL
        = withColour (DrawLinePoints x1 y1 x2 y2 border ++ DrawLinePoints x2 y2 x3 y3 border
            ++ DrawLinePoints x3 y3 x1 y1 border) colour := by
      unfold DrawTrianglePlots
      simp only [ne_eq, not_true_eq_false, if_false]
    refine ⟨?_, ?_⟩
    · rw [e]
      exact hcol _
    · unfold Surface.DrawTriangle Surface.DrawLine
      rw [e, ← Surface.plotAll_append, ← Surface.plotAll_append]
      unfold withColour
      rw [List.map_append, List.map_append, List.append_assoc]
  · intro s x0 y0 radius
    have e : DrawCirclePlots x0 y0 radius colour border NO_FILL
        = withColour (drawQuadrantPoints x0 y0 radius border QUADRANT_ALL) colour := by
      unfold DrawCirclePlots
      simp only [ne_eq, not_true_eq_false, if_false, List.nil_append]
    refine ⟨?_, ?_⟩
    · rw [e]
      exact hcol _
    · unfold Surface.DrawCircle Surface.drawQuadrant
      rw [e]

/-- Witness for C14: a white unfilled triangle on the RGB565 example surface
    is its three white lines. -/
theorem NO_FILL_draws_border_only_witness :
    WHITE ≠ NO_FILL ∧
    fb565.DrawTriangle 1 1 8 2 4 9 WHITE 1 NO_FILL
      = ((fb565.DrawLine 1 1 8 2 WHITE 1).DrawLine 8 2 4 9 WHITE 1).DrawLine 4 9 1 1 WHITE 1 :=
  ⟨by decide,
   ((NO_FILL_draws_border_only WHITE 1 (by decide)).2.1 fb565 1 1 8 2 4 9).2⟩

/-- C15 evaluated for `DrawRect(0, 0, 9, 9, WHITE, border, BLUE)` with
    `border = 1` and `border = 0`.  The fill lines end at `x2 - border + 1`:
    with border 1 the fill plots `(9, 1)`, right of `x2 - border = 8`; with
    border 0 it plots `(10, 0)`, right of the rectangle, which then holds the
    fill colour on the RGB565 example surface.  For the rectangle from
    `(5, 0)` to `(5, 3)` with border 1 the fill plots `(6, 1)`. -/
theorem DrawRect_fill_one_column_too_wide :
    ((9, 1), BLUE) ∈ DrawRectPlots 0 0 9 9 WHITE 1 BLUE QUADRANT_NONE 0 ∧
    ((10, 0), BLUE) ∈ DrawRectPlots 0 0 9 9 WHITE 0 BLUE QUADRANT_NONE 0 ∧
    (fb565.DrawRect 0 0 9 9 WHITE 0 BLUE QUADRANT_NONE 0).PixelIs 10 0 BLUE ∧
    ¬ fb565.PixelIs 10 0 BLUE ∧
    ((6, 1), BLUE) ∈ DrawRectPlots 5 0 5 3 WHITE 1 BLUE QUADRANT_NONE 0 := by
  unfold Surface.PixelIs
  refine ⟨by decide!, by decide!, by decide!, by decide!, by decide!⟩

/-- C16 evaluated for `DrawRect(0, 0, 9, 9, WHITE, 1, NO_FILL, round, 2)`
    with no corner flagged and with the bottom right corner alone flagged:
    the border lines stop `radius` short of every corner, so the top left
    corner `(0, 0)`, whose bit is clear, is never plotted and stays as it
    was on the RGB565 example surface. -/
theorem DrawRect_unflagged_corner_left_open :
    (∀ q ∈ DrawRectPlots 0 0 9 9 WHITE 1 NO_FILL QUADRANT_NONE 2, q.1 ≠ (0, 0)) ∧
    (∀ q ∈ DrawRectPlots 0 0 9 9 WHITE 1 NO_FILL QUADRANT_BOTTOM_RIGHT 2, q.1 ≠ (0, 0)) ∧
    fb565.SamePixel (fb565.DrawRect 0 0 9 9 WHITE 1 NO_FILL QUADRANT_NONE 2) 0 0 ∧
    ¬ (fb565.DrawRect 0 0 9 9 WHITE 1 NO_FILL QUADRANT_NONE 2).PixelIs 0 0 WHITE ∧
    ¬ (fb565.DrawRect 0 0 9 9 WHITE 1 NO_FILL QUADRANT_BOTTOM_RIGHT 2).PixelIs 0 0 WHITE := by
  unfold Surface.PixelIs Surface.SamePixel
  refine ⟨by decide!, by decide!, by decide!, by decide!, by decide!⟩

/-- C17 evaluated for `DrawBitmap("a", 3, 4)` with an image of one red pixel
    loaded under `a`, on the RGB565 example surface: the call returns true,
    plots the pixel at `(0, 0)` and leaves `(3, 4)` as it was, because the
    loop variables hide the parameters `x` and `y`.  For a name that is not
    loaded the call returns false and the surface is unchanged. -/
theorem DrawBitmap_draws_at_origin :
    (fb565.DrawBitmap bitmapsWithA "a" 3 4).1 = true ∧
    DrawBitmapPlots redDot 3 4 = [((0, 0), 0xFF0000)] ∧
    (fb565.DrawBitmap bitmapsWithA "a" 3 4).2.PixelIs 0 0 0xFF0000 ∧
    fb565.SamePixel (fb565.DrawBitmap bitmapsWithA "a" 3 4).2 3 4 ∧
    ¬ (fb565.DrawBitmap bitmapsWithA "a" 3 4).2.PixelIs 3 4 0xFF0000 ∧
    fb565.DrawBitmap bitmapsWithA "b" 3 4 = (false, fb565) := by
  unfold Surface.PixelIs Surface.SamePixel
  refine ⟨by decide!, by decide!, by decide!, by decide!, by decide!, rfl⟩

/-- Counterexample to C18: with the face `A.ttf` loaded, `SetFont` for a path
    that the engine cannot open returns false, and afterwards the state is
    another one, no face is loaded and `DrawText` no longer draws. -/
theorem SetFont_failure_drops_face :
    DrawTextDraws fontA = true ∧
    (SetFont engineWithA fontA 16 16 "missing.ttf").1 = false ∧
    (SetFont engineWithA fontA 16 16 "missing.ttf").2 ≠ fontA ∧
    (SetFont engineWithA fontA 16 16 "missing.ttf").2.m_ftFace = none ∧
    DrawTextDraws (SetFont engineWithA fontA 16 16 "missing.ttf").2 = false := by
  refine ⟨by decide!, by decide!, by decide!, by decide!, by decide!⟩

/-- C18, amended. When `SetFont` returns false, the state is unchanged if the
    library is not initialised or the path is empty.  If the library is
    initialised and the path is not empty, the engine has failed to open the
    face: `m_nFtFace` holds its error code, a face that was loaded has been
    closed, no face is loaded, `DrawText` does not draw, and the pixel sizes
    are unchanged. -/
theorem SetFont_false_state (FT_New_Face : String → Int) (st : FontState)
    (height width : Int) (path : String)
    (hfalse : (SetFont FT_New_Face st height width path).1 = false) :
    ((st.m_nFtLibInit ≠ 0 ∨ path = "") →
      (SetFont FT_New_Face st height width path).2 = st) ∧
    (st.m_nFtLibInit = 0 → path ≠ "" →
      FT_New_Face path ≠ 0 ∧
      (SetFont FT_New_Face st height width path).2.m_nFtFace = FT_New_Face path ∧
      (SetFont FT_New_Face st height width path).2.m_nFtLibInit = st.m_nFtLibInit ∧
      (st.m_nFtFace = 0 → (SetFont FT_New_Face st height width path).2.m_ftFace = none) ∧
      (st.m_nFtFace ≠ 0 →
        (SetFont FT_New_Face st height width path).2.m_ftFace = st.m_ftFace) ∧
      (SetFont FT_New_Face st height width path).2.pixelWidth = st.pixelWidth ∧
      (SetFont FT_New_Face st height width path).2.pixelHeight = st.pixelHeight ∧
      DrawTextDraws (SetFont FT_New_Face st height width path).2 = false) := by
  refine ⟨?_, ?_⟩
  · intro h
    by_cases hlib : st.m_nFtLibInit ≠ 0
    · simp only [SetFont, if_pos hlib]
    · have hp : path = "" := by
        rcases h with h | h
        · exact absurd h hlib
        · exact h
      subst hp
      simp only [SetFont, if_neg hlib, ne_eq, not_true_eq_false, if_false] at hfalse ⊢
      by_cases hface : st.m_nFtFace ≠ 0
      · simp only [ne_eq] at hface
        simp only [hface, not_false_eq_true, if_true]
      · simp only [ne_eq] at hface
        simp only [hface, if_false] at hfalse
        exact absurd hfalse (by decide)
  · intro hlib hpath
    have hlib' : ¬ (st.m_nFtLibInit ≠ 0) := by simp [hlib]
    by_cases herr : FT_New_Face path = 0
    · simp only [SetFont, if_neg hlib', if_pos hpath, herr, ne_eq, not_true_eq_false,
        if_false] at hfalse
      exact absurd hfalse (by decide)
    · by_cases hface : st.m_nFtFace = 0
      · simp [SetFont, hlib, hpath, herr, hface, DrawTextDraws]
      · simp [SetFont, hlib, hpath, herr, hface, DrawTextDraws]

/-- Witness for C18 as amended: `SetFont` with an empty path on a state with
    no face loaded returns false and leaves the state as it was. -/
theorem SetFont_false_state_witness :
    (SetFont engineWithA { fontA with m_nFtFace := 1, m_ftFace := none } 12 12 "").1 = false ∧
    (SetFont engineWithA { fontA with m_nFtFace := 1, m_ftFace := none } 12 12 "").2
      = { fontA with m_nFtFace := 1, m_ftFace := none } :=
  ⟨by decide!,
   (SetFont_false_state engineWithA { fontA with m_nFtFace := 1, m_ftFace := none } 12 12 ""
      (by decide!)).1 (Or.inr rfl)⟩

/-- C19 evaluated for a glyph bitmap of one row of one set pixel with pitch
    `-1`: the row loop starts at `dY = rows` and runs while `dY < 0`, so it
    is not entered and nothing is plotted, where the same bitmap with pitch
    `1` gives the pixel `(3, 4)`. -/
theorem drawBitmap_negative_pitch_plots_nothing :
    drawBitmapPoints glyphUp 3 4 = [] ∧
    drawBitmapPoints glyphDown 3 4 = [(3, 4)] ∧
    fb565.drawBitmap glyphUp 3 4 WHITE = fb565 ∧
    (fb565.drawBitmap glyphDown 3 4 WHITE).PixelIs 3 4 WHITE := by
  unfold Surface.PixelIs
  refine ⟨by decide!, by decide!, rfl, by decide!⟩

/-- C20 evaluated for the triangles `(0, 0)`, `(4, 2)`, `(0, 4)` and
    `(4, 0)`, `(0, 2)`, `(8, 4)` with fill, one for each branch of the
    comparison of the slopes.  In the first, the edge from `(4, 2)` to
    `(0, 4)` is at `x = 2` in row 3 and at `x = 0` in row 4, but the fill span
    of row 3 ends at `x = 4`, the position of that edge in row 2, and the span
    of row 4 ends at `x = 2`: in the lower half the end on the edge from the
    second to the third vertex is one row behind.  In the second, the edge
    from `(4, 0)` to `(8, 4)` is at `x = 8` in row 4, but the span of row 4
    ends at `x = 9`: in the lower half the end on the edge from the first to
    the third vertex is one row ahead.  The pixels `(4, 3)` and `(9, 4)`,
    outside the triangles, hold the fill colour afterwards on the RGB565
    example surface. -/
theorem DrawTriangle_fill_lower_half_one_row_off :
    triangleFillPoints 0 0 4 2 0 4 =
      [(0, 0), (0, 1), (1, 1), (2, 1), (0, 2), (1, 2), (2, 2), (3, 2), (4, 2),
       (0, 3), (1, 3), (2, 3), (3, 3), (4, 3), (0, 4), (1, 4), (2, 4)] ∧
    truncToInt ((4 : ℚ) + (3 - 2) * edgeSlope 4 2 0 4) = 2 ∧
    truncToInt ((4 : ℚ) + (4 - 2) * edgeSlope 4 2 0 4) = 0 ∧
    (fb565.DrawTriangle 0 0 4 2 0 4 WHITE 1 BLUE).PixelIs 4 3 BLUE ∧
    ¬ fb565.PixelIs 4 3 BLUE ∧
    (9, 4) ∈ triangleFillPoints 4 0 0 2 8 4 ∧
    truncToInt ((4 : ℚ) + (4 - 0) * edgeSlope 4 0 8 4) = 8 ∧
    (fb565.DrawTriangle 4 0 0 2 8 4 WHITE 1 BLUE).PixelIs 9 4 BLUE ∧
    ¬ fb565.PixelIs 9 4 BLUE := by
  unfold Surface.PixelIs
  refine ⟨by decide!, by decide!, by decide!, by decide!, by decide!, by decide!, by decide!,
    by decide!, by decide!⟩

/-- C22, the claim as stated fails for a radius near `2 ^ 32`:
    `drawQuadrant(5, 5, 4294967293, WHITE, 1, QUADRANT_TOP_RIGHT)` calls
    `DrawPixel` for the top and the right end of the axes only, with the
    coordinates `5 - 4294967293` and `5 + 4294967293`, which are `8` and `2`
    in `unsigned int`.  On the RGB565 example surface the pixels `(5, 8)`,
    below the centre, and `(2, 5)`, left of it, hold the colour afterwards
    and did not before; neither lies in the top right quadrant, the only one
    requested. -/
theorem drawQuadrant_huge_radius_leaves_quadrant :
    drawQuadrantPoints 5 5 4294967293 1 QUADRANT_TOP_RIGHT =
      [(5, 5 - 4294967293), (5 + 4294967293, 5)] ∧
    toU32 (5 - 4294967293) = 8 ∧ toU32 (5 + 4294967293) = 2 ∧
    ¬ fb565.PixelIs 5 8 WHITE ∧ ¬ fb565.PixelIs 2 5 WHITE ∧
    (fb565.drawQuadrant 5 5 4294967293 WHITE 1 QUADRANT_TOP_RIGHT).PixelIs 5 8 WHITE ∧
    (fb565.drawQuadrant 5 5 4294967293 WHITE 1 QUADRANT_TOP_RIGHT).PixelIs 2 5 WHITE ∧
    ¬ ((5 : Int) ≤ 5 ∧ (8 : Int) ≤ 5) ∧ ¬ ((5 : Int) ≤ 2 ∧ (5 : Int) ≤ 5) ∧
    QUADRANT_TOP_RIGHT &&& QUADRANT_BOTTOM_RIGHT ≠ QUADRANT_BOTTOM_RIGHT ∧
    QUADRANT_TOP_RIGHT &&& QUADRANT_BOTTOM_LEFT ≠ QUADRANT_BOTTOM_LEFT ∧
    QUADRANT_TOP_RIGHT &&& QUADRANT_TOP_LEFT ≠ QUADRANT_TOP_LEFT := by
  unfold Surface.PixelIs
  refine ⟨by decide!, by decide, by decide, by decide!, by decide!, by decide!, by decide!,
    by decide, by decide, by decide, by decide, by decide⟩

/-- C22 as amended: for a centre and a radius with `x0 ± radius` and
    `y0 ± radius` in the range of `int`, every call of `DrawPixel` that
    `drawQuadrant` makes with coordinates below `2 ^ 31` (all calls that can
    pass the clip test of a surface at most `2 ^ 31` wide and high) is for a
    pixel in a closed quadrant whose bit is set in the mask: right of and
    above the centre for `QUADRANT_TOP_RIGHT`, right and below for
    `QUADRANT_BOTTOM_RIGHT`, left and below for `QUADRANT_BOTTOM_LEFT`, left
    and above for `QUADRANT_TOP_LEFT` (`y` grows downwards); the coordinates
    are those `DrawPixel` receives, in `unsigned int`.  On such a surface,
    if well formed, every pixel in none of the requested quadrants is as
    before the call.  With `QUADRANT_NONE` no call is made and the surface
    stays as it was. -/
theorem drawQuadrant_inside_requested_quadrants (x0 y0 : Int) (radius border quadrant : Nat)
    (hxl : -2 ^ 31 ≤ x0 - radius) (hxr : x0 + radius < 2 ^ 31)
    (hyl : -2 ^ 31 ≤ y0 - radius) (hyr : y0 + radius < 2 ^ 31) :
    (∀ p ∈ drawQuadrantPoints x0 y0 radius border quadrant,
      toU32 p.1 < 2 ^ 31 → toU32 p.2 < 2 ^ 31 →
      (quadrant &&& QUADRANT_TOP_RIGHT = QUADRANT_TOP_RIGHT ∧
        x0 ≤ (toU32 p.1 : Int) ∧ (toU32 p.2 : Int) ≤ y0) ∨
      (quadrant &&& QUADRANT_BOTTOM_RIGHT = QUADRANT_BOTTOM_RIGHT ∧
        x0 ≤ (toU32 p.1 : Int) ∧ y0 ≤ (toU32 p.2 : Int)) ∨
      (quadrant &&& QUADRANT_BOTTOM_LEFT = QUADRANT_BOTTOM_LEFT ∧
        (toU32 p.1 : Int) ≤ x0 ∧ y0 ≤ (toU32 p.2 : Int)) ∨
      (quadrant &&& QUADRANT_TOP_LEFT = QUADRANT_TOP_LEFT ∧
        (toU32 p.1 : Int) ≤ x0 ∧ (toU32 p.2 : Int) ≤ y0)) ∧
    (∀ (s : Surface) (colour : Nat), s.WellFormed →
      (s.bits_per_pixel = 8 ∨ s.bits_per_pixel = 16 ∨ s.bits_per_pixel = 24
        ∨ s.bits_per_pixel = 32) →
      s.xres ≤ 2 ^ 31 → s.yres ≤ 2 ^ 31 →
      ∀ x y : Int, 0 ≤ x → x < s.xres → 0 ≤ y → y < s.yres →
        ¬ ((quadrant &&& QUADRANT_TOP_RIGHT = QUADRANT_TOP_RIGHT ∧ x0 ≤ x ∧ y ≤ y0) ∨
          (quadrant &&& QUADRANT_BOTTOM_RIGHT = QUADRANT_BOTTOM_RIGHT ∧ x0 ≤ x ∧ y0 ≤ y) ∨
          (quadrant &&& QUADRANT_BOTTOM_LEFT = QUADRANT_BOTTOM_LEFT ∧ x ≤ x0 ∧ y0 ≤ y) ∨
          (quadrant &&& QUADRANT_TOP_LEFT = QUADRANT_TOP_LEFT ∧ x ≤ x0 ∧ y ≤ y0)) →
        s.SamePixel (s.drawQuadrant x0 y0 radius colour border quadrant) x y) ∧
    drawQuadrantPoints x0 y0 radius border QUADRANT_NONE = [] ∧
    (∀ (s : Surface) (colour : Nat),
      s.drawQuadrant x0 y0 radius colour border QUADRANT_NONE = s) := by
  have hnone : drawQuadrantPoints x0 y0 radius border QUADRANT_NONE = [] := by
    apply List.eq_nil_iff_forall_not_mem.2
    intro p hp
    have h := (drawQuadrantPoints_in_quadrants x0 y0 radius border QUADRANT_NONE p hp).1
    have e1 : ¬ (QUADRANT_NONE &&& QUADRANT_TOP_RIGHT = QUADRANT_TOP_RIGHT) := by decide
    have e2 : ¬ (QUADRANT_NONE &&& QUADRANT_BOTTOM_RIGHT = QUADRANT_BOTTOM_RIGHT) := by decide
    have e3 : ¬ (QUADRANT_NONE &&& QUADRANT_BOTTOM_LEFT = QUADRANT_BOTTOM_LEFT) := by decide
    have e4 : ¬ (QUADRANT_NONE &&& QUADRANT_TOP_LEFT = QUADRANT_TOP_LEFT) := by decide
    rcases h with h | h | h | h
    · exact e1 h.1
    · exact e2 h.1
    · exact e3 h.1
    · exact e4 h.1
  refine ⟨?_, ?_, hnone, ?_⟩
  · intro p hp h1 h2
    obtain ⟨hq, b1, b2, b3, b4⟩ := drawQuadrantPoints_in_quadrants _ _ _ _ _ p hp
    have e1 : ((toU32 p.1 : Nat) : Int) = p.1 := by
      unfold toU32 at h1 ⊢
      omega
    have e2 : ((toU32 p.2 : Nat) : Int) = p.2 := by
      unfold toU32 at h2 ⊢
      omega
    rw [e1, e2]
    exact hq
  · intro s colour hwf hd hw31 hh31 x y hx hxr' hy hyr' hnot
    unfold Surface.drawQuadrant
    apply s.plotAll_samePixel_of_not_mem hwf hd _ x y hx (by omega) hy (by omega)
    · intro q hq he
      have hq1 := ((mem_withColour _ _ q).1 hq).1
      have h := (drawQuadrantPoints_in_quadrants _ _ _ _ _ q.1 hq1).1
      rw [he] at h
      exact hnot h
    · intro q hq
      have hq1 := ((mem_withColour _ _ q).1 hq).1
      have h := (drawQuadrantPoints_in_quadrants _ _ _ _ _ q.1 hq1).2
      unfold InIntRange
      omega
  · intro s colour
    unfold Surface.drawQuadrant
    rw [hnone]
    rfl

/-- Witness for C22: the top right quarter of a circle of radius 3 around
    `(5, 5)` on the RGB565 example surface leaves the pixel `(4, 6)`, left of
    and below the centre, as it was. -/
theorem drawQuadrant_inside_requested_quadrants_witness :
    -2 ^ 31 ≤ (5 : Int) - (3 : Nat) ∧ (5 : Int) + (3 : Nat) < 2 ^ 31 ∧
    fb565.SamePixel (fb565.drawQuadrant 5 5 3 WHITE 1 QUADRANT_TOP_RIGHT) 4 6 :=
  ⟨by decide, by decide,
   (drawQuadrant_inside_requested_quadrants 5 5 3 1 QUADRANT_TOP_RIGHT (by decide) (by decide)
      (by decide) (by decide)).2.1 fb565 WHITE
    ⟨rfl, by decide, by decide, by decide⟩ (Or.inr (Or.inl rfl)) (by decide) (by decide)
    4 6 (by decide) (by decide) (by decide) (by decide) (by decide)⟩

/-- C26, the claim as stated fails for the ring radius `2 ^ 31 - 1`: as
    `int` values `1 - nRadius` is `-2147483646`, `nRadius` is `2147483647`
    and `-2 * nRadius`, computed in `unsigned int`, is `2` instead of
    `-4294967294`.  With `ddF_y = 2` the midpoint loop plots the offset
    `(46342, 2147483645)`, also as part of
    `drawQuadrant(0, 0, 2147483647, colour, 1, QUADRANT_BOTTOM_RIGHT)`, and
    `46342² + 2147483645²` is not above `(2147483647 - 1/2)²`: the offset is
    more than half a pixel inside the ideal circle. -/
theorem drawQuadrant_ring_radius_wraps :
    toI32 (1 - ((2147483647 : Nat) : Int)) = -2147483646 ∧
    toI32 (-2 * ((2147483647 : Nat) : Int)) = 2 ∧
    toI32 ((2147483647 : Nat) : Int) = 2147483647 ∧
    (46342, 2147483645) ∈ quadrantLoop 0 0 false true false false 2147483647
      (toI32 (1 - ((2147483647 : Nat) : Int))) 0 (toI32 (-2 * ((2147483647 : Nat) : Int))) 0
      (toI32 ((2147483647 : Nat) : Int)) ∧
    (46342, 2147483645) ∈ drawQuadrantPoints 0 0 2147483647 1 QUADRANT_BOTTOM_RIGHT ∧
    ¬ (((2147483647 : Nat) : ℚ) - 1 / 2) ^ 2 < (46342 : ℚ) ^ 2 + (2147483645 : ℚ) ^ 2 := by
  have e1 : toI32 (1 - ((2147483647 : Nat) : Int)) = -2147483646 := by decide
  have e2 : toI32 (-2 * ((2147483647 : Nat) : Int)) = 2 := by decide
  have e3 : toI32 ((2147483647 : Nat) : Int) = 2147483647 := by decide
  have hloop : (46342, 2147483645) ∈ quadrantLoop 0 0 false true false false 2147483647
      (toI32 (1 - ((2147483647 : Nat) : Int))) 0 (toI32 (-2 * ((2147483647 : Nat) : Int))) 0
      (toI32 ((2147483647 : Nat) : Int)) := by
    rw [e1, e2, e3]
    exact quadrantLoop_wrapped_ring 2147437305
  refine ⟨e1, e2, e3, hloop, ?_, by norm_num⟩
  have hr : quadrantRadii 2147483647 1 = [2147483647] := by decide
  have f1 : decide (QUADRANT_BOTTOM_RIGHT &&& QUADRANT_TOP_RIGHT = QUADRANT_TOP_RIGHT) = false := by
    decide
  have f2 : decide (QUADRANT_BOTTOM_RIGHT &&& QUADRANT_BOTTOM_RIGHT = QUADRANT_BOTTOM_RIGHT)
      = true := by decide
  have f3 : decide (QUADRANT_BOTTOM_RIGHT &&& QUADRANT_BOTTOM_LEFT = QUADRANT_BOTTOM_LEFT)
      = false := by decide
  have f4 : decide (QUADRANT_BOTTOM_RIGHT &&& QUADRANT_TOP_LEFT = QUADRANT_TOP_LEFT) = false := by
    decide
  unfold drawQuadrantPoints
  simp only [hr, f1, f2, f3, f4, List.flatMap_cons, List.flatMap_nil, List.append_nil]
  exact List.mem_append_right _ hloop

/-- C26 as amended: for a ring of radius `n` with `1 ≤ n ≤ 2 ^ 30` (so that
    `-2 * nRadius` fits an `int`), the midpoint loop of `drawQuadrant` ends
    by its own condition within `n` passes, and every point it plots is an
    image of an offset `(x, y)` with `1 ≤ x ≤ n`, `0 ≤ y ≤ n` and
    `(n - 1/2)² < x² + y² < (n + 1/2)²`; the point itself is as far from the
    centre, so less than half a pixel away from the ideal circle. -/
theorem drawQuadrant_ring_within_half_pixel (x0 y0 : Int) (bQ1 bQ2 bQ3 bQ4 : Bool) (n : Nat)
    (h1 : 1 ≤ n) (h2 : n ≤ 2 ^ 30) :
    (∀ extra : Nat,
      quadrantLoop x0 y0 bQ1 bQ2 bQ3 bQ4 (n + extra) (toI32 (1 - n)) 0 (toI32 (-2 * n)) 0
          (toI32 n) =
        quadrantLoop x0 y0 bQ1 bQ2 bQ3 bQ4 n (toI32 (1 - n)) 0 (toI32 (-2 * n)) 0 (toI32 n)) ∧
    ∀ p ∈ quadrantLoop x0 y0 bQ1 bQ2 bQ3 bQ4 n (toI32 (1 - n)) 0 (toI32 (-2 * n)) 0 (toI32 n),
      (∃ x y : Int, p ∈ quadrantArcPoints x0 y0 x y bQ1 bQ2 bQ3 bQ4 ∧
        1 ≤ x ∧ x ≤ n ∧ 0 ≤ y ∧ y ≤ n ∧
        ((n : ℚ) - 1 / 2) ^ 2 < (x : ℚ) ^ 2 + (y : ℚ) ^ 2 ∧
        (x : ℚ) ^ 2 + (y : ℚ) ^ 2 < ((n : ℚ) + 1 / 2) ^ 2) ∧
      ((n : ℚ) - 1 / 2) ^ 2 < ((p.1 - x0 : Int) : ℚ) ^ 2 + ((p.2 - y0 : Int) : ℚ) ^ 2 ∧
      ((p.1 - x0 : Int) : ℚ) ^ 2 + ((p.2 - y0 : Int) : ℚ) ^ 2 < ((n : ℚ) + 1 / 2) ^ 2 := by
  have e1 : toI32 (1 - (n : Int)) = 1 - (n : Int) := toI32_of_small _ (by omega) (by omega)
  have e2 : toI32 (-2 * (n : Int)) = -2 * (n : Int) := toI32_of_small _ (by omega) (by omega)
  have e3 : toI32 (n : Int) = (n : Int) := toI32_of_small _ (by omega) (by omega)
  rw [e1, e2, e3]
  refine ⟨fun extra => quadrantLoop_fuel _ _ _ _ _ _ _ _ _ _ _ _ _ (by omega), ?_⟩
  intro p hp
  obtain ⟨a, b, hab, ha1, ha2, hb1, hb2, hlo, hhi⟩ :=
    quadrantLoop_ring x0 y0 bQ1 bQ2 bQ3 bQ4 (n : Int) n _ _ _ _ _ (le_refl 0) (le_refl _)
      (by ring) (by ring) (by ring) (by
        have : (0 : Int) ^ 2 = 0 := by norm_num
        omega) (by
        have : (0 : Int) ^ 2 = 0 := by norm_num
        omega) p hp
  have qlo : (n : ℚ) ^ 2 - (n : ℚ) + 1 ≤ (a : ℚ) ^ 2 + (b : ℚ) ^ 2 := by exact_mod_cast hlo
  have qhi : (a : ℚ) ^ 2 + (b : ℚ) ^ 2 ≤ (n : ℚ) ^ 2 + (n : ℚ) := by exact_mod_cast hhi
  have el : ((n : ℚ) - 1 / 2) ^ 2 = (n : ℚ) ^ 2 - (n : ℚ) + 1 / 4 := by ring
  have eh : ((n : ℚ) + 1 / 2) ^ 2 = (n : ℚ) ^ 2 + (n : ℚ) + 1 / 4 := by ring
  have hd : ((p.1 - x0 : Int) : ℚ) ^ 2 + ((p.2 - y0 : Int) : ℚ) ^ 2
      = (a : ℚ) ^ 2 + (b : ℚ) ^ 2 := by
    exact_mod_cast quadrantArcPoints_dist _ _ _ _ _ _ _ _ p hab
  rw [hd, el, eh]
  exact ⟨⟨a, b, hab, ha1, ha2, hb1, hb2, by linarith, by linarith⟩, by linarith, by linarith⟩

/-- Witness for C26: the ring of radius 5 around `(10, 10)`, all four
    quadrants. -/
theorem drawQuadrant_ring_within_half_pixel_witness :
    1 ≤ 5 ∧ 5 ≤ 2 ^ 30 ∧
    ∀ p ∈ quadrantLoop 10 10 true true true true 5 (toI32 (1 - (5 : Nat))) 0
        (toI32 (-2 * (5 : Nat))) 0 (toI32 (5 : Nat)),
      (((5 : Nat) : ℚ) - 1 / 2) ^ 2 < ((p.1 - 10 : Int) : ℚ) ^ 2 + ((p.2 - 10 : Int) : ℚ) ^ 2 ∧
      ((p.1 - 10 : Int) : ℚ) ^ 2 + ((p.2 - 10 : Int) : ℚ) ^ 2 < (((5 : Nat) : ℚ) + 1 / 2) ^ 2 :=
  ⟨by decide, by decide, fun p hp =>
    ((drawQuadrant_ring_within_half_pixel 10 10 true true true true 5 (by decide)
      (by decide)).2 p hp).2⟩

/-- C27: `DrawLine` makes the same calls of `DrawPixel` whichever end is
    given first, for every weight, and so does `drawLine`; the plotted sets
    are equal and so are the surfaces after the calls. -/
theorem DrawLine_symmetric_in_ends (x1 y1 x2 y2 : Int) (colour weight : Nat) :
    DrawLinePoints x1 y1 x2 y2 weight = DrawLinePoints x2 y2 x1 y1 weight ∧
    drawLinePoints x1 y1 x2 y2 = drawLinePoints x2 y2 x1 y1 ∧
    (∀ p : Int × Int, p ∈ DrawLinePoints x1 y1 x2 y2 weight ↔
      p ∈ DrawLinePoints x2 y2 x1 y1 weight) ∧
    (∀ s : Surface, s.DrawLine x1 y1 x2 y2 colour weight = s.DrawLine x2 y2 x1 y1 colour weight ∧
      s.drawLine x1 y1 x2 y2 colour = s.drawLine x2 y2 x1 y1 colour) := by
  refine ⟨DrawLinePoints_comm _ _ _ _ _, drawLinePoints_comm _ _ _ _, ?_, ?_⟩
  · intro p
    rw [DrawLinePoints_comm]
  · intro s
    unfold Surface.DrawLine Surface.drawLine
    rw [DrawLinePoints_comm, drawLinePoints_comm]
    exact ⟨rfl, rfl⟩

end ribanfblib
